import Mathlib

/-!
# KeeperRL visibility map

A shallow embedding of `visibility_map.cpp`: the reference-counting visibility
aggregation (`VisibilityMap`) with its three tables, together with the world's
record of `setNeedsRenderUpdate(true)` calls, and proofs of its contract.
-/

namespace KeeperRL

/-- Modelled from the spec: `Position` is declared in `position.h` (absent here); the spec
describes it as an opaque grid cell identity with equality, written `(x, y)` in its scenario. -/
structure Position where
  x : Int
  y : Int
deriving DecidableEq, Repr

/-- Modelled from the spec: observers (`const Creature*`) are used only as stable map keys;
a creature is represented by its stable identity. -/
abbrev Creature := Nat

/-! ## Key/value tables

`EntityMap`, `PositionMap` and the eyeball table are declared in headers that are not part of
the sources at hand. They are modelled as association lists in which a key is looked up by its
first occurrence; the accessors below are the ones `visibility_map.cpp` calls. -/

namespace Table

variable {K V : Type} [DecidableEq K]

/-- Modelled from the spec: `getMaybe` / `getReferenceMaybe` / `getValueMaybe` of the absent
container headers: the value stored under `k`, or nothing when `k` has no entry. -/
def getMaybe (k : K) : List (K × V) → Option V
  | [] => none
  | e :: r => if e.1 = k then some e.2 else getMaybe k r

/-- Modelled from the spec: `set` of the absent container headers (also the write through the
reference returned by `getOrInit` / `getOrFail`): the value under `k` is replaced in place, and
a new entry is created when `k` has none. -/
def set (k : K) (v : V) : List (K × V) → List (K × V)
  | [] => [(k, v)]
  | e :: r => if e.1 = k then (k, v) :: r else e :: set k v r

/-- Modelled from the spec: `erase` of the absent container headers: `k` has no entry
afterwards; erasing an absent key changes nothing. -/
def erase (k : K) (m : List (K × V)) : List (K × V) :=
  m.filter (fun e => !decide (e.1 = k))

/-- Modelled from the spec: `hasKey` / `contains` of the absent container headers. -/
def hasKey (k : K) (m : List (K × V)) : Bool :=
  (getMaybe k m).isSome

/-- The keys of a table, in storage order. -/
def keys (m : List (K × V)) : List K :=
  m.map Prod.fst

end Table

/-- The members of `VisibilityMap` (`lastUpdates`, `visibilityCount`, `eyeballs`), together
with `renderUpdates`: the positions on which `setNeedsRenderUpdate(true)` has been called, in
call order (that flag lives in the world, it is recorded here as an appended log). The `int`
counts are unbounded integers here: a count never exceeds the number of tile occurrences
currently tracked, and signed overflow has no defined result in C++. -/
structure VisibilityMap where
  lastUpdates : List (Creature × List Position)
  visibilityCount : List (Position × Int)
  eyeballs : List (Position × List Position)
  renderUpdates : List Position
deriving DecidableEq, Repr

/-- Modelled from the spec: the external collaborators `Position::getCreature`,
`Creature::getVisibleTiles` and `Position::getVisibleTiles(eyeballVision)`, none of which is
defined in the sources at hand; they are arbitrary functions. -/
structure World where
  getCreature : Position → Option Creature
  creatureVisibleTiles : Creature → List Position
  eyeballVisibleTiles : Position → List Position

namespace VisibilityMap

/-- A freshly constructed map: all three tables empty, nothing notified. -/
def empty : VisibilityMap :=
  { lastUpdates := [], visibilityCount := [], eyeballs := [], renderUpdates := [] }

/-- The count of a position, an absent entry counting as 0
(`visibilityCount.getValueMaybe(pos).value_or(0)`). -/
def count (s : VisibilityMap) (p : Position) : Int :=
  (Table.getMaybe p s.visibilityCount).getD 0

/-- One iteration of the loop of `addPositions`: `++visibilityCount.getOrInit(v)`, and when the
new value is 1 the position is notified and pushed onto `ret`. -/
def addStep (acc : List Position × VisibilityMap) (v : Position) :
    List Position × VisibilityMap :=
  let n := (Table.getMaybe v acc.2.visibilityCount).getD 0 + 1
  let s := { acc.2 with visibilityCount := Table.set v n acc.2.visibilityCount }
  if n = 1 then (acc.1 ++ [v], { s with renderUpdates := s.renderUpdates ++ [v] })
  else (acc.1, s)

/-- `VisibilityMap::addPositions`: returns `ret` and the new state. -/
def addPositions (s : VisibilityMap) (positions : List Position) :
    List Position × VisibilityMap :=
  positions.foldl addStep ([], s)

/-- One iteration of the loop of `removePositions`: `--visibilityCount.getOrFail(v)`, fatal
(`none`) when `v` has no entry, and a notification when the new value is 0. -/
def removeStep (s : VisibilityMap) (v : Position) : Option VisibilityMap :=
  match Table.getMaybe v s.visibilityCount with
  | none => none
  | some n =>
    let s1 := { s with visibilityCount := Table.set v (n - 1) s.visibilityCount }
    if n - 1 = 0 then some { s1 with renderUpdates := s1.renderUpdates ++ [v] }
    else some s1

/-- `VisibilityMap::removePositions`; `none` is the fatal failure of `getOrFail`. -/
def removePositions (s : VisibilityMap) (positions : List Position) : Option VisibilityMap :=
  positions.foldlM removeStep s

/-- `VisibilityMap::remove`. -/
def remove (s : VisibilityMap) (c : Creature) : Option VisibilityMap :=
  match Table.getMaybe c s.lastUpdates with
  | some positions =>
    (s.removePositions positions).map
      (fun s1 => { s1 with lastUpdates := Table.erase c s1.lastUpdates })
  | none => some { s with lastUpdates := Table.erase c s.lastUpdates }

/-- `VisibilityMap::update`. -/
def update (s : VisibilityMap) (c : Creature) (visibleTiles : List Position) :
    Option (List Position × VisibilityMap) :=
  (s.remove c).map (fun s1 =>
    addPositions { s1 with lastUpdates := Table.set c visibleTiles s1.lastUpdates } visibleTiles)

/-- `VisibilityMap::removeEyeball`. -/
def removeEyeball (s : VisibilityMap) (pos : Position) : Option VisibilityMap :=
  match Table.getMaybe pos s.eyeballs with
  | some positions =>
    (s.removePositions positions).map
      (fun s1 => { s1 with eyeballs := Table.erase pos s1.eyeballs })
  | none => some { s with eyeballs := Table.erase pos s.eyeballs }

/-- `VisibilityMap::updateEyeball`; the result of `addPositions` is discarded. -/
def updateEyeball (w : World) (s : VisibilityMap) (pos : Position) : Option VisibilityMap :=
  (s.removeEyeball pos).map (fun s1 =>
    let visibleTiles := w.eyeballVisibleTiles pos
    (addPositions { s1 with eyeballs := Table.set pos visibleTiles s1.eyeballs }
      visibleTiles).2)

/-- `VisibilityMap::onVisibilityChanged`. -/
def onVisibilityChanged (w : World) (s : VisibilityMap) (pos : Position) :
    Option VisibilityMap :=
  let afterCreature : Option VisibilityMap :=
    match w.getCreature pos with
    | some c =>
      if Table.hasKey c s.lastUpdates then
        (s.update c (w.creatureVisibleTiles c)).map Prod.snd
      else some s
    | none => some s
  afterCreature.bind (fun s1 =>
    if Table.hasKey pos s1.eyeballs then updateEyeball w s1 pos else some s1)

/-- `VisibilityMap::isVisible`, a `const` method: a function of the state only. -/
def isVisible (s : VisibilityMap) (pos : Position) : Bool :=
  decide ((Table.getMaybe pos s.visibilityCount).getD 0 > 0)

end VisibilityMap

/-- A call of one of the five public mutating operations. -/
inductive Op where
  | update (c : Creature) (visibleTiles : List Position)
  | remove (c : Creature)
  | updateEyeball (pos : Position)
  | removeEyeball (pos : Position)
  | onVisibilityChanged (pos : Position)
deriving DecidableEq, Repr

/-- Performs one public call in the world `w`. -/
def Op.apply (w : World) (s : VisibilityMap) : Op → Option VisibilityMap
  | .update c visibleTiles => (s.update c visibleTiles).map Prod.snd
  | .remove c => s.remove c
  | .updateEyeball pos => VisibilityMap.updateEyeball w s pos
  | .removeEyeball pos => s.removeEyeball pos
  | .onVisibilityChanged pos => VisibilityMap.onVisibilityChanged w s pos

/-- Performs a sequence of public calls, each in the world as it is at the time of the call;
`none` as soon as one call fails fatally. -/
def run (s : VisibilityMap) (ops : List (World × Op)) : Option VisibilityMap :=
  ops.foldlM (fun st e => Op.apply e.1 st e.2) s

/-- The tile lists a call supplies (directly, or through the vision collaborators it would
consult) are duplicate-free. -/
def Op.dupFree (w : World) : Op → Bool
  | .update _ visibleTiles => decide visibleTiles.Nodup
  | .remove _ => true
  | .updateEyeball pos => decide (w.eyeballVisibleTiles pos).Nodup
  | .removeEyeball _ => true
  | .onVisibilityChanged pos =>
    (match w.getCreature pos with
      | some c => decide (w.creatureVisibleTiles c).Nodup
      | none => true) && decide (w.eyeballVisibleTiles pos).Nodup

/-- Number of entries of a table whose tile list contains `p`. -/
def holders {K : Type} (p : Position) (m : List (K × List Position)) : Nat :=
  (m.filter (fun e => decide (p ∈ e.2))).length

/-- Total number of occurrences of `p` in the tile lists of a table. -/
def contrib {K : Type} (p : Position) (m : List (K × List Position)) : Nat :=
  (m.map (fun e => e.2.count p)).sum

/-- Every tile list stored in a table is duplicate-free. -/
def AllNodup {K : Type} (m : List (K × List Position)) : Prop :=
  ∀ e ∈ m, e.2.Nodup

/-- The counter holds exactly the totals `tot`: every stored count is `tot` of its position,
and a position without an entry has total 0. -/
def VisibilityMap.CounterIs (s : VisibilityMap) (tot : Position → Nat) : Prop :=
  ∀ p, Table.getMaybe p s.visibilityCount = some ((tot p : Nat) : Int) ∨
    (Table.getMaybe p s.visibilityCount = none ∧ tot p = 0)

/-- The counter agrees with the tracked contributions: every stored count is the total number
of occurrences of its position in the tracked tile lists, a position without an entry occurs
in none of them, and no table holds a key twice. -/
def Inv (s : VisibilityMap) : Prop :=
  (Table.keys s.lastUpdates).Nodup ∧ (Table.keys s.eyeballs).Nodup ∧
  s.CounterIs (fun p => contrib p s.lastUpdates + contrib p s.eyeballs)

/-- Whether observer `o` has an entry in `lastUpdates` after a call, given whether it had one
before: a direct `update(o, _)` creates it, a direct `remove(o)` deletes it. -/
def Op.tracks (o : Creature) (before : Bool) : Op → Bool
  | .update c _ => if c = o then true else before
  | .remove c => if c = o then false else before
  | .updateEyeball _ => before
  | .removeEyeball _ => before
  | .onVisibilityChanged _ => before

/-- A sample world: creature 1 stands on `(0, 0)` and sees `(0, 0)` and `(1, 0)`; an eyeball
at `pos` sees `pos` and its right-hand neighbour. -/
def sampleWorld : World :=
  { getCreature := fun p => if p = ⟨0, 0⟩ then some 1 else none
    creatureVisibleTiles := fun _ => [⟨0, 0⟩, ⟨1, 0⟩]
    eyeballVisibleTiles := fun pos => [pos, ⟨pos.x + 1, pos.y⟩] }

/-- A sample call sequence with duplicate-free tile lists. -/
def sampleOps : List (World × Op) :=
  [(sampleWorld, .update 1 [⟨0, 0⟩, ⟨1, 0⟩]), (sampleWorld, .update 2 [⟨1, 0⟩, ⟨2, 0⟩]),
    (sampleWorld, .updateEyeball ⟨1, 0⟩), (sampleWorld, .onVisibilityChanged ⟨0, 0⟩),
    (sampleWorld, .remove 2)]

/-- The call sequence contains an `update(o, _)` that no `remove(o)` follows. -/
def LastUpdateStands (o : Creature) (ops : List (World × Op)) : Prop :=
  ∃ pre w tiles post, ops = pre ++ (w, Op.update o tiles) :: post ∧
    ∀ e ∈ post, e.2 ≠ Op.remove o

/-- A sample state in which observer 1 and an eyeball at `(1, 0)` are tracked. -/
def sampleState : VisibilityMap :=
  { lastUpdates := [(1, [⟨0, 0⟩, ⟨1, 0⟩])]
    visibilityCount := [(⟨0, 0⟩, 1), (⟨1, 0⟩, 2), (⟨2, 0⟩, 1)]
    eyeballs := [(⟨1, 0⟩, [⟨1, 0⟩, ⟨2, 0⟩])]
    renderUpdates := [⟨0, 0⟩, ⟨1, 0⟩, ⟨2, 0⟩] }

/-- The occurrences `L[i]`, in list order, at whose step in the loop of `addPositions` the
count of the tile changes from 0 to 1: the count is 0 in the state reached after the first `i`
iterations and 1 after `i + 1` iterations. -/
def addTransitions (s : VisibilityMap) (L : List Position) : List Position :=
  (List.range L.length).filterMap (fun i =>
    match L[i]? with
    | some v =>
      if (s.addPositions (L.take i)).2.count v = 0 ∧
          (s.addPositions (L.take (i + 1))).2.count v = 1 then some v else none
    | none => none)

/-- The occurrences `L[i]`, in list order, at whose step in the loop of `removePositions` the
count of the tile changes from 1 to 0: the count is 1 in the state reached after the first `i`
iterations and 0 after `i + 1` iterations. -/
def removeTransitions (s : VisibilityMap) (L : List Position) : List Position :=
  (List.range L.length).filterMap (fun i =>
    match L[i]? with
    | some v =>
      if (s.removePositions (L.take i)).map (fun b => b.count v) = some 1 ∧
          (s.removePositions (L.take (i + 1))).map (fun b => b.count v) = some 0
      then some v else none
    | none => none)

/-- The tile list of observer A in the scenario of the spec. -/
def sampleSA : List Position := [⟨0, 0⟩, ⟨1, 0⟩]

/-- The tile list of observer B in the scenario of the spec. -/
def sampleSB : List Position := [⟨1, 0⟩, ⟨2, 0⟩]

/-- Two updates in the scenario of the spec: observer 1 sees `(0,0), (1,0)` and observer 2 sees
`(1,0), (2,0)`. -/
def flickerOps : List (World × Op) :=
  [(sampleWorld, .update 1 sampleSA), (sampleWorld, .update 2 sampleSB)]

/-- The state `flickerOps` leads to: counts 1, 2, 1. -/
def flickerState : VisibilityMap :=
  { lastUpdates := [(1, sampleSA), (2, sampleSB)]
    visibilityCount := [(⟨0, 0⟩, 1), (⟨1, 0⟩, 2), (⟨2, 0⟩, 1)]
    eyeballs := []
    renderUpdates := [⟨0, 0⟩, ⟨1, 0⟩, ⟨2, 0⟩] }

/-- Two states have the same counter and the same notification log. -/
def SameCounter (s t : VisibilityMap) : Prop :=
  s.visibilityCount = t.visibilityCount ∧ s.renderUpdates = t.renderUpdates

/-- A second sample world, in which an eyeball at `pos` sees `pos` and the tile below it. -/
def sampleWorld2 : World :=
  { getCreature := fun _ => none
    creatureVisibleTiles := fun _ => []
    eyeballVisibleTiles := fun pos => [pos, ⟨pos.x, pos.y + 1⟩] }

/-- Calls after which observer 1 and the eyeball at `(1, 0)` store the same tile list. -/
def twinOps : List (World × Op) :=
  [(sampleWorld, .update 1 sampleSB), (sampleWorld, .updateEyeball ⟨1, 0⟩)]

/-- The state `twinOps` leads to. -/
def twinState : VisibilityMap :=
  { lastUpdates := [(1, sampleSB)]
    visibilityCount := [(⟨1, 0⟩, 2), (⟨2, 0⟩, 2)]
    eyeballs := [(⟨1, 0⟩, sampleSB)]
    renderUpdates := [⟨1, 0⟩, ⟨2, 0⟩] }

/-! ## Geometry helpers of `util.cpp`

`int` coordinates are integers here; the statements below are about runs in which no
coordinate arithmetic overflows (signed overflow has no defined result in C++). -/

/-- `Vec2`: a pair of `int` coordinates. -/
structure Vec2 where
  x : Int
  y : Int
deriving DecidableEq, Repr

/-- `Rectangle`: the corners `(px, py)` (inclusive) and `(kx, ky)` (exclusive), with the
cached width `w` and height `h`. -/
structure Rectangle where
  px : Int
  py : Int
  kx : Int
  ky : Int
  w : Int
  h : Int
deriving DecidableEq, Repr

/-- `Rectangle::Rectangle(int px1, int py1, int kx1, int ky1)`; `none` when
`CHECK(kx > px && ky > py)` fails. -/
def Rectangle.construct (px1 py1 kx1 ky1 : Int) : Option Rectangle :=
  if kx1 > px1 ∧ ky1 > py1 then
    some { px := px1, py := py1, kx := kx1, ky := ky1, w := kx1 - px1, h := ky1 - py1 }
  else none

/-- `Vec2::inRectangle(const Rectangle&)`. -/
def Vec2.inRectangle (v : Vec2) (r : Rectangle) : Bool :=
  decide (v.x ≥ r.px) && decide (v.x < r.kx) && decide (v.y ≥ r.py) && decide (v.y < r.ky)

/-- `Rectangle::intersects`. -/
def Rectangle.intersects (r other : Rectangle) : Bool :=
  decide (max r.px other.px < min r.kx other.kx) &&
    decide (max r.py other.py < min r.ky other.ky)

/-- `Rectangle::intersection`: the constructor is called on the clipped corners. -/
def Rectangle.intersection (r other : Rectangle) : Option Rectangle :=
  Rectangle.construct (max r.px other.px) (max r.py other.py) (min r.kx other.kx)
    (min r.ky other.ky)

/-- `Rectangle::Iter`: the current position and the bounds of the rectangle. -/
structure Rectangle.Iter where
  pos : Vec2
  px : Int
  py : Int
  kx : Int
  ky : Int
deriving DecidableEq, Repr

/-- `Rectangle::Iter::operator++`. -/
def Rectangle.Iter.next (it : Rectangle.Iter) : Rectangle.Iter :=
  let y1 := it.pos.y + 1
  if y1 ≥ it.ky then { it with pos := { x := it.pos.x + 1, y := it.py } }
  else { it with pos := { x := it.pos.x, y := y1 } }

/-- `Rectangle::Iter::operator!=`, which is `Vec2::operator!=` on the positions:
`v.x != x || v.y != y`. -/
def Rectangle.Iter.ne (it other : Rectangle.Iter) : Bool :=
  decide (other.pos.x ≠ it.pos.x) || decide (other.pos.y ≠ it.pos.y)

/-- `Rectangle::begin`. -/
def Rectangle.begin (r : Rectangle) : Rectangle.Iter :=
  { pos := { x := r.px, y := r.py }, px := r.px, py := r.py, kx := r.kx, ky := r.ky }

/-- `Rectangle::end` (written `endIter`, `end` being reserved). -/
def Rectangle.endIter (r : Rectangle) : Rectangle.Iter :=
  { pos := { x := r.kx, y := r.py }, px := r.px, py := r.py, kx := r.kx, ky := r.ky }

/-- The range-based `for (Vec2 v : (*this)) ret.push_back(v)` of `getAllSquares`, from the
iterator `it` up to `last`; `none` when the fuel runs out before `it` meets `last`. -/
def Rectangle.squaresLoop : Nat → Rectangle.Iter → Rectangle.Iter → List Vec2 →
    Option (List Vec2)
  | 0, _, _, _ => none
  | fuel + 1, it, last, ret =>
    if it.ne last then Rectangle.squaresLoop fuel it.next last (ret ++ [it.pos])
    else some ret

/-- `Rectangle::getAllSquares`, with the number of loop iterations bounded by `fuel`. -/
def Rectangle.getAllSquares (fuel : Nat) (r : Rectangle) : Option (List Vec2) :=
  Rectangle.squaresLoop fuel r.begin r.endIter []

/-- The order "by x, then by y" on `Vec2`. -/
def Vec2.lexLt (a b : Vec2) : Prop :=
  a.x < b.x ∨ (a.x = b.x ∧ a.y < b.y)

/-- The `k`-th square of a rectangle in column-major order: column `k / h`, row `k % h`. -/
def Rectangle.squareAt (r : Rectangle) (k : Nat) : Vec2 :=
  { x := r.px + ((k / r.h.toNat : Nat) : Int), y := r.py + ((k % r.h.toNat : Nat) : Int) }

/-- `Vec2::neighbors4`. -/
def Vec2.neighbors4 (v : Vec2) : List Vec2 :=
  [⟨v.x, v.y + 1⟩, ⟨v.x + 1, v.y⟩, ⟨v.x, v.y - 1⟩, ⟨v.x - 1, v.y⟩]

/-- The inner loop of `calculateLayers` up to its `break`: some `v2` of `v.neighbors4()` has
`!curElems.count(v2)`. -/
def Vec2.hasOutsideNeighbor (curElems : Finset Vec2) (v : Vec2) : Bool :=
  v.neighbors4.any (fun v2 => decide (v2 ∉ curElems))

/-- The body of `for (Vec2 v : curElems)` in `calculateLayers`, acting on the pair
`(ret.back(), elems)`: a `v` with a neighbour outside the snapshot `curElems` is inserted into
the layer and erased from `elems`. -/
def Vec2.layerStep (curElems : Finset Vec2) (acc : Finset Vec2 × Finset Vec2) (v : Vec2) :
    Finset Vec2 × Finset Vec2 :=
  if Vec2.hasOutsideNeighbor curElems v then (insert v acc.1, acc.2.erase v) else acc

/-- The body of the loop does not depend on the order in which the set is traversed. -/
instance Vec2.layerStep_rightCommutative (curElems : Finset Vec2) :
    RightCommutative (Vec2.layerStep curElems) :=
  ⟨by
    intro acc v1 v2
    unfold Vec2.layerStep
    by_cases h1 : Vec2.hasOutsideNeighbor curElems v1 = true <;>
      by_cases h2 : Vec2.hasOutsideNeighbor curElems v2 = true <;>
      simp [h1, h2, Finset.Insert.comm, Finset.erase_right_comm]⟩

/-- One iteration of `while (1)` in `calculateLayers` up to the emptiness test: the new layer
`ret.back()` and the new `elems`, obtained by running the `for` loop over the snapshot
`curElems(elems)`. -/
def Vec2.layerPass (elems : Finset Vec2) : Finset Vec2 × Finset Vec2 :=
  Multiset.foldl (Vec2.layerStep elems) (∅, elems) elems.val

/-- The `while (1)` loop of `calculateLayers`; `none` when the fuel runs out before `elems`
is empty. -/
def Vec2.calculateLayersLoop : Nat → Finset Vec2 → List (Finset Vec2) →
    Option (List (Finset Vec2))
  | 0, _, _ => none
  | fuel + 1, elems, ret =>
    let pass := Vec2.layerPass elems
    if pass.2 = ∅ then some (ret ++ [pass.1])
    else Vec2.calculateLayersLoop fuel pass.2 (ret ++ [pass.1])

/-- `Vec2::calculateLayers`, with the number of iterations of `while (1)` bounded by
`fuel`. -/
def Vec2.calculateLayers (fuel : Nat) (elems : Finset Vec2) : Option (List (Finset Vec2)) :=
  Vec2.calculateLayersLoop fuel elems []

/-- The elements of `s` that have a 4-neighbour outside `s`. -/
def Vec2.boundary (s : Finset Vec2) : Finset Vec2 :=
  s.filter (fun v => ∃ v2 ∈ v.neighbors4, v2 ∉ s)

/-- What remains of `s` after the layers `ls` were removed. -/
def Vec2.remaining (s : Finset Vec2) (ls : List (Finset Vec2)) : Finset Vec2 :=
  ls.foldl (fun acc l => acc \ l) s

/-- A 3 x 3 block of squares. -/
def sampleBlock : Finset Vec2 :=
  {⟨0, 0⟩, ⟨0, 1⟩, ⟨0, 2⟩, ⟨1, 0⟩, ⟨1, 1⟩, ⟨1, 2⟩, ⟨2, 0⟩, ⟨2, 1⟩, ⟨2, 2⟩}

/-! ## `DisjointSets` of `util.cpp` -/

/-- `DisjointSets`: the vectors `father` and `size`. -/
structure DisjointSets where
  father : List Nat
  size : List Int
deriving DecidableEq, Repr

/-- A 32-bit `int` result: the sum `size[i] + size[j]` is reduced to the two's complement
range (joining two members of one set doubles the stored size, so the sum can leave the
range). -/
def wrapInt32 (v : Int) : Int :=
  (v + 2 ^ 31) % 2 ^ 32 - 2 ^ 31

namespace DisjointSets

/-- `DisjointSets::DisjointSets(int s)`: `father[i] = i` and `size[i] = 1`. -/
def init (s : Nat) : DisjointSets :=
  { father := List.range s, size := List.replicate s 1 }

/-- The first loop of `getSet`: `while (father[ret] != ret) ret = father[ret];`. The result is
`none` when an index is out of range or the fuel runs out. -/
def getSetFind : Nat → List Nat → Nat → Option Nat
  | 0, _, _ => none
  | fuel + 1, father, ret =>
    match father[ret]? with
    | none => none
    | some f => if f ≠ ret then getSetFind fuel father f else some ret

/-- The second loop of `getSet`:
`while (i != ret) { int j = father[i]; father[i] = ret; i = j; }`. -/
def getSetCompress : Nat → List Nat → Nat → Nat → Option (List Nat)
  | 0, _, _, _ => none
  | fuel + 1, father, i, ret =>
    if i ≠ ret then
      match father[i]? with
      | none => none
      | some j => getSetCompress fuel (father.set i ret) j ret
    else some father

/-- `DisjointSets::getSet`: the returned root and the state after path compression; each of
the two loops may run for at most `fuel` iterations. -/
def getSet (fuel : Nat) (d : DisjointSets) (i : Nat) : Option (Nat × DisjointSets) :=
  (getSetFind fuel d.father i).bind (fun ret =>
    (getSetCompress fuel d.father i ret).map (fun father =>
      (ret, { d with father := father })))

/-- `DisjointSets::join`. -/
def join (fuel : Nat) (d : DisjointSets) (i j : Nat) : Option DisjointSets :=
  (d.getSet fuel i).bind (fun ri =>
    (ri.2.getSet fuel j).bind (fun rj =>
      let d2 := rj.2
      (d2.size[ri.1]?).bind (fun si =>
        (d2.size[rj.1]?).bind (fun sj =>
          let i1 := if si < sj then rj.1 else ri.1
          let j1 := if si < sj then ri.1 else rj.1
          let si1 := if si < sj then sj else si
          let sj1 := if si < sj then si else sj
          if j1 < d2.father.length then
            some { father := d2.father.set j1 i1
                   size := d2.size.set i1 (wrapInt32 (si1 + sj1)) }
          else none))))

/-- `DisjointSets::same(int i, int j)`: `getSet(i) == getSet(j)`. C++ leaves the order of the
two calls open; `jFirst` selects it. -/
def same (jFirst : Bool) (fuel : Nat) (d : DisjointSets) (i j : Nat) :
    Option (Bool × DisjointSets) :=
  if jFirst then
    (d.getSet fuel j).bind (fun rj =>
      (rj.2.getSet fuel i).map (fun ri => (decide (ri.1 = rj.1), ri.2)))
  else
    (d.getSet fuel i).bind (fun ri =>
      (ri.2.getSet fuel j).map (fun rj => (decide (ri.1 = rj.1), rj.2)))

/-- A sequence of `join` calls. -/
def joinAll (fuel : Nat) (d : DisjointSets) (joins : List (Nat × Nat)) :
    Option DisjointSets :=
  joins.foldlM (fun st e => st.join fuel e.1 e.2) d

/-- The entry `father[x]`, read as `x` itself outside the vector. -/
def fa (father : List Nat) (x : Nat) : Nat :=
  (father[x]?).getD x

/-- The father vector of length `n` is a forest: `root x` is the root above `x`, and `depth`
strictly decreases towards the root and stays below `bound`. -/
structure Forest (father : List Nat) (n : Nat) (root depth : Nat → Nat) (bound : Nat) :
    Prop where
  len : father.length = n
  fa_lt : ∀ x, x < n → fa father x < n
  root_fa : ∀ x, x < n → root (fa father x) = root x
  root_self : ∀ x, x < n → fa father x = x → root x = x
  depth_fa : ∀ x, x < n → fa father x ≠ x → depth (fa father x) < depth x
  root_lt : ∀ x, x < n → root x < n
  fa_root : ∀ x, x < n → fa father (root x) = root x
  depth_root : ∀ x, x < n → root x ≠ x → depth (root x) < depth x
  depth_lt : ∀ x, x < n → depth x < bound
  root_out : ∀ x, n ≤ x → root x = x

/-- The depth bound after `k` further joins. -/
def boundAfter : Nat → Nat → Nat
  | bound, 0 => bound
  | bound, k + 1 => boundAfter (2 * bound + 1) k

end DisjointSets

/-- The pair `(x, y)` is among the joined pairs. -/
def DisjointSets.joined (pairs : List (Nat × Nat)) (x y : Nat) : Prop :=
  (x, y) ∈ pairs

/-- Modelled from the spec: the enumeration `Dir` is declared in `util.h`, which is not among
the sources at hand; its eight values are the ones the `switch` of `Vec2::Vec2(Dir)` lists. -/
inductive Dir where
  | N
  | S
  | E
  | W
  | NE
  | NW
  | SE
  | SW
deriving DecidableEq, Repr

/-- `Vec2::Vec2(Dir dir)`. -/
def Vec2.ofDir : Dir → Vec2
  | .N => { x := 0, y := -1 }
  | .S => { x := 0, y := 1 }
  | .E => { x := 1, y := 0 }
  | .W => { x := -1, y := 0 }
  | .NE => { x := 1, y := -1 }
  | .SE => { x := 1, y := 1 }
  | .NW => { x := -1, y := -1 }
  | .SW => { x := -1, y := 1 }

/-- `Vec2::getCardinalDir`; `none` when `FAIL` is reached. -/
def Vec2.getCardinalDir (v : Vec2) : Option Dir :=
  if v.x = 0 ∧ v.y = -1 then some Dir.N
  else if v.x = 1 ∧ v.y = -1 then some Dir.NE
  else if v.x = 1 ∧ v.y = 0 then some Dir.E
  else if v.x = 1 ∧ v.y = 1 then some Dir.SE
  else if v.x = 0 ∧ v.y = 1 then some Dir.S
  else if v.x = -1 ∧ v.y = 1 then some Dir.SW
  else if v.x = -1 ∧ v.y = 0 then some Dir.W
  else if v.x = -1 ∧ v.y = -1 then some Dir.NW
  else none

/-! ## String helpers of `util.cpp`

A `string` is the list of its characters; a `set<char>` is a list of characters of which only
membership is used. -/

/-- `string::substr(pos, len)`: the characters from `pos` on, at most `len` of them; `none`
(it throws) when `pos > size()`. -/
def substr (s : List Char) (pos len : Nat) : Option (List Char) :=
  if pos ≤ s.length then some ((s.drop pos).take len) else none

/-- The body of the loop of `split`, acting on `(begin, ret)` at index `i`: when
`i == s.size() || delim.count(s[i])`, the piece `s.substr(begin, i - begin)` is pushed and
`begin` becomes `i + 1`. -/
def splitStep (s delim : List Char) (st : Nat × List (List Char)) (i : Nat) :
    Option (Nat × List (List Char)) :=
  if decide (i = s.length) ||
      (match s[i]? with
        | some c => decide (c ∈ delim)
        | none => false) then
    (substr s st.1 (i - st.1)).map (fun tmp => (i + 1, st.2 ++ [tmp]))
  else some st

/-- `split(const string& s, const set<char>& delim)`; the loop runs over
`Range(s.size() + 1)`, that is over `0, ..., s.size()`. -/
def split (s delim : List Char) : Option (List (List Char)) :=
  if s.isEmpty then some []
  else ((List.range (s.length + 1)).foldlM (splitStep s delim) (0, [])).map Prod.snd

/-- `isspace` in the "C" locale: space, `\t`, `\n`, `\v`, `\f`, `\r`. -/
def isspace (c : Char) : Bool :=
  decide (c = ' ') || (decide (9 ≤ c.toNat) && decide (c.toNat ≤ 13))

/-- The first loop of `trim`: `while (isspace(s[0])) s.erase(s.begin());`. On the empty string
`s[0]` is the terminating `\0`, which is not a space. -/
def trimFront : List Char → List Char
  | [] => []
  | c :: r => if isspace c then trimFront r else c :: r

/-- The second loop of `trim`, `while (isspace(*s.rbegin())) s.erase(s.size() - 1);`, run on
the reversed string; `none` when `*s.rbegin()` is read on an empty string, which is
undefined. -/
def trimBackRev : List Char → Option (List Char)
  | [] => none
  | c :: r => if isspace c then trimBackRev r else some (c :: r)

/-- `trim(string& s)`: the trimmed string; `none` when `CHECK(s.size() > 0)` fails (or the
second loop reads past an emptied string). -/
def trim (s : List Char) : Option (List Char) :=
  if s.length > 0 then (trimBackRev (trimFront s).reverse).map List.reverse else none

/-- `capitalFirst`. -/
def capitalFirst : List Char → List Char
  | [] => []
  | c :: r => if c.isLower then c.toUpper :: r else c :: r

/-- `hasSentenceEnding`: the last character is `.`, `?`, `!` or a double quote; `none` when
`s.back()` is read on an empty string. -/
def hasSentenceEnding (s : List Char) : Option Bool :=
  s.getLast?.map (fun c =>
    decide (c = '.') || decide (c = '?') || decide (c = '!') || decide (c = Char.ofNat 34))

/-- `makeSentence`. -/
def makeSentence (s : List Char) : Option (List Char) :=
  let s1 := capitalFirst s
  let s2 :=
    match s1 with
    | c0 :: c1 :: r =>
      if c0 = Char.ofNat 34 ∧ c1.isLower then c0 :: c1.toUpper :: r else s1
    | _ => s1
  (hasSentenceEnding s2).map (fun ending => if ending then s2 else s2 ++ ['.'])

/-- The loop of `makeSentences`: `trim(elem); elem = makeSentence(elem);` for each element in
turn. -/
def makeSentencesLoop : List (List Char) → Option (List (List Char))
  | [] => some []
  | elem :: rest =>
    (trim elem).bind (fun t =>
      (makeSentence t).bind (fun e =>
        (makeSentencesLoop rest).map (fun r => e :: r)))

/-- `makeSentences(string s)`; `none` when a `CHECK` fails. -/
def makeSentences (s : List Char) : Option (List (List Char)) :=
  (split s ['.']).bind makeSentencesLoop

/-- The occurrences `L[i]` of a tile list at which the running count of that tile, namely
`cnt L[i]` plus `delta` for every earlier occurrence of the same tile in `L`, equals `target`
just before step `i`; listed in list order. -/
def crossings (cnt : Position → Int) (delta target : Int) (L : List Position) :
    List Position :=
  (List.range L.length).filterMap (fun i =>
    match L[i]? with
    | some v => if cnt v + delta * ((L.take i).count v : Int) = target then some v else none
    | none => none)

/-! ## Lemmas on tables, on the two loops and on the invariant -/

namespace Table

variable {K V : Type} [DecidableEq K]

theorem getMaybe_set (k q : K) (v : V) (m : List (K × V)) :
    getMaybe q (set k v m) = if k = q then some v else getMaybe q m := by
  induction m with
  | nil => simp [set, getMaybe]
  | cons e r ih =>
    by_cases h : e.1 = k
    · by_cases hq : k = q
      · simp [set, getMaybe, h, hq]
      · simp [set, getMaybe, h, hq]
    · by_cases hq : k = q
      · subst hq
        simp [set, getMaybe, h, ih]
      · simp only [set, h, if_false, getMaybe, ih, hq]

theorem getMaybe_erase (k q : K) (m : List (K × V)) :
    getMaybe q (erase k m) = if k = q then none else getMaybe q m := by
  induction m with
  | nil => simp [erase, getMaybe]
  | cons e r ih =>
    unfold erase at ih ⊢
    by_cases h : e.1 = k
    · by_cases hq : k = q
      · subst hq
        simpa [List.filter_cons, h] using ih
      · simp [List.filter_cons, h, ih, hq, getMaybe]
    · by_cases hq : k = q
      · subst hq
        simp [List.filter_cons, h, getMaybe, ih]
      · simp [List.filter_cons, h, getMaybe, ih, hq]

theorem getMaybe_eq_none_iff (k : K) (m : List (K × V)) :
    getMaybe k m = none ↔ k ∉ keys m := by
  induction m with
  | nil => simp [getMaybe, keys]
  | cons e r ih =>
    unfold keys at ih ⊢
    by_cases h : e.1 = k
    · simp [getMaybe, h]
    · have h2 : ¬ k = e.1 := fun hh => h hh.symm
      simp [getMaybe, h, ih, h2]

theorem erase_of_absent (k : K) (m : List (K × V)) (h : getMaybe k m = none) :
    erase k m = m := by
  rw [getMaybe_eq_none_iff] at h
  unfold erase
  rw [List.filter_eq_self]
  intro e he
  have : e.1 ≠ k := by
    intro hk
    apply h
    unfold keys
    exact hk ▸ List.mem_map_of_mem Prod.fst he
  simpa using this

theorem set_of_absent (k : K) (v : V) (m : List (K × V)) (h : getMaybe k m = none) :
    set k v m = m ++ [(k, v)] := by
  induction m with
  | nil => rfl
  | cons e r ih =>
    by_cases hk : e.1 = k
    · simp [getMaybe, hk] at h
    · simp only [getMaybe, hk, if_false] at h
      simp [set, hk, ih h]

theorem keys_erase_nodup (k : K) (m : List (K × V)) (h : (keys m).Nodup) :
    (keys (erase k m)).Nodup := by
  unfold keys erase at *
  exact List.Nodup.sublist (List.Sublist.map _ (List.filter_sublist _)) h

theorem keys_set_nodup (k : K) (v : V) (m : List (K × V)) (h : (keys m).Nodup) :
    (keys (set k v m)).Nodup := by
  induction m with
  | nil => simp [set, keys]
  | cons e r ih =>
    unfold keys at *
    by_cases hk : e.1 = k
    · simp only [set, hk, if_true, List.map_cons] at h ⊢
      simpa [hk] using h
    · simp only [set, hk, if_false, List.map_cons, List.nodup_cons] at h ⊢
      refine ⟨?_, ih h.2⟩
      intro hmem
      have h1 : getMaybe e.1 (set k v r) ≠ none := by
        rw [Ne, getMaybe_eq_none_iff]; exact fun hh => hh hmem
      rw [getMaybe_set] at h1
      have hk2 : ¬ k = e.1 := fun hh => hk hh.symm
      simp only [hk2, if_false, Ne, getMaybe_eq_none_iff, not_not] at h1
      exact h.1 h1

end Table

theorem crossings_nil (cnt : Position → Int) (d t : Int) : crossings cnt d t [] = [] := by
  simp [crossings]

theorem crossings_cons (cnt : Position → Int) (d t : Int) (v : Position) (rest : List Position) :
    crossings cnt d t (v :: rest) =
      (if cnt v = t then [v] else []) ++
        crossings (fun w => cnt w + if w = v then d else 0) d t rest := by
  unfold crossings
  rw [List.length_cons, List.range_succ_eq_map, List.filterMap_cons, List.filterMap_map]
  have h0 : (match (v :: rest)[0]? with
      | some u => if cnt u + d * (((v :: rest).take 0).count u : Int) = t then some u else none
      | none => none) = if cnt v = t then some v else none := by
    simp
  rw [h0]
  have hrest : List.filterMap ((fun i =>
        match (v :: rest)[i]? with
        | some u => if cnt u + d * (((v :: rest).take i).count u : Int) = t then some u else none
        | none => none) ∘ Nat.succ) (List.range rest.length) =
      List.filterMap (fun i =>
        match rest[i]? with
        | some u =>
          if (cnt u + if u = v then d else 0) + d * ((rest.take i).count u : Int) = t
          then some u else none
        | none => none) (List.range rest.length) := by
    apply List.filterMap_congr
    intro i _
    simp only [Function.comp, Nat.succ_eq_add_one, List.getElem?_cons_succ, List.take_succ_cons]
    cases hri : rest[i]? with
    | none => rfl
    | some u =>
      simp only [List.count_cons]
      by_cases huv : u = v
      · subst huv
        simp only [beq_self_eq_true, if_true]
        have : cnt u + d * ((List.count u (List.take i rest) + 1 : Nat) : Int)
            = cnt u + d + d * (List.count u (List.take i rest) : Int) := by
          push_cast; ring
        rw [this]
      · have hvu : (v == u) = false := by
          simpa using fun h => huv h.symm
        simp [huv, hvu]
  rw [hrest]
  by_cases hc : cnt v = t <;> simp [hc]

theorem crossings_nodup (cnt : Position → Int) (d t : Int) (L : List Position)
    (h : L.Nodup) : crossings cnt d t L = L.filter (fun v => decide (cnt v = t)) := by
  induction L generalizing cnt with
  | nil => simp [crossings_nil]
  | cons v rest ih =>
    rw [crossings_cons, ih _ (List.nodup_cons.mp h).2]
    have hv : v ∉ rest := (List.nodup_cons.mp h).1
    have : rest.filter (fun u => decide ((cnt u + if u = v then d else 0) = t))
        = rest.filter (fun u => decide (cnt u = t)) := by
      apply List.filter_congr
      intro u hu
      have : u ≠ v := fun e => hv (e ▸ hu)
      simp [this]
    rw [this, List.filter_cons]
    by_cases hc : cnt v = t <;> simp [hc]

namespace VisibilityMap

theorem count_set (s : VisibilityMap) (v p : Position) (n : Int) :
    count { s with visibilityCount := Table.set v n s.visibilityCount } p
      = if v = p then n else count s p := by
  unfold count
  simp only [Table.getMaybe_set]
  by_cases h : v = p <;> simp [h]

theorem addStep_eq (acc : List Position) (s : VisibilityMap) (v : Position) :
    addStep (acc, s) v =
      (acc ++ (if count s v = 0 then [v] else []),
        { s with
          visibilityCount := Table.set v (count s v + 1) s.visibilityCount
          renderUpdates := s.renderUpdates ++ (if count s v = 0 then [v] else []) }) := by
  unfold addStep count
  by_cases h : (Table.getMaybe v s.visibilityCount).getD 0 = 0
  · simp [h]
  · simp [h]

theorem foldl_addStep (L : List Position) : ∀ (acc : List Position) (s : VisibilityMap),
    (L.foldl addStep (acc, s)).1 = acc ++ crossings (count s) 1 0 L ∧
    (L.foldl addStep (acc, s)).2.lastUpdates = s.lastUpdates ∧
    (L.foldl addStep (acc, s)).2.eyeballs = s.eyeballs ∧
    (L.foldl addStep (acc, s)).2.renderUpdates
      = s.renderUpdates ++ crossings (count s) 1 0 L ∧
    ∀ p, Table.getMaybe p (L.foldl addStep (acc, s)).2.visibilityCount
      = if p ∈ L then some (count s p + (L.count p : Int))
        else Table.getMaybe p s.visibilityCount := by
  induction L with
  | nil => intro acc s; simp [crossings_nil]
  | cons v rest ih =>
    intro acc s
    rw [List.foldl_cons, addStep_eq]
    obtain ⟨h1, h2, h3, h4, h5⟩ := ih (acc ++ (if count s v = 0 then [v] else []))
      { s with
        visibilityCount := Table.set v (count s v + 1) s.visibilityCount
        renderUpdates := s.renderUpdates ++ (if count s v = 0 then [v] else []) }
    have hcnt : count { s with
        visibilityCount := Table.set v (count s v + 1) s.visibilityCount
        renderUpdates := s.renderUpdates ++ (if count s v = 0 then [v] else []) }
        = fun w => count s w + if w = v then 1 else 0 := by
      funext w
      have := count_set s v w (count s v + 1)
      unfold count at this ⊢
      simp only at this ⊢
      rw [this]
      by_cases hw : v = w
      · subst hw; simp
      · have hw2 : ¬ w = v := fun e => hw e.symm
        simp [hw, hw2]
    rw [hcnt] at h1 h4 h5
    refine ⟨?_, h2, h3, ?_, ?_⟩
    · rw [h1, crossings_cons, List.append_assoc]
    · rw [h4, crossings_cons, List.append_assoc]
    · intro p
      rw [h5 p]
      simp only [Table.getMaybe_set, List.mem_cons, List.count_cons]
      by_cases hpv : p = v
      · subst hpv
        simp only [true_or, if_true, beq_self_eq_true]
        by_cases hm : p ∈ rest
        · simp only [hm, if_true]
          congr 1
          push_cast
          ring
        · simp only [hm, if_false, List.count_eq_zero_of_not_mem hm]
          simp
      · have hvp : ¬ v = p := fun e => hpv e.symm
        have hb : (v == p) = false := by simpa using hvp
        simp [hpv, hvp, hb]

theorem removeStep_eq (s : VisibilityMap) (v : Position) :
    removeStep s v = (Table.getMaybe v s.visibilityCount).map (fun n =>
      { s with
        visibilityCount := Table.set v (n - 1) s.visibilityCount
        renderUpdates := s.renderUpdates ++ (if n = 1 then [v] else []) }) := by
  unfold removeStep
  cases h : Table.getMaybe v s.visibilityCount with
  | none => rfl
  | some n =>
    by_cases h1 : n = 1
    · subst h1; simp
    · have : ¬ n - 1 = 0 := by omega
      simp [h1, this]

theorem removePositions_fail (L : List Position) : ∀ (s : VisibilityMap),
    (∃ v ∈ L, Table.getMaybe v s.visibilityCount = none) → removePositions s L = none := by
  induction L with
  | nil => intro s h; simp at h
  | cons v rest ih =>
    intro s h
    unfold removePositions at ih ⊢
    rw [List.foldlM_cons, removeStep_eq]
    cases hv : Table.getMaybe v s.visibilityCount with
    | none => rfl
    | some n =>
      simp only [Option.map_some', Option.some_bind, Option.bind_eq_bind]
      apply ih
      obtain ⟨u, hu, hnone⟩ := h
      rcases List.mem_cons.mp hu with rfl | hu
      · rw [hv] at hnone; cases hnone
      · refine ⟨u, hu, ?_⟩
        simp only [Table.getMaybe_set]
        by_cases e : v = u
        · subst e; rw [hv] at hnone; cases hnone
        · simpa [e] using hnone

theorem removePositions_ok (L : List Position) : ∀ (s : VisibilityMap),
    (∀ v ∈ L, Table.getMaybe v s.visibilityCount ≠ none) →
    ∃ s1, removePositions s L = some s1 ∧
      s1.lastUpdates = s.lastUpdates ∧ s1.eyeballs = s.eyeballs ∧
      s1.renderUpdates = s.renderUpdates ++ crossings (count s) (-1) 1 L ∧
      ∀ p, Table.getMaybe p s1.visibilityCount
        = (Table.getMaybe p s.visibilityCount).map (fun n => n - (L.count p : Int)) := by
  induction L with
  | nil =>
    intro s _
    refine ⟨s, rfl, rfl, rfl, by simp [crossings_nil], ?_⟩
    intro p; cases Table.getMaybe p s.visibilityCount <;> simp
  | cons v rest ih =>
    intro s h
    unfold removePositions at ih ⊢
    rw [List.foldlM_cons, removeStep_eq]
    cases hv : Table.getMaybe v s.visibilityCount with
    | none => exact absurd hv (h v (List.mem_cons_self _ _))
    | some n =>
      simp only [Option.map_some', Option.some_bind, Option.bind_eq_bind]
      have hn : count s v = n := by unfold count; rw [hv]; rfl
      obtain ⟨s1, e1, e2, e3, e4, e5⟩ := ih
        { s with
          visibilityCount := Table.set v (n - 1) s.visibilityCount
          renderUpdates := s.renderUpdates ++ (if n = 1 then [v] else []) } (by
          intro u hu
          simp only [Table.getMaybe_set]
          by_cases e : v = u
          · simp [e]
          · simpa [e] using h u (List.mem_cons_of_mem _ hu))
      have hcnt : count { s with
          visibilityCount := Table.set v (n - 1) s.visibilityCount
          renderUpdates := s.renderUpdates ++ (if n = 1 then [v] else []) }
          = fun w => count s w + if w = v then -1 else 0 := by
        funext w
        have := count_set s v w (n - 1)
        unfold count at this ⊢
        simp only at this ⊢
        rw [this]
        by_cases hw : v = w
        · subst hw; simp [hv]; ring
        · have hw2 : ¬ w = v := fun e => hw e.symm
          simp [hw, hw2]
      rw [hcnt] at e4
      refine ⟨s1, e1, e2, e3, ?_, ?_⟩
      · rw [e4, crossings_cons, hn, List.append_assoc]
      · intro p
        rw [e5 p]
        simp only [Table.getMaybe_set, List.count_cons]
        by_cases hpv : v = p
        · subst hpv
          simp only [if_true, beq_self_eq_true, hv, Option.map_some']
          congr 1
          push_cast
          ring
        · have hb : (v == p) = false := by simpa using hpv
          simp [hpv, hb]

end VisibilityMap

namespace Table

variable {K V : Type} [DecidableEq K]

theorem mem_set (k : K) (v : V) (m : List (K × V)) (e : K × V) (h : e ∈ set k v m) :
    e = (k, v) ∨ e ∈ m := by
  induction m with
  | nil => simpa [set] using h
  | cons a r ih =>
    by_cases hk : a.1 = k
    · simp only [set, hk, if_true, List.mem_cons] at h
      rcases h with h | h
      · exact Or.inl h
      · exact Or.inr (List.mem_cons_of_mem _ h)
    · simp only [set, hk, if_false, List.mem_cons] at h
      rcases h with h | h
      · exact Or.inr (h ▸ List.mem_cons_self _ _)
      · rcases ih h with h | h
        · exact Or.inl h
        · exact Or.inr (List.mem_cons_of_mem _ h)

theorem mem_erase (k : K) (m : List (K × V)) (e : K × V) (h : e ∈ erase k m) : e ∈ m :=
  List.mem_of_mem_filter h

end Table

theorem contrib_append_single {K : Type} (p : Position) (m : List (K × List Position))
    (k : K) (v : List Position) : contrib p (m ++ [(k, v)]) = contrib p m + v.count p := by
  simp [contrib]

theorem contrib_erase {K : Type} [DecidableEq K] (p : Position) (k : K) (v : List Position) :
    ∀ (m : List (K × List Position)), (Table.keys m).Nodup → Table.getMaybe k m = some v →
      contrib p m = contrib p (Table.erase k m) + v.count p := by
  intro m
  induction m with
  | nil => intro _ h; simp [Table.getMaybe] at h
  | cons e r ih =>
    intro hnd hget
    have hnd2 : e.1 ∉ Table.keys r ∧ (Table.keys r).Nodup := by
      simpa [Table.keys] using hnd
    by_cases hk : e.1 = k
    · simp only [Table.getMaybe, hk, if_true, Option.some.injEq] at hget
      have habs : Table.getMaybe k r = none := by
        rw [Table.getMaybe_eq_none_iff]; exact hk ▸ hnd2.1
      have : Table.erase k (e :: r) = r := by
        have h2 := Table.erase_of_absent k r habs
        unfold Table.erase at h2 ⊢
        simp [List.filter_cons, hk, h2]
      rw [this, ← hget]
      simp [contrib]
      omega
    · simp only [Table.getMaybe, hk, if_false] at hget
      have : Table.erase k (e :: r) = e :: Table.erase k r := by
        unfold Table.erase
        simp [List.filter_cons, hk]
      rw [this]
      have := ih hnd2.2 hget
      simp only [contrib, List.map_cons, List.sum_cons] at this ⊢
      omega

theorem holders_eq_contrib {K : Type} (p : Position) (m : List (K × List Position))
    (h : AllNodup m) : holders p m = contrib p m := by
  induction m with
  | nil => rfl
  | cons e r ih =>
    have hr : AllNodup r := fun a ha => h a (List.mem_cons_of_mem _ ha)
    have he : e.2.Nodup := h e (List.mem_cons_self _ _)
    have ih2 := ih hr
    unfold holders contrib at ih2 ⊢
    simp only [List.filter_cons, List.map_cons, List.sum_cons]
    by_cases hp : p ∈ e.2
    · simp only [hp, decide_True, if_true, List.length_cons, ih2,
        List.count_eq_one_of_mem he hp]
      omega
    · simp only [hp, decide_False, List.count_eq_zero_of_not_mem hp]
      simpa using ih2

theorem allNodup_erase {K : Type} [DecidableEq K] (k : K) (m : List (K × List Position))
    (h : AllNodup m) : AllNodup (Table.erase k m) :=
  fun e he => h e (Table.mem_erase k m e he)

theorem allNodup_set {K : Type} [DecidableEq K] (k : K) (v : List Position)
    (m : List (K × List Position)) (h : AllNodup m) (hv : v.Nodup) :
    AllNodup (Table.set k v m) := by
  intro e he
  rcases Table.mem_set k v m e he with rfl | h2
  · exact hv
  · exact h e h2

namespace VisibilityMap

theorem addPositions_facts (s : VisibilityMap) (L : List Position) :
    (s.addPositions L).1 = crossings (count s) 1 0 L ∧
    (s.addPositions L).2.lastUpdates = s.lastUpdates ∧
    (s.addPositions L).2.eyeballs = s.eyeballs ∧
    (s.addPositions L).2.renderUpdates = s.renderUpdates ++ crossings (count s) 1 0 L ∧
    ∀ p, Table.getMaybe p (s.addPositions L).2.visibilityCount
      = if p ∈ L then some (count s p + (L.count p : Int))
        else Table.getMaybe p s.visibilityCount := by
  have h := foldl_addStep L [] s
  simpa [addPositions] using h

theorem count_addPositions (s : VisibilityMap) (L : List Position) (p : Position) :
    count (s.addPositions L).2 p = count s p + (L.count p : Int) := by
  have h := (addPositions_facts s L).2.2.2.2 p
  unfold count at *
  rw [h]
  by_cases hp : p ∈ L
  · simp [hp]
  · simp [hp, List.count_eq_zero_of_not_mem hp]

theorem count_removePositions (s s1 : VisibilityMap) (L : List Position)
    (h : ∀ p, Table.getMaybe p s1.visibilityCount
        = (Table.getMaybe p s.visibilityCount).map (fun n => n - (L.count p : Int)))
    (hL : ∀ v ∈ L, Table.getMaybe v s.visibilityCount ≠ none) (p : Position) :
    count s1 p = count s p - (L.count p : Int) := by
  unfold count
  rw [h p]
  cases hp : Table.getMaybe p s.visibilityCount with
  | none =>
    have : p ∉ L := fun hm => hL p hm hp
    simp [List.count_eq_zero_of_not_mem this]
  | some n => simp

theorem retract_ok (s : VisibilityMap) (S : List Position) (tot : Position → Nat)
    (hvc : CounterIs s tot) (hle : ∀ p, S.count p ≤ tot p) :
    ∃ s1, removePositions s S = some s1 ∧
      s1.lastUpdates = s.lastUpdates ∧ s1.eyeballs = s.eyeballs ∧
      s1.renderUpdates = s.renderUpdates ++ crossings (count s) (-1) 1 S ∧
      (∀ p, count s1 p = count s p - (S.count p : Int)) ∧
      CounterIs s1 (fun p => tot p - S.count p) := by
  have hL : ∀ v ∈ S, Table.getMaybe v s.visibilityCount ≠ none := by
    intro v hv hnone
    rcases hvc v with h | ⟨_, h0⟩
    · rw [h] at hnone; cases hnone
    · have := hle v
      have := List.count_pos_iff.mpr hv
      omega
  obtain ⟨s1, e1, e2, e3, e4, e5⟩ := removePositions_ok S s hL
  refine ⟨s1, e1, e2, e3, e4, count_removePositions s s1 S e5 hL, ?_⟩
  intro p
  rw [e5 p]
  rcases hvc p with h | ⟨h, h0⟩
  · left
    rw [h]
    simp only [Option.map_some', Option.some.injEq]
    have := hle p
    show (tot p : Int) - (S.count p : Int) = ((tot p - S.count p : Nat) : Int)
    omega
  · right
    rw [h]
    refine ⟨rfl, ?_⟩
    show tot p - S.count p = 0
    omega

theorem apply_ok (s : VisibilityMap) (S : List Position) (tot : Position → Nat)
    (hvc : CounterIs s tot) :
    CounterIs (s.addPositions S).2 (fun p => tot p + S.count p) := by
  intro p
  rw [(addPositions_facts s S).2.2.2.2 p]
  by_cases hp : p ∈ S
  · left
    simp only [hp, if_true, Option.some.injEq]
    unfold count
    rcases hvc p with h | ⟨h, h0⟩
    · rw [h]; simp
    · rw [h, h0]; simp
  · simp only [hp, if_false, List.count_eq_zero_of_not_mem hp, Nat.add_zero]
    exact hvc p

theorem remove_ok (s : VisibilityMap) (c : Creature) (h : Inv s) :
    ∃ s1, s.remove c = some s1 ∧ Inv s1 ∧
      s1.lastUpdates = Table.erase c s.lastUpdates ∧ s1.eyeballs = s.eyeballs ∧
      s1.renderUpdates = s.renderUpdates ++
        crossings (count s) (-1) 1 ((Table.getMaybe c s.lastUpdates).getD []) ∧
      ∀ p, count s1 p
        = count s p - ((((Table.getMaybe c s.lastUpdates).getD []).count p : Nat) : Int) := by
  obtain ⟨hk1, hk2, hvc⟩ := h
  unfold remove
  cases hget : Table.getMaybe c s.lastUpdates with
  | none =>
    have he := Table.erase_of_absent c s.lastUpdates hget
    refine ⟨_, rfl, ⟨?_, hk2, ?_⟩, rfl, rfl, ?_, ?_⟩
    · simpa [he] using hk1
    · simpa [he, CounterIs] using hvc
    · simp [crossings_nil]
    · intro p; simp [count]
  | some S =>
    have hce := fun p => contrib_erase p c S s.lastUpdates hk1 hget
    obtain ⟨s1, e1, e2, e3, e4, e5, e6⟩ := retract_ok s S _ hvc (by
      intro p; have := hce p; omega)
    refine ⟨{ s1 with lastUpdates := Table.erase c s1.lastUpdates }, by simp [e1],
      ⟨?_, ?_, ?_⟩, by simp [e2], e3, by simpa using e4, ?_⟩
    · simpa [e2] using Table.keys_erase_nodup c s.lastUpdates hk1
    · simpa [e3] using hk2
    · intro p
      have h6 := e6 p
      have := hce p
      simp only [e2, e3] at h6 ⊢
      have heq : contrib p s.lastUpdates + contrib p s.eyeballs - List.count p S
          = contrib p (Table.erase c s.lastUpdates) + contrib p s.eyeballs := by omega
      rw [heq] at h6
      exact h6
    · intro p
      simpa [count] using e5 p

theorem update_ok (s : VisibilityMap) (c : Creature) (S : List Position) (h : Inv s) :
    ∃ ret s2, s.update c S = some (ret, s2) ∧ Inv s2 ∧
      s2.lastUpdates = Table.set c S (Table.erase c s.lastUpdates) ∧
      s2.eyeballs = s.eyeballs ∧
      ret = crossings (fun p => count s p
        - ((((Table.getMaybe c s.lastUpdates).getD []).count p : Nat) : Int)) 1 0 S ∧
      s2.renderUpdates = s.renderUpdates ++
        crossings (count s) (-1) 1 ((Table.getMaybe c s.lastUpdates).getD []) ++ ret ∧
      ∀ p, count s2 p
        = count s p - ((((Table.getMaybe c s.lastUpdates).getD []).count p : Nat) : Int)
          + (S.count p : Int) := by
  obtain ⟨s1, e1, ⟨hk1, hk2, hvc⟩, e2, e3, e4, e5⟩ := remove_ok s c h
  unfold update
  rw [e1]
  simp only [Option.map_some']
  have hcnt : count { s1 with lastUpdates := Table.set c S s1.lastUpdates }
      = fun p => count s p
        - ((((Table.getMaybe c s.lastUpdates).getD []).count p : Nat) : Int) := by
    funext p
    exact e5 p
  obtain ⟨f1, f2, f3, f4, _⟩ :=
    addPositions_facts { s1 with lastUpdates := Table.set c S s1.lastUpdates } S
  have habs : Table.getMaybe c s1.lastUpdates = none := by
    rw [e2, Table.getMaybe_erase]; simp
  refine ⟨(addPositions { s1 with lastUpdates := Table.set c S s1.lastUpdates } S).1,
    (addPositions { s1 with lastUpdates := Table.set c S s1.lastUpdates } S).2, rfl,
    ⟨?_, ?_, ?_⟩, ?_, ?_, ?_, ?_, ?_⟩
  · rw [f2]
    exact Table.keys_set_nodup c S s1.lastUpdates hk1
  · rw [f3]; exact hk2
  · have ha := apply_ok { s1 with lastUpdates := Table.set c S s1.lastUpdates } S
      (fun p => contrib p s1.lastUpdates + contrib p s1.eyeballs) hvc
    intro p
    have := ha p
    have hc : contrib p (Table.set c S s1.lastUpdates)
        = contrib p s1.lastUpdates + S.count p := by
      rw [Table.set_of_absent c S s1.lastUpdates habs, contrib_append_single]
    have heq : contrib p s1.lastUpdates + contrib p s1.eyeballs + List.count p S
        = contrib p (Table.set c S s1.lastUpdates) + contrib p s1.eyeballs := by omega
    simp only [f2, f3]
    rw [← heq]
    exact this
  · rw [f2, e2]
  · rw [f3]; exact e3
  · rw [f1, hcnt]
  · rw [f4, f1, hcnt]
    simp only [e4]
  · intro p
    rw [count_addPositions, hcnt]

theorem removeEyeball_ok (s : VisibilityMap) (pos : Position) (h : Inv s) :
    ∃ s1, s.removeEyeball pos = some s1 ∧ Inv s1 ∧
      s1.lastUpdates = s.lastUpdates ∧ s1.eyeballs = Table.erase pos s.eyeballs ∧
      s1.renderUpdates = s.renderUpdates ++
        crossings (count s) (-1) 1 ((Table.getMaybe pos s.eyeballs).getD []) ∧
      ∀ p, count s1 p
        = count s p - ((((Table.getMaybe pos s.eyeballs).getD []).count p : Nat) : Int) := by
  obtain ⟨hk1, hk2, hvc⟩ := h
  unfold removeEyeball
  cases hget : Table.getMaybe pos s.eyeballs with
  | none =>
    have he := Table.erase_of_absent pos s.eyeballs hget
    refine ⟨_, rfl, ⟨hk1, ?_, ?_⟩, rfl, rfl, ?_, ?_⟩
    · simpa [he] using hk2
    · simpa [he, CounterIs] using hvc
    · simp [crossings_nil]
    · intro p; simp [count]
  | some S =>
    have hce := fun p => contrib_erase p pos S s.eyeballs hk2 hget
    obtain ⟨s1, e1, e2, e3, e4, e5, e6⟩ := retract_ok s S _ hvc (by
      intro p; have := hce p; omega)
    refine ⟨{ s1 with eyeballs := Table.erase pos s1.eyeballs }, by simp [e1],
      ⟨?_, ?_, ?_⟩, e2, by simp [e3], by simpa using e4, ?_⟩
    · simpa [e2] using hk1
    · simpa [e3] using Table.keys_erase_nodup pos s.eyeballs hk2
    · intro p
      have h6 := e6 p
      have := hce p
      simp only [e2, e3] at h6 ⊢
      have heq : contrib p s.lastUpdates + contrib p s.eyeballs - List.count p S
          = contrib p s.lastUpdates + contrib p (Table.erase pos s.eyeballs) := by omega
      rw [heq] at h6
      exact h6
    · intro p
      simpa [count] using e5 p

theorem updateEyeball_ok (w : World) (s : VisibilityMap) (pos : Position) (h : Inv s) :
    ∃ s2, updateEyeball w s pos = some s2 ∧ Inv s2 ∧
      s2.lastUpdates = s.lastUpdates ∧
      s2.eyeballs = Table.set pos (w.eyeballVisibleTiles pos) (Table.erase pos s.eyeballs) ∧
      s2.renderUpdates = s.renderUpdates ++
        crossings (count s) (-1) 1 ((Table.getMaybe pos s.eyeballs).getD []) ++
        crossings (fun p => count s p
          - ((((Table.getMaybe pos s.eyeballs).getD []).count p : Nat) : Int)) 1 0
          (w.eyeballVisibleTiles pos) ∧
      ∀ p, count s2 p
        = count s p - ((((Table.getMaybe pos s.eyeballs).getD []).count p : Nat) : Int)
          + ((w.eyeballVisibleTiles pos).count p : Int) := by
  obtain ⟨s1, e1, ⟨hk1, hk2, hvc⟩, e2, e3, e4, e5⟩ := removeEyeball_ok s pos h
  unfold updateEyeball
  rw [e1]
  simp only [Option.map_some']
  generalize w.eyeballVisibleTiles pos = S
  have hcnt : count { s1 with eyeballs := Table.set pos S s1.eyeballs }
      = fun p => count s p
        - ((((Table.getMaybe pos s.eyeballs).getD []).count p : Nat) : Int) := by
    funext p
    exact e5 p
  obtain ⟨f1, f2, f3, f4, _⟩ :=
    addPositions_facts { s1 with eyeballs := Table.set pos S s1.eyeballs } S
  have habs : Table.getMaybe pos s1.eyeballs = none := by
    rw [e3, Table.getMaybe_erase]; simp
  refine ⟨(addPositions { s1 with eyeballs := Table.set pos S s1.eyeballs } S).2, rfl,
    ⟨?_, ?_, ?_⟩, ?_, ?_, ?_, ?_⟩
  · rw [f2]; exact hk1
  · rw [f3]
    exact Table.keys_set_nodup pos S s1.eyeballs hk2
  · have ha := apply_ok { s1 with eyeballs := Table.set pos S s1.eyeballs } S
      (fun p => contrib p s1.lastUpdates + contrib p s1.eyeballs) hvc
    intro p
    have := ha p
    have hc : contrib p (Table.set pos S s1.eyeballs)
        = contrib p s1.eyeballs + S.count p := by
      rw [Table.set_of_absent pos S s1.eyeballs habs, contrib_append_single]
    have heq : contrib p s1.lastUpdates + contrib p s1.eyeballs + List.count p S
        = contrib p s1.lastUpdates + contrib p (Table.set pos S s1.eyeballs) := by omega
    simp only [f2, f3]
    rw [← heq]
    exact this
  · rw [f2]; exact e2
  · rw [f3, e3]
  · rw [f4, hcnt]
    simp only [e4]
  · intro p
    rw [count_addPositions, hcnt]

end VisibilityMap

theorem hasKey_erase {V : Type} (c o : Creature) (m : List (Creature × V)) :
    Table.hasKey o (Table.erase c m) = if c = o then false else Table.hasKey o m := by
  unfold Table.hasKey
  rw [Table.getMaybe_erase]
  by_cases h : c = o <;> simp [h]

theorem hasKey_set_erase {V : Type} (c o : Creature) (v : V) (m : List (Creature × V)) :
    Table.hasKey o (Table.set c v (Table.erase c m))
      = if c = o then true else Table.hasKey o m := by
  unfold Table.hasKey
  rw [Table.getMaybe_set, Table.getMaybe_erase]
  by_cases h : c = o <;> simp [h]

theorem apply_step (w : World) (s : VisibilityMap) (op : Op) (h : Inv s) :
    ∃ s2, op.apply w s = some s2 ∧ Inv s2 ∧
      (∀ o, Table.hasKey o s2.lastUpdates = op.tracks o (Table.hasKey o s.lastUpdates)) ∧
      (op.dupFree w = true → AllNodup s.lastUpdates → AllNodup s.eyeballs →
        AllNodup s2.lastUpdates ∧ AllNodup s2.eyeballs) := by
  cases op with
  | update c S =>
    obtain ⟨ret, s2, e1, hinv, e2, e3, _⟩ := VisibilityMap.update_ok s c S h
    refine ⟨s2, by simp [Op.apply, e1], hinv, ?_, ?_⟩
    · intro o
      rw [e2, hasKey_set_erase]; rfl
    · intro hd h1 h2
      rw [e2, e3]
      refine ⟨allNodup_set c S _ (allNodup_erase c _ h1) ?_, h2⟩
      simpa [Op.dupFree] using hd
  | remove c =>
    obtain ⟨s2, e1, hinv, e2, e3, _⟩ := VisibilityMap.remove_ok s c h
    refine ⟨s2, by simp [Op.apply, e1], hinv, ?_, ?_⟩
    · intro o
      rw [e2, hasKey_erase]; rfl
    · intro _ h1 h2
      rw [e2, e3]
      exact ⟨allNodup_erase c _ h1, h2⟩
  | updateEyeball pos =>
    obtain ⟨s2, e1, hinv, e2, e3, _⟩ := VisibilityMap.updateEyeball_ok w s pos h
    refine ⟨s2, by simp [Op.apply, e1], hinv, ?_, ?_⟩
    · intro o
      rw [e2]; rfl
    · intro hd h1 h2
      rw [e2, e3]
      refine ⟨h1, allNodup_set pos _ _ (allNodup_erase pos _ h2) ?_⟩
      simpa [Op.dupFree] using hd
  | removeEyeball pos =>
    obtain ⟨s2, e1, hinv, e2, e3, _⟩ := VisibilityMap.removeEyeball_ok s pos h
    refine ⟨s2, by simp [Op.apply, e1], hinv, ?_, ?_⟩
    · intro o
      rw [e2]; rfl
    · intro _ h1 h2
      rw [e2, e3]
      exact ⟨h1, allNodup_erase pos _ h2⟩
  | onVisibilityChanged pos =>
    -- first half: the occupying creature, when it is tracked
    have hfirst : ∃ s1, (match w.getCreature pos with
        | some c =>
          if Table.hasKey c s.lastUpdates then
            (s.update c (w.creatureVisibleTiles c)).map Prod.snd
          else some s
        | none => some s) = some s1 ∧ Inv s1 ∧
        (∀ o, Table.hasKey o s1.lastUpdates = Table.hasKey o s.lastUpdates) ∧
        ((Op.onVisibilityChanged pos).dupFree w = true → AllNodup s.lastUpdates →
          AllNodup s.eyeballs → AllNodup s1.lastUpdates ∧ AllNodup s1.eyeballs) := by
      cases hc : w.getCreature pos with
      | none => exact ⟨s, rfl, h, fun _ => rfl, fun _ h1 h2 => ⟨h1, h2⟩⟩
      | some c =>
        by_cases hk : Table.hasKey c s.lastUpdates = true
        · obtain ⟨ret, s1, e1, hinv, e2, e3, _⟩ :=
            VisibilityMap.update_ok s c (w.creatureVisibleTiles c) h
          refine ⟨s1, by simp [hk, e1], hinv, ?_, ?_⟩
          · intro o
            rw [e2, hasKey_set_erase]
            by_cases hco : c = o
            · subst hco; simp [hk]
            · simp [hco]
          · intro hd h1 h2
            rw [e2, e3]
            refine ⟨allNodup_set c _ _ (allNodup_erase c _ h1) ?_, h2⟩
            simp only [Op.dupFree, hc, Bool.and_eq_true, decide_eq_true_eq] at hd
            exact hd.1
        · exact ⟨s, by simp [hk], h, fun _ => rfl, fun _ h1 h2 => ⟨h1, h2⟩⟩
    obtain ⟨s1, e1, hinv1, ht1, hd1⟩ := hfirst
    by_cases hk : Table.hasKey pos s1.eyeballs = true
    · obtain ⟨s2, e2, hinv2, f2, f3, _⟩ := VisibilityMap.updateEyeball_ok w s1 pos hinv1
      refine ⟨s2, ?_, hinv2, ?_, ?_⟩
      · simp only [Op.apply, VisibilityMap.onVisibilityChanged, e1, Option.some_bind, hk,
          if_true, e2]
      · intro o
        rw [f2, ht1 o]; rfl
      · intro hd h1 h2
        obtain ⟨g1, g2⟩ := hd1 hd h1 h2
        rw [f2, f3]
        refine ⟨g1, allNodup_set pos _ _ (allNodup_erase pos _ g2) ?_⟩
        simp only [Op.dupFree, Bool.and_eq_true, decide_eq_true_eq] at hd
        exact hd.2
    · refine ⟨s1, ?_, hinv1, ?_, hd1⟩
      · simp only [Op.apply, VisibilityMap.onVisibilityChanged, e1, Option.some_bind, hk]
        simp
      · intro o
        rw [ht1 o]; rfl

theorem inv_empty : Inv VisibilityMap.empty := by
  refine ⟨by simp [VisibilityMap.empty, Table.keys], by simp [VisibilityMap.empty, Table.keys],
    ?_⟩
  intro p
  right
  simp [VisibilityMap.empty, Table.getMaybe, contrib]

theorem run_ok (ops : List (World × Op)) : ∀ (s : VisibilityMap), Inv s →
    ∃ s2, run s ops = some s2 ∧ Inv s2 ∧
      (∀ o, Table.hasKey o s2.lastUpdates
        = ops.foldl (fun b e => e.2.tracks o b) (Table.hasKey o s.lastUpdates)) ∧
      ((∀ e ∈ ops, e.2.dupFree e.1 = true) → AllNodup s.lastUpdates →
        AllNodup s.eyeballs → AllNodup s2.lastUpdates ∧ AllNodup s2.eyeballs) := by
  induction ops with
  | nil => intro s h; exact ⟨s, rfl, h, fun _ => rfl, fun _ h1 h2 => ⟨h1, h2⟩⟩
  | cons e rest ih =>
    intro s h
    obtain ⟨s1, e1, hinv1, ht1, hd1⟩ := apply_step e.1 s e.2 h
    obtain ⟨s2, e2, hinv2, ht2, hd2⟩ := ih s1 hinv1
    refine ⟨s2, ?_, hinv2, ?_, ?_⟩
    · unfold run at e2 ⊢
      rw [List.foldlM_cons, e1]
      exact e2
    · intro o
      rw [ht2 o, ht1 o, List.foldl_cons]
    · intro hd h1 h2
      obtain ⟨g1, g2⟩ := hd1 (hd e (List.mem_cons_self _ _)) h1 h2
      exact hd2 (fun x hx => hd x (List.mem_cons_of_mem _ hx)) g1 g2

theorem count_of_inv (s : VisibilityMap) (h : Inv s) (p : Position) :
    s.count p = ((contrib p s.lastUpdates + contrib p s.eyeballs : Nat) : Int) := by
  unfold VisibilityMap.count
  rcases h.2.2 p with h1 | ⟨h1, h0⟩
  · rw [h1]; rfl
  · rw [h1]
    have h0 : contrib p s.lastUpdates + contrib p s.eyeballs = 0 := h0
    show (0 : Int) = ((contrib p s.lastUpdates + contrib p s.eyeballs : Nat) : Int)
    rw [h0]; rfl

theorem stored_nonneg_of_counterIs (s : VisibilityMap) (tot : Position → Nat)
    (h : s.CounterIs tot) (p : Position) (n : Int)
    (hn : Table.getMaybe p s.visibilityCount = some n) : 0 ≤ n := by
  rcases h p with h1 | ⟨h1, _⟩
  · rw [h1] at hn
    cases hn
    exact Int.ofNat_nonneg _
  · rw [h1] at hn; cases hn

theorem contrib_ge_of_getMaybe {K : Type} [DecidableEq K] (p : Position) (k : K)
    (v : List Position) : ∀ (m : List (K × List Position)), Table.getMaybe k m = some v →
      v.count p ≤ contrib p m := by
  intro m
  induction m with
  | nil => intro h; simp [Table.getMaybe] at h
  | cons e r ih =>
    intro h
    by_cases hk : e.1 = k
    · simp only [Table.getMaybe, hk, if_true, Option.some.injEq] at h
      subst h
      simp [contrib]
    · simp only [Table.getMaybe, hk, if_false] at h
      have := ih h
      simp only [contrib, List.map_cons, List.sum_cons] at this ⊢
      omega

theorem addPositions_nonneg (b : VisibilityMap) (L : List Position)
    (hb : ∀ p n, Table.getMaybe p b.visibilityCount = some n → 0 ≤ n) :
    ∀ p n, Table.getMaybe p (b.addPositions L).2.visibilityCount = some n → 0 ≤ n := by
  intro p n hn
  rw [(VisibilityMap.addPositions_facts b L).2.2.2.2 p] at hn
  by_cases hp : p ∈ L
  · simp only [hp, if_true, Option.some.injEq] at hn
    have h0 : 0 ≤ b.count p := by
      unfold VisibilityMap.count
      cases hg : Table.getMaybe p b.visibilityCount with
      | none => simp
      | some m => simpa using hb p m hg
    have : (0 : Int) ≤ (L.count p : Int) := Int.ofNat_nonneg _
    omega
  · simp only [hp, if_false] at hn
    exact hb p n hn

theorem retract_part_nonneg (s : VisibilityMap) (h : Inv s) (S : List Position)
    (hS : ∀ p, S.count p ≤ contrib p s.lastUpdates + contrib p s.eyeballs) (i : Nat) :
    ∃ b, s.removePositions (S.take i) = some b ∧
      ∀ p n, Table.getMaybe p b.visibilityCount = some n → 0 ≤ n := by
  obtain ⟨b, e1, _, _, _, _, e6⟩ := VisibilityMap.retract_ok s (S.take i) _ h.2.2 (by
    intro p
    have h1 : (S.take i).count p ≤ S.count p := (List.take_sublist i S).count_le p
    have := hS p
    omega)
  exact ⟨b, e1, stored_nonneg_of_counterIs b _ e6⟩

theorem count_crossings_add (p : Position) (L : List Position) : ∀ (cnt : Position → Int),
    (crossings cnt 1 0 L).count p
      = if cnt p ≤ 0 ∧ -cnt p < (L.count p : Int) then 1 else 0 := by
  induction L with
  | nil =>
    intro cnt
    have h : ¬ (cnt p ≤ 0 ∧ -cnt p < ((([] : List Position).count p : Nat) : Int)) := by
      simp only [List.count_nil, Nat.cast_zero]; omega
    rw [if_neg h, crossings_nil]; rfl
  | cons v rest ih =>
    intro cnt
    rw [crossings_cons, List.count_append, ih]
    by_cases hpv : p = v
    · subst hpv
      have e2 : ((List.count p (p :: rest) : Nat) : Int) = (rest.count p : Int) + 1 := by
        simp
      rw [e2]
      simp only [if_true]
      by_cases h0 : cnt p = 0
      · have h1 : ¬ (cnt p + 1 ≤ 0 ∧ -(cnt p + 1) < (rest.count p : Int)) := by omega
        have h2 : cnt p ≤ 0 ∧ -cnt p < (rest.count p : Int) + 1 := by omega
        rw [if_pos h0, if_neg h1, if_pos h2]; simp
      · rw [if_neg h0]
        by_cases h1 : cnt p + 1 ≤ 0 ∧ -(cnt p + 1) < (rest.count p : Int)
        · have h2 : cnt p ≤ 0 ∧ -cnt p < (rest.count p : Int) + 1 := by omega
          rw [if_pos h1, if_pos h2]; simp
        · have h2 : ¬ (cnt p ≤ 0 ∧ -cnt p < (rest.count p : Int) + 1) := by omega
          rw [if_neg h1, if_neg h2]; simp
    · have hvp : ¬ v = p := fun e => hpv e.symm
      have e1 : List.count p (if cnt v = 0 then [v] else []) = 0 := by
        by_cases h0 : cnt v = 0
        · rw [if_pos h0]; exact List.count_eq_zero_of_not_mem (by simpa using hpv)
        · rw [if_neg h0]; rfl
      have e2 : List.count p (v :: rest) = List.count p rest := by
        rw [List.count_cons]; simp [hvp]
      rw [e1, e2, if_neg hpv]
      simp

theorem mem_of_getMaybe {K V : Type} [DecidableEq K] (k : K) (v : V) :
    ∀ (m : List (K × V)), Table.getMaybe k m = some v → (k, v) ∈ m := by
  intro m
  induction m with
  | nil => intro h; simp [Table.getMaybe] at h
  | cons e r ih =>
    intro h
    by_cases hk : e.1 = k
    · simp only [Table.getMaybe, hk, if_true, Option.some.injEq] at h
      have : e = (k, v) := by rw [← hk, ← h]
      rw [this]; exact List.mem_cons_self _ _
    · simp only [Table.getMaybe, hk, if_false] at h
      exact List.mem_cons_of_mem _ (ih h)

theorem count_nodup (p : Position) (L : List Position) (h : L.Nodup) :
    ((L.count p : Nat) : Int) = if p ∈ L then 1 else 0 := by
  by_cases hp : p ∈ L
  · rw [if_pos hp, List.count_eq_one_of_mem h hp]; rfl
  · rw [if_neg hp, List.count_eq_zero_of_not_mem hp]; rfl

theorem stored_nodup (s : VisibilityMap) (h : AllNodup s.lastUpdates) (o : Creature) :
    ((Table.getMaybe o s.lastUpdates).getD []).Nodup := by
  cases hg : Table.getMaybe o s.lastUpdates with
  | none => exact List.nodup_nil
  | some S => exact h _ (mem_of_getMaybe o S _ hg)

theorem lastUpdateStands_snoc (o : Creature) (ops : List (World × Op)) (e : World × Op) :
    LastUpdateStands o (ops ++ [e]) ↔
      (∃ t, e.2 = Op.update o t) ∨ (LastUpdateStands o ops ∧ e.2 ≠ Op.remove o) := by
  constructor
  · rintro ⟨pre, w, tiles, post, heq, hpost⟩
    rcases List.eq_nil_or_concat post with hnil | ⟨init, l, hl⟩
    · subst hnil
      have h2 : ops ++ [e] = pre ++ [(w, Op.update o tiles)] := heq
      have h3 := List.append_inj_right' h2 rfl
      simp only [List.cons.injEq, and_true] at h3
      left
      exact ⟨tiles, by rw [h3]⟩
    · subst hl
      have h2 : ops ++ [e] = (pre ++ (w, Op.update o tiles) :: init) ++ [l] := by
        rw [heq]; simp
      have h3 := List.append_inj_right' h2 rfl
      have h4 := List.append_inj_left' h2 rfl
      simp only [List.cons.injEq, and_true] at h3
      right
      refine ⟨⟨pre, w, tiles, init, h4, fun x hx => hpost x (by simp [hx])⟩, ?_⟩
      rw [h3]
      exact hpost l (by simp)
  · rintro (⟨t, ht⟩ | ⟨⟨pre, w, tiles, post, heq, hpost⟩, hne⟩)
    · refine ⟨ops, e.1, t, [], ?_, by simp⟩
      rw [← ht]
    · refine ⟨pre, w, tiles, post ++ [e], by rw [heq]; simp, ?_⟩
      intro x hx
      rcases List.mem_append.mp hx with h | h
      · exact hpost x h
      · simp only [List.mem_singleton] at h
        rw [h]; exact hne

theorem tracks_false_iff (o : Creature) (ops : List (World × Op)) :
    ops.foldl (fun b e => e.2.tracks o b) false = true ↔ LastUpdateStands o ops := by
  induction ops using List.reverseRecOn with
  | nil =>
    constructor
    · intro h; cases h
    · rintro ⟨pre, w, tiles, post, heq, _⟩
      simp at heq
  | append_singleton ops e ih =>
    rw [List.foldl_append, lastUpdateStands_snoc, ← ih]
    simp only [List.foldl_cons, List.foldl_nil]
    obtain ⟨w, op⟩ := e
    cases op with
    | update c t =>
      by_cases hc : c = o
      · subst hc; simp [Op.tracks]
      · simp [Op.tracks, hc]
    | remove c =>
      by_cases hc : c = o
      · subst hc; simp [Op.tracks]
      · simp [Op.tracks, hc]
    | updateEyeball pos => simp [Op.tracks]
    | removeEyeball pos => simp [Op.tracks]
    | onVisibilityChanged pos => simp [Op.tracks]

theorem take_succ_of_getElem? (L : List Position) (i : Nat) (v : Position)
    (h : L[i]? = some v) : L.take (i + 1) = L.take i ++ [v] := by
  rw [List.take_succ, h]; rfl

theorem crossings_eq_addTransitions (s : VisibilityMap) (L : List Position) :
    crossings s.count 1 0 L = addTransitions s L := by
  unfold crossings addTransitions
  apply List.filterMap_congr
  intro i _
  cases hv : L[i]? with
  | none => rfl
  | some v =>
    simp only [VisibilityMap.count_addPositions, take_succ_of_getElem? L i v hv,
      List.count_append, List.count_singleton_self, Nat.cast_add, Nat.cast_one, one_mul]
    by_cases hc : s.count v + ((L.take i).count v : Int) = 0
    · have h2 : s.count v + (((L.take i).count v : Int) + 1) = 1 := by omega
      rw [if_pos hc, if_pos ⟨hc, h2⟩]
    · have h2 : ¬ (s.count v + ((L.take i).count v : Int) = 0 ∧
          s.count v + (((L.take i).count v : Int) + 1) = 1) := fun h => hc h.1
      rw [if_neg hc, if_neg h2]

theorem removePositions_count_map (s : VisibilityMap) (L : List Position)
    (hL : ∀ u ∈ L, Table.getMaybe u s.visibilityCount ≠ none) (v : Position) :
    (s.removePositions L).map (fun b => b.count v) = some (s.count v - (L.count v : Int)) := by
  obtain ⟨s1, e1, _, _, _, e5⟩ := VisibilityMap.removePositions_ok L s hL
  rw [e1, Option.map_some', VisibilityMap.count_removePositions s s1 L e5 hL v]

theorem tracked_of_removePositions (s s1 : VisibilityMap) (L : List Position)
    (h : s.removePositions L = some s1) :
    ∀ u ∈ L, Table.getMaybe u s.visibilityCount ≠ none := by
  intro u hu hn
  rw [VisibilityMap.removePositions_fail L s ⟨u, hu, hn⟩] at h
  cases h

theorem crossings_eq_removeTransitions (s : VisibilityMap) (L : List Position)
    (hL : ∀ u ∈ L, Table.getMaybe u s.visibilityCount ≠ none) :
    crossings s.count (-1) 1 L = removeTransitions s L := by
  unfold crossings removeTransitions
  apply List.filterMap_congr
  intro i _
  cases hv : L[i]? with
  | none => rfl
  | some v =>
    have h1 : ∀ u ∈ L.take i, Table.getMaybe u s.visibilityCount ≠ none :=
      fun u hu => hL u (List.mem_of_mem_take hu)
    have h2 : ∀ u ∈ L.take (i + 1), Table.getMaybe u s.visibilityCount ≠ none :=
      fun u hu => hL u (List.mem_of_mem_take hu)
    simp only [removePositions_count_map s _ h1 v, removePositions_count_map s _ h2 v,
      Option.some.injEq]
    simp only [take_succ_of_getElem? L i v hv,
      List.count_append, List.count_singleton_self, Nat.cast_add, Nat.cast_one]
    by_cases hc : s.count v + -1 * ((L.take i).count v : Int) = 1
    · have h3 : s.count v - ((L.take i).count v : Int) = 1 ∧
          s.count v - (((L.take i).count v : Int) + 1) = 0 := by omega
      rw [if_pos hc, if_pos h3]
    · have h3 : ¬ (s.count v - ((L.take i).count v : Int) = 1 ∧
          s.count v - (((L.take i).count v : Int) + 1) = 0) := by omega
      rw [if_neg hc, if_neg h3]

theorem isVisible_eq (s : VisibilityMap) (p : Position) :
    s.isVisible p = decide (0 < s.count p) := rfl

theorem count_crossings_remove (p : Position) (L : List Position) :
    ∀ (cnt : Position → Int),
    (crossings cnt (-1) 1 L).count p
      = if 1 ≤ cnt p ∧ cnt p ≤ (L.count p : Int) then 1 else 0 := by
  induction L with
  | nil =>
    intro cnt
    have h : ¬ (1 ≤ cnt p ∧ cnt p ≤ ((([] : List Position).count p : Nat) : Int)) := by
      simp only [List.count_nil, Nat.cast_zero]; omega
    rw [if_neg h, crossings_nil]; rfl
  | cons v rest ih =>
    intro cnt
    rw [crossings_cons, List.count_append, ih]
    by_cases hpv : p = v
    · subst hpv
      have e2 : ((List.count p (p :: rest) : Nat) : Int) = (rest.count p : Int) + 1 := by
        simp
      rw [e2]
      simp only [if_true]
      by_cases h0 : cnt p = 1
      · have h1 : ¬ (1 ≤ cnt p + -1 ∧ cnt p + -1 ≤ (rest.count p : Int)) := by omega
        have h2 : 1 ≤ cnt p ∧ cnt p ≤ (rest.count p : Int) + 1 := by omega
        rw [if_pos h0, if_neg h1, if_pos h2]; simp
      · rw [if_neg h0]
        by_cases h1 : 1 ≤ cnt p + -1 ∧ cnt p + -1 ≤ (rest.count p : Int)
        · have h2 : 1 ≤ cnt p ∧ cnt p ≤ (rest.count p : Int) + 1 := by omega
          rw [if_pos h1, if_pos h2]; simp
        · have h2 : ¬ (1 ≤ cnt p ∧ cnt p ≤ (rest.count p : Int) + 1) := by omega
          rw [if_neg h1, if_neg h2]; simp
    · have hvp : ¬ v = p := fun e => hpv e.symm
      have e1 : List.count p (if cnt v = 1 then [v] else []) = 0 := by
        by_cases h0 : cnt v = 1
        · rw [if_pos h0]; exact List.count_eq_zero_of_not_mem (by simpa using hpv)
        · rw [if_neg h0]; rfl
      have e2 : List.count p (v :: rest) = List.count p rest := by
        rw [List.count_cons]; simp [hvp]
      rw [e1, e2, if_neg hpv]
      simp

theorem removePositions_of_remove (s s1 : VisibilityMap) (o : Creature) (S : List Position)
    (hS : Table.getMaybe o s.lastUpdates = some S) (h : s.remove o = some s1) :
    ∃ s0, s.removePositions S = some s0 := by
  unfold VisibilityMap.remove at h
  rw [hS] at h
  cases hr : s.removePositions S with
  | none => simp [hr] at h
  | some s0 => exact ⟨s0, rfl⟩

theorem removePositions_tables (s s1 : VisibilityMap) (L : List Position)
    (h : s.removePositions L = some s1) :
    s1.lastUpdates = s.lastUpdates ∧ s1.eyeballs = s.eyeballs := by
  obtain ⟨s2, e1, e2, e3, _⟩ :=
    VisibilityMap.removePositions_ok L s (tracked_of_removePositions s s1 L h)
  rw [h] at e1
  cases e1
  exact ⟨e2, e3⟩

theorem remove_tables (s s1 : VisibilityMap) (c : Creature) (h : s.remove c = some s1) :
    s1.lastUpdates = Table.erase c s.lastUpdates ∧ s1.eyeballs = s.eyeballs := by
  unfold VisibilityMap.remove at h
  cases hg : Table.getMaybe c s.lastUpdates with
  | none =>
    simp only [hg, Option.some.injEq] at h
    subst h
    exact ⟨rfl, rfl⟩
  | some S =>
    simp only [hg] at h
    cases hr : s.removePositions S with
    | none => simp [hr] at h
    | some s0 =>
      simp only [hr, Option.map_some', Option.some.injEq] at h
      obtain ⟨f1, f2⟩ := removePositions_tables s s0 S hr
      subst h
      exact ⟨by simp [f1], f2⟩

theorem update_tables (s s2 : VisibilityMap) (c : Creature) (T ret : List Position)
    (h : s.update c T = some (ret, s2)) :
    s2.lastUpdates = Table.set c T (Table.erase c s.lastUpdates) ∧
      s2.eyeballs = s.eyeballs := by
  unfold VisibilityMap.update at h
  cases hr : s.remove c with
  | none => simp [hr] at h
  | some s1 =>
    simp only [hr, Option.map_some', Option.some.injEq] at h
    obtain ⟨f1, f2⟩ := remove_tables s s1 c hr
    obtain ⟨_, g2, g3, _⟩ := VisibilityMap.addPositions_facts
      { s1 with lastUpdates := Table.set c T s1.lastUpdates } T
    have h2 : (VisibilityMap.addPositions
        { s1 with lastUpdates := Table.set c T s1.lastUpdates } T).2 = s2 := by
      rw [h]
    rw [← h2, g2, g3]
    exact ⟨by simp [f1], f2⟩

theorem removeEyeball_tables (s s1 : VisibilityMap) (pos : Position)
    (h : s.removeEyeball pos = some s1) :
    s1.lastUpdates = s.lastUpdates ∧ s1.eyeballs = Table.erase pos s.eyeballs := by
  unfold VisibilityMap.removeEyeball at h
  cases hg : Table.getMaybe pos s.eyeballs with
  | none =>
    simp only [hg, Option.some.injEq] at h
    subst h
    exact ⟨rfl, rfl⟩
  | some S =>
    simp only [hg] at h
    cases hr : s.removePositions S with
    | none => simp [hr] at h
    | some s0 =>
      simp only [hr, Option.map_some', Option.some.injEq] at h
      obtain ⟨f1, f2⟩ := removePositions_tables s s0 S hr
      subst h
      exact ⟨f1, by simp [f2]⟩

theorem updateEyeball_tables (w : World) (s s2 : VisibilityMap) (pos : Position)
    (h : VisibilityMap.updateEyeball w s pos = some s2) :
    s2.lastUpdates = s.lastUpdates ∧
      s2.eyeballs
        = Table.set pos (w.eyeballVisibleTiles pos) (Table.erase pos s.eyeballs) := by
  unfold VisibilityMap.updateEyeball at h
  cases hr : s.removeEyeball pos with
  | none => simp [hr] at h
  | some s1 =>
    simp only [hr, Option.map_some', Option.some.injEq] at h
    obtain ⟨f1, f2⟩ := removeEyeball_tables s s1 pos hr
    obtain ⟨_, g2, g3, _⟩ := VisibilityMap.addPositions_facts
      { s1 with eyeballs := Table.set pos (w.eyeballVisibleTiles pos) s1.eyeballs }
      (w.eyeballVisibleTiles pos)
    rw [← h, g2, g3]
    exact ⟨f1, by simp [f2]⟩

theorem sameCounter_foldl_addStep (L : List Position) :
    ∀ (acc : List Position) (s t : VisibilityMap), SameCounter s t →
      (L.foldl VisibilityMap.addStep (acc, s)).1 = (L.foldl VisibilityMap.addStep (acc, t)).1 ∧
      SameCounter (L.foldl VisibilityMap.addStep (acc, s)).2
        (L.foldl VisibilityMap.addStep (acc, t)).2 := by
  induction L with
  | nil => intro acc s t h; exact ⟨rfl, h⟩
  | cons v rest ih =>
    intro acc s t h
    rw [List.foldl_cons, List.foldl_cons, VisibilityMap.addStep_eq, VisibilityMap.addStep_eq]
    have hc : s.count v = t.count v := by
      unfold VisibilityMap.count; rw [h.1]
    rw [hc]
    apply ih
    exact ⟨by simp [h.1], by simp [h.2]⟩

theorem sameCounter_addPositions (s t : VisibilityMap) (L : List Position)
    (h : SameCounter s t) :
    (s.addPositions L).1 = (t.addPositions L).1 ∧
      SameCounter (s.addPositions L).2 (t.addPositions L).2 :=
  sameCounter_foldl_addStep L [] s t h

theorem construct_eq_some (a b c d : Int) (r : Rectangle)
    (h : Rectangle.construct a b c d = some r) :
    a < c ∧ b < d ∧ r.px = a ∧ r.py = b ∧ r.kx = c ∧ r.ky = d ∧ r.w = c - a ∧ r.h = d - b := by
  unfold Rectangle.construct at h
  by_cases hc : c > a ∧ d > b
  · rw [if_pos hc] at h
    cases h
    exact ⟨hc.1, hc.2, rfl, rfl, rfl, rfl, rfl, rfl⟩
  · rw [if_neg hc] at h
    cases h

theorem inRectangle_iff (v : Vec2) (r : Rectangle) :
    v.inRectangle r = true ↔ r.px ≤ v.x ∧ v.x < r.kx ∧ r.py ≤ v.y ∧ v.y < r.ky := by
  unfold Vec2.inRectangle
  simp only [Bool.and_eq_true, decide_eq_true_eq, ge_iff_le]
  tauto

theorem intersects_iff (r1 r2 : Rectangle) :
    r1.intersects r2 = true ↔
      max r1.px r2.px < min r1.kx r2.kx ∧ max r1.py r2.py < min r1.ky r2.ky := by
  unfold Rectangle.intersects
  simp only [Bool.and_eq_true, decide_eq_true_eq]

theorem succ_div_mod (k H : Nat) (hH : 0 < H) :
    (k % H + 1 = H → (k + 1) / H = k / H + 1 ∧ (k + 1) % H = 0) ∧
    (k % H + 1 ≠ H → (k + 1) / H = k / H ∧ (k + 1) % H = k % H + 1) := by
  have hdm := Nat.div_add_mod k H
  have hlt := Nat.mod_lt k hH
  constructor
  · intro h
    apply (Nat.div_mod_unique hH).mpr
    refine ⟨?_, hH⟩
    rw [Nat.mul_add, Nat.mul_one]
    omega
  · intro h
    apply (Nat.div_mod_unique hH).mpr
    refine ⟨?_, by omega⟩
    omega

/-- The iterator standing on the `k`-th square. -/
theorem next_squareAt (r : Rectangle) (hh : r.py < r.ky) (hH : r.h = r.ky - r.py) (k : Nat) :
    (Rectangle.Iter.mk (r.squareAt k) r.px r.py r.kx r.ky).next
      = Rectangle.Iter.mk (r.squareAt (k + 1)) r.px r.py r.kx r.ky := by
  have hpos : 0 < r.h.toNat := by omega
  have hcast : ((r.h.toNat : Nat) : Int) = r.ky - r.py := by omega
  obtain ⟨hA, hB⟩ := succ_div_mod k r.h.toNat hpos
  have hlt := Nat.mod_lt k hpos
  unfold Rectangle.Iter.next Rectangle.squareAt
  simp only
  by_cases hc : k % r.h.toNat + 1 = r.h.toNat
  · obtain ⟨e1, e2⟩ := hA hc
    have hge : r.py + ((k % r.h.toNat : Nat) : Int) + 1 ≥ r.ky := by omega
    rw [if_pos hge, e1, e2]
    simp only [Nat.cast_add, Nat.cast_one, Nat.cast_zero, add_zero, Int.add_assoc]
  · obtain ⟨e1, e2⟩ := hB hc
    have hge : ¬ (r.py + ((k % r.h.toNat : Nat) : Int) + 1 ≥ r.ky) := by omega
    rw [if_neg hge, e1, e2]
    simp only [Nat.cast_add, Nat.cast_one, Int.add_assoc]

theorem squaresLoop_spec (r : Rectangle) (hw : r.px < r.kx) (hh : r.py < r.ky)
    (hW : r.w = r.kx - r.px) (hH : r.h = r.ky - r.py) :
    ∀ (n k fuel : Nat) (acc : List Vec2), k + n = r.w.toNat * r.h.toNat → n < fuel →
      Rectangle.squaresLoop fuel (Rectangle.Iter.mk (r.squareAt k) r.px r.py r.kx r.ky)
          r.endIter acc
        = some (acc ++ (List.range' k n).map r.squareAt) := by
  have hpos : 0 < r.h.toNat := by omega
  have hcw : ((r.w.toNat : Nat) : Int) = r.kx - r.px := by omega
  intro n
  induction n with
  | zero =>
    intro k fuel acc hk hf
    obtain ⟨f, rfl⟩ : ∃ f, fuel = f + 1 := ⟨fuel - 1, by omega⟩
    have hdiv : k / r.h.toNat = r.w.toNat := by
      rw [Nat.add_zero] at hk
      rw [hk]; exact Nat.mul_div_cancel _ hpos
    have hmod : k % r.h.toNat = 0 := by
      rw [Nat.add_zero] at hk
      rw [hk]; exact Nat.mul_mod_left _ _
    have hne : (Rectangle.Iter.mk (r.squareAt k) r.px r.py r.kx r.ky).ne r.endIter
        = false := by
      unfold Rectangle.Iter.ne Rectangle.endIter Rectangle.squareAt
      simp only [hdiv, hmod, hcw]
      simp
    unfold Rectangle.squaresLoop
    rw [hne]
    simp
  | succ n ih =>
    intro k fuel acc hk hf
    obtain ⟨f, rfl⟩ : ∃ f, fuel = f + 1 := ⟨fuel - 1, by omega⟩
    have hklt : k < r.w.toNat * r.h.toNat := by omega
    have hdiv : k / r.h.toNat < r.w.toNat := (Nat.div_lt_iff_lt_mul hpos).mpr hklt
    have hne : (Rectangle.Iter.mk (r.squareAt k) r.px r.py r.kx r.ky).ne r.endIter
        = true := by
      unfold Rectangle.Iter.ne Rectangle.endIter Rectangle.squareAt
      simp only [Bool.or_eq_true, decide_eq_true_eq]
      left
      omega
    unfold Rectangle.squaresLoop
    rw [hne, if_pos rfl, next_squareAt r hh hH k, ih (k + 1) f _ (by omega) (by omega)]
    simp [List.range'_succ]

theorem squareAt_lexLt (r : Rectangle) (a b : Nat) (hab : a < b) :
    Vec2.lexLt (r.squareAt a) (r.squareAt b) := by
  unfold Vec2.lexLt Rectangle.squareAt
  simp only
  have h1 : a / r.h.toNat ≤ b / r.h.toNat := Nat.div_le_div_right (Nat.le_of_lt hab)
  have hda := Nat.div_add_mod a r.h.toNat
  have hdb := Nat.div_add_mod b r.h.toNat
  by_cases he : a / r.h.toNat = b / r.h.toNat
  · right
    rw [he] at hda
    refine ⟨by rw [he], ?_⟩
    have : a % r.h.toNat < b % r.h.toNat := by omega
    omega
  · left
    have : a / r.h.toNat < b / r.h.toNat := by omega
    omega

theorem mem_squares_iff (r : Rectangle) (hw : r.px < r.kx) (hh : r.py < r.ky)
    (hW : r.w = r.kx - r.px) (hH : r.h = r.ky - r.py) (v : Vec2) :
    v ∈ (List.range (r.w.toNat * r.h.toNat)).map r.squareAt ↔ v.inRectangle r = true := by
  have hpos : 0 < r.h.toNat := by omega
  have hcw : ((r.w.toNat : Nat) : Int) = r.kx - r.px := by omega
  have hch : ((r.h.toNat : Nat) : Int) = r.ky - r.py := by omega
  obtain ⟨vx, vy⟩ := v
  rw [inRectangle_iff, List.mem_map]
  simp only
  constructor
  · rintro ⟨k, hk, hv⟩
    rw [List.mem_range] at hk
    have hdiv : k / r.h.toNat < r.w.toNat := (Nat.div_lt_iff_lt_mul hpos).mpr hk
    have hmod := Nat.mod_lt k hpos
    unfold Rectangle.squareAt at hv
    simp only [Vec2.mk.injEq] at hv
    obtain ⟨hx, hy⟩ := hv
    generalize k / r.h.toNat = i at hdiv hx
    generalize k % r.h.toNat = j at hmod hy
    omega
  · rintro ⟨h1, h2, h3, h4⟩
    have hi : (vx - r.px).toNat < r.w.toNat := by omega
    have hj : (vy - r.py).toNat < r.h.toNat := by omega
    have hdm := (Nat.div_mod_unique (a := (vy - r.py).toNat + r.h.toNat * (vx - r.px).toNat)
      (d := (vx - r.px).toNat) (c := (vy - r.py).toNat) hpos).mpr ⟨rfl, hj⟩
    refine ⟨(vy - r.py).toNat + r.h.toNat * (vx - r.px).toNat, ?_, ?_⟩
    · rw [List.mem_range]
      calc (vy - r.py).toNat + r.h.toNat * (vx - r.px).toNat
          < r.h.toNat + r.h.toNat * (vx - r.px).toNat := by omega
        _ = r.h.toNat * ((vx - r.px).toNat + 1) := by ring
        _ ≤ r.h.toNat * r.w.toNat := Nat.mul_le_mul_left _ hi
        _ = r.w.toNat * r.h.toNat := Nat.mul_comm _ _
    · unfold Rectangle.squareAt
      rw [hdm.1, hdm.2]
      simp only [Vec2.mk.injEq]
      constructor <;> omega

theorem hasOutsideNeighbor_iff (cur : Finset Vec2) (v : Vec2) :
    Vec2.hasOutsideNeighbor cur v = true ↔ ∃ v2 ∈ v.neighbors4, v2 ∉ cur := by
  unfold Vec2.hasOutsideNeighbor
  rw [List.any_eq_true]
  constructor
  · rintro ⟨v2, h1, h2⟩
    exact ⟨v2, h1, by simpa using h2⟩
  · rintro ⟨v2, h1, h2⟩
    exact ⟨v2, h1, by simpa using h2⟩

theorem foldl_layerStep (cur : Finset Vec2) (m : Multiset Vec2) :
    ∀ acc : Finset Vec2 × Finset Vec2,
      Multiset.foldl (Vec2.layerStep cur) acc m
        = (acc.1 ∪ m.toFinset.filter (fun v => ∃ v2 ∈ v.neighbors4, v2 ∉ cur),
           acc.2 \ m.toFinset.filter (fun v => ∃ v2 ∈ v.neighbors4, v2 ∉ cur)) := by
  induction m using Multiset.induction_on with
  | empty => intro acc; simp
  | cons a m ih =>
    intro acc
    rw [Multiset.foldl_cons, ih]
    unfold Vec2.layerStep
    by_cases h : Vec2.hasOutsideNeighbor cur a = true
    · have h2 := (hasOutsideNeighbor_iff cur a).mp h
      rw [if_pos h]
      simp only [Multiset.toFinset_cons, Finset.filter_insert, if_pos h2]
      refine Prod.ext ?_ ?_
      · ext v
        simp only [Finset.mem_union, Finset.mem_insert]
        tauto
      · ext v
        simp only [Finset.mem_sdiff, Finset.mem_erase, Finset.mem_insert]
        tauto
    · have h2 : ¬ ∃ v2 ∈ a.neighbors4, v2 ∉ cur := fun hh =>
        h ((hasOutsideNeighbor_iff cur a).mpr hh)
      rw [if_neg h]
      simp only [Multiset.toFinset_cons, Finset.filter_insert, if_neg h2]

theorem layerPass_eq (elems : Finset Vec2) :
    Vec2.layerPass elems = (Vec2.boundary elems, elems \ Vec2.boundary elems) := by
  unfold Vec2.layerPass Vec2.boundary
  rw [foldl_layerStep, Finset.val_toFinset, Finset.empty_union]

theorem boundary_subset (s : Finset Vec2) : Vec2.boundary s ⊆ s :=
  Finset.filter_subset _ _

theorem boundary_nonempty (s : Finset Vec2) (h : s.Nonempty) : (Vec2.boundary s).Nonempty := by
  obtain ⟨v, hv, hmax⟩ := Finset.exists_max_image s (fun u => u.x) h
  refine ⟨v, ?_⟩
  unfold Vec2.boundary
  rw [Finset.mem_filter]
  refine ⟨hv, ⟨v.x + 1, v.y⟩, by simp [Vec2.neighbors4], ?_⟩
  intro hmem
  have := hmax _ hmem
  simp only at this
  omega

theorem mem_boundary_iff (s : Finset Vec2) (v : Vec2) :
    v ∈ Vec2.boundary s ↔ v ∈ s ∧ ∃ v2 ∈ v.neighbors4, v2 ∉ s := by
  unfold Vec2.boundary
  rw [Finset.mem_filter]

theorem calculateLayersLoop_spec : ∀ (fuel : Nat) (elems : Finset Vec2)
    (acc : List (Finset Vec2)), elems.card < fuel →
    ∃ L, Vec2.calculateLayersLoop fuel elems acc = some (acc ++ L) ∧
      L.Pairwise Disjoint ∧ (∀ v, v ∈ elems ↔ ∃ l ∈ L, v ∈ l) ∧
      (elems.Nonempty → ∀ l ∈ L, l.Nonempty) ∧
      (∀ k l, L[k]? = some l → l = Vec2.boundary (Vec2.remaining elems (L.take k))) := by
  intro fuel
  induction fuel with
  | zero => intro elems acc h; omega
  | succ fuel ih =>
    intro elems acc hcard
    unfold Vec2.calculateLayersLoop
    simp only [layerPass_eq]
    by_cases hE : elems \ Vec2.boundary elems = ∅
    · rw [if_pos hE]
      have hsub : elems ⊆ Vec2.boundary elems := Finset.sdiff_eq_empty_iff_subset.mp hE
      refine ⟨[Vec2.boundary elems], rfl, List.pairwise_singleton _ _, ?_, ?_, ?_⟩
      · intro v
        simp only [List.mem_singleton, exists_eq_left]
        exact ⟨fun h => hsub h, fun h => boundary_subset elems h⟩
      · intro hne l hl
        rw [List.mem_singleton] at hl
        rw [hl]
        exact boundary_nonempty elems hne
      · intro k l hk
        cases k with
        | zero =>
          simp only [List.getElem?_cons_zero, Option.some.injEq] at hk
          rw [← hk]
          simp [Vec2.remaining]
        | succ k => simp at hk
    · rw [if_neg hE]
      have hne1 : (elems \ Vec2.boundary elems).Nonempty := Finset.nonempty_iff_ne_empty.mpr hE
      have hne : elems.Nonempty := by
        obtain ⟨v, hv⟩ := hne1
        exact ⟨v, (Finset.mem_sdiff.mp hv).1⟩
      have hb := boundary_nonempty elems hne
      have hlt : (elems \ Vec2.boundary elems).card < fuel := by
        have h1 := Finset.card_sdiff (boundary_subset elems)
        have h2 := Finset.card_pos.mpr hb
        have h3 := Finset.card_le_card (boundary_subset elems)
        omega
      obtain ⟨L, e1, p1, p2, p3, p4⟩ :=
        ih (elems \ Vec2.boundary elems) (acc ++ [Vec2.boundary elems]) hlt
      refine ⟨Vec2.boundary elems :: L, ?_, ?_, ?_, ?_, ?_⟩
      · rw [e1]; simp
      · rw [List.pairwise_cons]
        refine ⟨?_, p1⟩
        intro l hl
        rw [Finset.disjoint_left]
        intro v hv hvl
        have := (p2 v).mpr ⟨l, hl, hvl⟩
        exact (Finset.mem_sdiff.mp this).2 hv
      · intro v
        constructor
        · intro hv
          by_cases hvb : v ∈ Vec2.boundary elems
          · exact ⟨_, List.mem_cons_self _ _, hvb⟩
          · obtain ⟨l, hl, hvl⟩ := (p2 v).mp (Finset.mem_sdiff.mpr ⟨hv, hvb⟩)
            exact ⟨l, List.mem_cons_of_mem _ hl, hvl⟩
        · rintro ⟨l, hl, hvl⟩
          rcases List.mem_cons.mp hl with rfl | hl
          · exact boundary_subset elems hvl
          · exact (Finset.mem_sdiff.mp ((p2 v).mpr ⟨l, hl, hvl⟩)).1
      · intro _ l hl
        rcases List.mem_cons.mp hl with rfl | hl
        · exact hb
        · exact p3 hne1 l hl
      · intro k l hk
        cases k with
        | zero =>
          simp only [List.getElem?_cons_zero, Option.some.injEq] at hk
          rw [← hk]
          simp [Vec2.remaining]
        | succ k =>
          simp only [List.getElem?_cons_succ] at hk
          rw [p4 k l hk]
          simp [Vec2.remaining]

namespace DisjointSets

theorem getElem?_eq_fa (father : List Nat) (x : Nat) (h : x < father.length) :
    father[x]? = some (fa father x) := by
  unfold fa
  rw [List.getElem?_eq_getElem h]
  rfl

theorem fa_set (father : List Nat) (i v y : Nat) (hi : i < father.length) :
    fa (father.set i v) y = if i = y then v else fa father y := by
  unfold fa
  rw [List.getElem?_set]
  by_cases h : i = y
  · subst h
    simp [hi]
  · simp [h]

theorem root_root {father : List Nat} {n : Nat} {root depth : Nat → Nat} {bound : Nat}
    (F : Forest father n root depth bound) (x : Nat) (hx : x < n) :
    root (root x) = root x :=
  F.root_self (root x) (F.root_lt x hx) (F.fa_root x hx)

theorem getSetFind_spec {father : List Nat} {n : Nat} {root depth : Nat → Nat} {bound : Nat}
    (F : Forest father n root depth bound) :
    ∀ (fuel x : Nat), x < n → depth x < fuel → getSetFind fuel father x = some (root x) := by
  intro fuel
  induction fuel with
  | zero => intro x _ h; omega
  | succ fuel ih =>
    intro x hx hd
    unfold getSetFind
    rw [getElem?_eq_fa father x (by rw [F.len]; exact hx)]
    simp only
    by_cases hf : fa father x = x
    · rw [if_neg (by simpa using hf), F.root_self x hx hf]
    · rw [if_pos hf, ih (fa father x) (F.fa_lt x hx)
        (by have := F.depth_fa x hx hf; omega), F.root_fa x hx]

/-- One step of path compression keeps the forest, with the same roots and depths. -/
theorem forest_compress_step {father : List Nat} {n : Nat} {root depth : Nat → Nat}
    {bound : Nat} (F : Forest father n root depth bound) (x : Nat) (hx : x < n) :
    Forest (father.set x (root x)) n root depth bound := by
  have hlen : x < father.length := by rw [F.len]; exact hx
  refine ⟨by rw [List.length_set, F.len], ?_, ?_, ?_, ?_, F.root_lt, ?_, F.depth_root,
    F.depth_lt, F.root_out⟩
  · intro y hy
    rw [fa_set father x (root x) y hlen]
    by_cases h : x = y
    · rw [if_pos h]; exact F.root_lt x hx
    · rw [if_neg h]; exact F.fa_lt y hy
  · intro y hy
    rw [fa_set father x (root x) y hlen]
    by_cases h : x = y
    · rw [if_pos h, ← h]; exact root_root F x hx
    · rw [if_neg h]; exact F.root_fa y hy
  · intro y hy
    rw [fa_set father x (root x) y hlen]
    by_cases h : x = y
    · rw [if_pos h, ← h]; exact fun e => e
    · rw [if_neg h]; exact F.root_self y hy
  · intro y hy
    rw [fa_set father x (root x) y hlen]
    by_cases h : x = y
    · rw [if_pos h, ← h]; exact F.depth_root x hx
    · rw [if_neg h]; exact F.depth_fa y hy
  · intro y hy
    rw [fa_set father x (root x) (root y) hlen]
    by_cases h : x = root y
    · rw [if_pos h]
      have : root x = root (root y) := by rw [h]
      rw [this, root_root F y hy]
    · rw [if_neg h]; exact F.fa_root y hy

theorem getSetCompress_spec {n : Nat} {root depth : Nat → Nat} {bound : Nat} :
    ∀ (fuel : Nat) (father : List Nat) (x : Nat), Forest father n root depth bound →
      x < n → depth x < fuel →
      ∃ father1, getSetCompress fuel father x (root x) = some father1 ∧
        Forest father1 n root depth bound := by
  intro fuel
  induction fuel with
  | zero => intro father x _ _ h; omega
  | succ fuel ih =>
    intro father x F hx hd
    unfold getSetCompress
    by_cases hr : x = root x
    · rw [if_neg (by simpa using hr)]
      exact ⟨father, rfl, F⟩
    · rw [if_pos hr, getElem?_eq_fa father x (by rw [F.len]; exact hx)]
      simp only
      have hf : fa father x ≠ x := fun e => hr (F.root_self x hx e).symm
      have h1 := ih (father.set x (root x)) (fa father x) (forest_compress_step F x hx)
        (F.fa_lt x hx) (by have := F.depth_fa x hx hf; omega)
      rw [F.root_fa x hx] at h1
      exact h1

theorem getSet_spec {n : Nat} {root depth : Nat → Nat} {bound : Nat} (d : DisjointSets)
    (F : Forest d.father n root depth bound) (fuel x : Nat) (hx : x < n)
    (hfuel : bound ≤ fuel) :
    ∃ d1, d.getSet fuel x = some (root x, d1) ∧ Forest d1.father n root depth bound ∧
      d1.size = d.size := by
  have hd : depth x < fuel := by have := F.depth_lt x hx; omega
  obtain ⟨father1, e1, F1⟩ := getSetCompress_spec fuel d.father x F hx hd
  refine ⟨{ d with father := father1 }, ?_, F1, rfl⟩
  unfold getSet
  rw [getSetFind_spec F fuel x hx hd, Option.some_bind, e1, Option.map_some']

/-- Hanging the root `j0` below the root `i0` keeps the forest and merges the two classes. -/
theorem forest_link {father : List Nat} {n : Nat} {root depth : Nat → Nat} {bound : Nat}
    (F : Forest father n root depth bound) (i0 j0 : Nat) (hi : i0 < n) (hj : j0 < n)
    (hri : fa father i0 = i0) (hrj : fa father j0 = j0) :
    ∃ root1 depth1, Forest (father.set j0 i0) n root1 depth1 (2 * bound + 1) ∧
      ∀ x y, root1 x = root1 y ↔
        (root x = root y ∨ ((root x = i0 ∨ root x = j0) ∧ (root y = i0 ∨ root y = j0))) := by
  have hlen : j0 < father.length := by rw [F.len]; exact hj
  have hroot_i : root i0 = i0 := F.root_self i0 hi hri
  have hroot_j : root j0 = j0 := F.root_self j0 hj hrj
  have hdi := F.depth_lt i0 hi
  refine ⟨fun x => if root x = j0 then i0 else root x,
    fun x => if root x = j0 then depth x + depth i0 + 1 else depth x, ?_, ?_⟩
  · refine ⟨by rw [List.length_set, F.len], ?_, ?_, ?_, ?_, ?_, ?_, ?_, ?_, ?_⟩
    · intro y hy
      rw [fa_set father j0 i0 y hlen]
      by_cases h : j0 = y
      · rw [if_pos h]; exact hi
      · rw [if_neg h]; exact F.fa_lt y hy
    · intro y hy
      rw [fa_set father j0 i0 y hlen]
      by_cases h : j0 = y
      · subst h
        rw [if_pos rfl, hroot_i, hroot_j, if_pos rfl]
        by_cases h2 : i0 = j0
        · rw [if_pos h2]
        · rw [if_neg h2]
      · rw [if_neg h, F.root_fa y hy]
    · intro y hy
      rw [fa_set father j0 i0 y hlen]
      by_cases h : j0 = y
      · subst h
        rw [if_pos rfl, hroot_j, if_pos rfl]
        exact fun e => e
      · rw [if_neg h]
        intro e
        have := F.root_self y hy e
        rw [this, if_neg (fun e2 => h e2.symm)]
    · intro y hy
      rw [fa_set father j0 i0 y hlen]
      by_cases h : j0 = y
      · subst h
        rw [if_pos rfl, hroot_i, hroot_j, if_pos rfl]
        intro hne
        rw [if_neg hne]
        omega
      · rw [if_neg h, F.root_fa y hy]
        intro hne
        have := F.depth_fa y hy hne
        by_cases h2 : root y = j0
        · rw [if_pos h2, if_pos h2]; omega
        · rw [if_neg h2, if_neg h2]; exact this
    · intro y hy
      beta_reduce
      by_cases h2 : root y = j0
      · rw [if_pos h2]; exact hi
      · rw [if_neg h2]; exact F.root_lt y hy
    · intro y hy
      beta_reduce
      by_cases h2 : root y = j0
      · rw [if_pos h2, fa_set father j0 i0 i0 hlen]
        by_cases h3 : j0 = i0
        · rw [if_pos h3]
        · rw [if_neg h3]; exact hri
      · rw [if_neg h2, fa_set father j0 i0 (root y) hlen, if_neg (fun e => h2 e.symm)]
        exact F.fa_root y hy
    · intro y hy
      beta_reduce
      have hrr := root_root F y hy
      by_cases h2 : root y = j0
      · rw [if_pos h2, hroot_i, if_pos h2]
        intro hne
        by_cases h3 : i0 = j0
        · rw [if_pos h3]
          have : root y ≠ y := by
            rw [h2, ← h3]; exact hne
          have := F.depth_root y hy this
          rw [h2, ← h3] at this
          omega
        · rw [if_neg h3]; omega
      · rw [if_neg h2, hrr, if_neg h2, if_neg h2]
        exact F.depth_root y hy
    · intro y hy
      beta_reduce
      have := F.depth_lt y hy
      by_cases h2 : root y = j0
      · rw [if_pos h2]; omega
      · rw [if_neg h2]; omega
    · intro y hy
      beta_reduce
      have := F.root_out y hy
      rw [this, if_neg (by omega)]
  · intro x y
    beta_reduce
    by_cases hx : root x = j0 <;> by_cases hy : root y = j0
    · rw [if_pos hx, if_pos hy]; omega
    · rw [if_pos hx, if_neg hy]; omega
    · rw [if_neg hx, if_pos hy]; omega
    · rw [if_neg hx, if_neg hy]; omega

theorem eqvGen_joined_mono (pairs : List (Nat × Nat)) (e : Nat × Nat) (x y : Nat)
    (h : Relation.EqvGen (joined pairs) x y) :
    Relation.EqvGen (joined (pairs ++ [e])) x y := by
  induction h with
  | rel u v huv =>
    exact Relation.EqvGen.rel u v (List.mem_append_left _ huv)
  | refl u => exact Relation.EqvGen.refl u
  | symm u v _ ih => exact Relation.EqvGen.symm u v ih
  | trans u v w _ _ ih1 ih2 => exact Relation.EqvGen.trans u v w ih1 ih2

theorem classes_join (root root1 : Nat → Nat) (pairs : List (Nat × Nat)) (a b i0 j0 : Nat)
    (hsem : ∀ x y, root x = root y ↔ Relation.EqvGen (joined pairs) x y)
    (hcls : ∀ x y, root1 x = root1 y ↔
      (root x = root y ∨ ((root x = i0 ∨ root x = j0) ∧ (root y = i0 ∨ root y = j0))))
    (hij : (i0 = root a ∧ j0 = root b) ∨ (i0 = root b ∧ j0 = root a)) :
    ∀ x y, root1 x = root1 y ↔ Relation.EqvGen (joined (pairs ++ [(a, b)])) x y := by
  have hab : Relation.EqvGen (joined (pairs ++ [(a, b)])) a b :=
    Relation.EqvGen.rel a b (by simp [joined])
  have up : ∀ x y, root x = root y → Relation.EqvGen (joined (pairs ++ [(a, b)])) x y :=
    fun x y h => eqvGen_joined_mono pairs (a, b) x y ((hsem x y).mp h)
  intro x y
  constructor
  · intro h
    rcases (hcls x y).mp h with h1 | ⟨hx, hy⟩
    · exact up x y h1
    · -- both roots are among the roots of `a` and `b`
      have hxa : root x = root a ∨ root x = root b := by
        rcases hij with ⟨e1, e2⟩ | ⟨e1, e2⟩ <;> rcases hx with h3 | h3 <;> omega
      have hya : root y = root a ∨ root y = root b := by
        rcases hij with ⟨e1, e2⟩ | ⟨e1, e2⟩ <;> rcases hy with h3 | h3 <;> omega
      rcases hxa with h3 | h3 <;> rcases hya with h4 | h4
      · exact up x y (by rw [h3, h4])
      · exact Relation.EqvGen.trans _ _ _ (up x a h3)
          (Relation.EqvGen.trans _ _ _ hab (up b y h4.symm))
      · exact Relation.EqvGen.trans _ _ _ (up x b h3)
          (Relation.EqvGen.trans _ _ _ (Relation.EqvGen.symm _ _ hab) (up a y h4.symm))
      · exact up x y (by rw [h3, h4])
  · intro h
    induction h with
    | rel u v huv =>
      unfold joined at huv
      rcases List.mem_append.mp huv with h1 | h1
      · exact (hcls u v).mpr (Or.inl ((hsem u v).mpr (Relation.EqvGen.rel u v h1)))
      · simp only [List.mem_singleton, Prod.mk.injEq] at h1
        rw [h1.1, h1.2]
        apply (hcls a b).mpr
        right
        rcases hij with ⟨e1, e2⟩ | ⟨e1, e2⟩ <;> omega
    | refl u => rfl
    | symm u v _ ih => exact ih.symm
    | trans u v w _ _ ih1 ih2 => exact ih1.trans ih2

theorem join_spec {n : Nat} {root depth : Nat → Nat} {bound : Nat} (d : DisjointSets)
    (F : Forest d.father n root depth bound) (hs : d.size.length = n)
    (pairs : List (Nat × Nat))
    (hsem : ∀ x y, root x = root y ↔ Relation.EqvGen (joined pairs) x y)
    (a b : Nat) (ha : a < n) (hb : b < n) (fuel : Nat) (hfuel : bound ≤ fuel) :
    ∃ d1 root1 depth1, d.join fuel a b = some d1 ∧
      Forest d1.father n root1 depth1 (2 * bound + 1) ∧ d1.size.length = n ∧
      ∀ x y, root1 x = root1 y ↔ Relation.EqvGen (joined (pairs ++ [(a, b)])) x y := by
  obtain ⟨d1, e1, F1, s1⟩ := getSet_spec d F fuel a ha hfuel
  obtain ⟨d2, e2, F2, s2⟩ := getSet_spec d1 F1 fuel b hb hfuel
  have hra := F.root_lt a ha
  have hrb := F.root_lt b hb
  have hs2 : d2.size.length = n := by rw [s2, s1, hs]
  obtain ⟨si, hsa⟩ : ∃ si, d2.size[root a]? = some si :=
    ⟨_, List.getElem?_eq_getElem (by rw [hs2]; exact hra)⟩
  obtain ⟨sj, hsb⟩ : ∃ sj, d2.size[root b]? = some sj :=
    ⟨_, List.getElem?_eq_getElem (by rw [hs2]; exact hrb)⟩
  have hfa := F2.fa_root a ha
  have hfb := F2.fa_root b hb
  unfold join
  rw [e1, Option.some_bind, e2, Option.some_bind]
  simp only [hsa, hsb, Option.some_bind]
  by_cases hlt : si < sj
  · simp only [if_pos hlt]
    rw [if_pos (by rw [F2.len]; exact hra)]
    obtain ⟨root1, depth1, FL, hcls⟩ := forest_link F2 (root b) (root a) hrb hra hfb hfa
    refine ⟨_, root1, depth1, rfl, FL, by simp [hs2], ?_⟩
    exact classes_join root root1 pairs a b (root b) (root a) hsem hcls
      (Or.inr ⟨rfl, rfl⟩)
  · simp only [if_neg hlt]
    rw [if_pos (by rw [F2.len]; exact hrb)]
    obtain ⟨root1, depth1, FL, hcls⟩ := forest_link F2 (root a) (root b) hra hrb hfa hfb
    refine ⟨_, root1, depth1, rfl, FL, by simp [hs2], ?_⟩
    exact classes_join root root1 pairs a b (root a) (root b) hsem hcls
      (Or.inl ⟨rfl, rfl⟩)

theorem le_boundAfter (k : Nat) : ∀ bound : Nat, bound ≤ boundAfter bound k := by
  induction k with
  | zero => intro bound; exact Nat.le_refl _
  | succ k ih =>
    intro bound
    have := ih (2 * bound + 1)
    unfold boundAfter
    omega

theorem boundAfter_eq (k : Nat) : ∀ bound : Nat,
    boundAfter bound k + 1 = (bound + 1) * 2 ^ k := by
  induction k with
  | zero => intro bound; simp [boundAfter]
  | succ k ih =>
    intro bound
    unfold boundAfter
    rw [ih (2 * bound + 1), pow_succ]
    ring

theorem forest_mono {father : List Nat} {n : Nat} {root depth : Nat → Nat} {b1 b2 : Nat}
    (F : Forest father n root depth b1) (h : b1 ≤ b2) : Forest father n root depth b2 :=
  ⟨F.len, F.fa_lt, F.root_fa, F.root_self, F.depth_fa, F.root_lt, F.fa_root, F.depth_root,
    fun x hx => Nat.lt_of_lt_of_le (F.depth_lt x hx) h, F.root_out⟩

theorem joinAll_spec {n : Nat} : ∀ (joins : List (Nat × Nat)) (d : DisjointSets)
    (root depth : Nat → Nat) (bound : Nat) (pairs : List (Nat × Nat)),
    Forest d.father n root depth bound → d.size.length = n →
    (∀ x y, root x = root y ↔ Relation.EqvGen (joined pairs) x y) →
    (∀ e ∈ joins, e.1 < n ∧ e.2 < n) →
    ∀ fuel, boundAfter bound joins.length ≤ fuel →
    ∃ d1 root1 depth1, joinAll fuel d joins = some d1 ∧
      Forest d1.father n root1 depth1 (boundAfter bound joins.length) ∧
      d1.size.length = n ∧
      ∀ x y, root1 x = root1 y ↔ Relation.EqvGen (joined (pairs ++ joins)) x y := by
  intro joins
  induction joins with
  | nil =>
    intro d root depth bound pairs F hs hsem _ fuel _
    exact ⟨d, root, depth, rfl, F, hs, by simpa using hsem⟩
  | cons e rest ih =>
    intro d root depth bound pairs F hs hsem hj fuel hfuel
    have hb1 : bound ≤ fuel := by
      have := le_boundAfter (rest.length + 1) bound
      simp only [List.length_cons] at hfuel
      omega
    obtain ⟨d1, root1, depth1, e1, F1, s1, sem1⟩ := join_spec d F hs pairs hsem e.1 e.2
      (hj e (List.mem_cons_self _ _)).1 (hj e (List.mem_cons_self _ _)).2 fuel hb1
    obtain ⟨d2, root2, depth2, e2, F2, s2, sem2⟩ := ih d1 root1 depth1 (2 * bound + 1)
      (pairs ++ [(e.1, e.2)]) F1 s1 sem1 (fun x hx => hj x (List.mem_cons_of_mem _ hx)) fuel
      (by simpa [boundAfter] using hfuel)
    refine ⟨d2, root2, depth2, ?_, ?_, s2, ?_⟩
    · unfold joinAll at e2 ⊢
      rw [List.foldlM_cons, e1]
      exact e2
    · simpa [boundAfter] using F2
    · simpa using sem2

theorem forest_init (n : Nat) :
    Forest (init n).father n (fun x => x) (fun _ => 0) 1 ∧ (init n).size.length = n ∧
      ∀ x y, (fun x : Nat => x) x = (fun x : Nat => x) y ↔
        Relation.EqvGen (joined []) x y := by
  have hfa : ∀ x, fa (List.range n) x = x := by
    intro x
    unfold fa
    by_cases h : x < n
    · rw [List.getElem?_range h]; rfl
    · rw [List.getElem?_eq_none (by simpa using h)]; rfl
  refine ⟨⟨by simp [init], ?_, ?_, ?_, ?_, ?_, ?_, ?_, ?_, ?_⟩, by simp [init], ?_⟩
  · intro x hx; simp only [init, hfa]; exact hx
  · intro x _; simp only [init, hfa]
  · intro x _ _; rfl
  · intro x _ h; simp only [init, hfa] at h; exact absurd rfl h
  · intro x hx; exact hx
  · intro x _; simp only [init, hfa]
  · intro x _ h; exact absurd rfl h
  · intro x _; exact Nat.zero_lt_one
  · intro x _; rfl
  · intro x y
    constructor
    · intro h
      have h2 : x = y := h
      rw [h2]; exact Relation.EqvGen.refl y
    · intro h
      induction h with
      | rel u v huv => simp [joined] at huv
      | refl u => rfl
      | symm u v _ ih => exact ih.symm
      | trans u v w _ _ ih1 ih2 => exact ih1.trans ih2

theorem same_spec {n : Nat} {root depth : Nat → Nat} {bound : Nat} (d : DisjointSets)
    (F : Forest d.father n root depth bound) (jFirst : Bool) (fuel a b : Nat)
    (ha : a < n) (hb : b < n) (hfuel : bound ≤ fuel) :
    ∃ d1, d.same jFirst fuel a b = some (decide (root a = root b), d1) ∧
      Forest d1.father n root depth bound := by
  unfold same
  cases jFirst with
  | false =>
    obtain ⟨d1, e1, F1, _⟩ := getSet_spec d F fuel a ha hfuel
    obtain ⟨d2, e2, F2, _⟩ := getSet_spec d1 F1 fuel b hb hfuel
    refine ⟨d2, ?_, F2⟩
    simp [e1, e2]
  | true =>
    obtain ⟨d1, e1, F1, _⟩ := getSet_spec d F fuel b hb hfuel
    obtain ⟨d2, e2, F2, _⟩ := getSet_spec d1 F1 fuel a ha hfuel
    refine ⟨d2, ?_, F2⟩
    simp [e1, e2]

end DisjointSets

theorem getCardinalDir_cases (v : Vec2) :
    (v.getCardinalDir = none ∧ ¬ (max |v.x| |v.y| = 1)) ∨
    (∃ d, v.getCardinalDir = some d ∧ Vec2.ofDir d = v ∧ max |v.x| |v.y| = 1) := by
  obtain ⟨x, y⟩ := v
  unfold Vec2.getCardinalDir
  simp only
  by_cases h1 : x = 0 ∧ y = -1
  · right; obtain ⟨rfl, rfl⟩ := h1; exact ⟨Dir.N, by simp, rfl, by decide⟩
  by_cases h2 : x = 1 ∧ y = -1
  · right; obtain ⟨rfl, rfl⟩ := h2; exact ⟨Dir.NE, by simp, rfl, by decide⟩
  by_cases h3 : x = 1 ∧ y = 0
  · right; obtain ⟨rfl, rfl⟩ := h3; exact ⟨Dir.E, by simp, rfl, by decide⟩
  by_cases h4 : x = 1 ∧ y = 1
  · right; obtain ⟨rfl, rfl⟩ := h4; exact ⟨Dir.SE, by simp, rfl, by decide⟩
  by_cases h5 : x = 0 ∧ y = 1
  · right; obtain ⟨rfl, rfl⟩ := h5; exact ⟨Dir.S, by simp, rfl, by decide⟩
  by_cases h6 : x = -1 ∧ y = 1
  · right; obtain ⟨rfl, rfl⟩ := h6; exact ⟨Dir.SW, by simp, rfl, by decide⟩
  by_cases h7 : x = -1 ∧ y = 0
  · right; obtain ⟨rfl, rfl⟩ := h7; exact ⟨Dir.W, by simp, rfl, by decide⟩
  by_cases h8 : x = -1 ∧ y = -1
  · right; obtain ⟨rfl, rfl⟩ := h8; exact ⟨Dir.NW, by simp, rfl, by decide⟩
  left
  refine ⟨by simp only [h1, h2, h3, h4, h5, h6, h7, h8, if_false], ?_⟩
  intro hmax
  have hx := abs_cases x
  have hy := abs_cases y
  omega

theorem drop_take_succ (s : List Char) (b k : Nat) (c : Char) (hb : b ≤ k)
    (hc : s[k]? = some c) :
    (s.drop b).take (k + 1 - b) = (s.drop b).take (k - b) ++ [c] := by
  have h1 : k + 1 - b = (k - b) + 1 := by omega
  have h2 : (s.drop b)[k - b]? = some c := by
    rw [List.getElem?_drop]
    have : b + (k - b) = k := by omega
    rw [this, hc]
  rw [h1, List.take_succ, h2]
  rfl

theorem take_succ_char (s : List Char) (k : Nat) (c : Char) (hc : s[k]? = some c) :
    s.take (k + 1) = s.take k ++ [c] := by
  rw [List.take_succ, hc]; rfl

theorem zipWith_append_snoc (ret : List (List Char)) (ds : List Char) (p : List Char)
    (c : Char) (h : ret.length = ds.length) :
    (List.zipWith (· ++ ·) (ret ++ [p]) ((ds ++ [c]).map (fun x => [x]))).flatten
      = (List.zipWith (· ++ ·) ret (ds.map (fun x => [x]))).flatten ++ (p ++ [c]) := by
  rw [List.map_append, List.zipWith_append _ _ _ _ _ (by simpa using h)]
  simp

theorem split_steps (s D : List Char) : ∀ k, k ≤ s.length →
    ∃ b ret, (List.range k).foldlM (splitStep s D) (0, []) = some (b, ret) ∧ b ≤ k ∧
      ret.length = ((s.take k).filter (fun c => decide (c ∈ D))).length ∧
      (∀ p ∈ ret, ∀ c ∈ p, c ∉ D) ∧
      (∀ c ∈ (s.drop b).take (k - b), c ∉ D) ∧
      (List.zipWith (· ++ ·) ret
          (((s.take k).filter (fun c => decide (c ∈ D))).map (fun c => [c]))).flatten
        ++ (s.drop b).take (k - b) = s.take k := by
  intro k
  induction k with
  | zero =>
    intro _
    exact ⟨0, [], rfl, Nat.le_refl _, by simp, by simp, by simp, by simp⟩
  | succ k ih =>
    intro hk
    obtain ⟨b, ret, e1, hb, hlen, hpieces, hcur, hjoin⟩ := ih (by omega)
    obtain ⟨c, hc⟩ : ∃ c, s[k]? = some c := ⟨_, List.getElem?_eq_getElem (by omega)⟩
    have hne : ¬ k = s.length := by omega
    rw [List.range_succ, List.foldlM_append, e1]
    simp only [Option.bind_eq_bind, Option.some_bind, List.foldlM_cons, List.foldlM_nil]
    unfold splitStep
    simp only [hne, decide_False, Bool.false_or, hc]
    by_cases hD : c ∈ D
    · have hsub : substr s b (k - b) = some ((s.drop b).take (k - b)) := by
        unfold substr
        rw [if_pos (by omega)]
      simp only [hD, decide_True, if_true, hsub, Option.map_some', Option.some_bind]
      refine ⟨k + 1, ret ++ [(s.drop b).take (k - b)], rfl, Nat.le_refl _, ?_, ?_, ?_, ?_⟩
      · rw [take_succ_char s k c hc, List.filter_append]
        simp [hD, hlen]
      · intro p hp
        rcases List.mem_append.mp hp with h | h
        · exact hpieces p h
        · rw [List.mem_singleton] at h
          rw [h]; exact hcur
      · simp
      · rw [take_succ_char s k c hc, List.filter_append]
        have hf : List.filter (fun c => decide (c ∈ D)) [c] = [c] := by simp [hD]
        rw [hf, zipWith_append_snoc ret _ _ c hlen, ← List.append_assoc, hjoin]
        simp
    · simp only [hD, decide_False, Bool.false_eq_true, if_false, Option.some_bind]
      refine ⟨b, ret, rfl, by omega, ?_, hpieces, ?_, ?_⟩
      · rw [take_succ_char s k c hc, List.filter_append]
        simp [hD, hlen]
      · rw [drop_take_succ s b k c hb hc]
        intro x hx
        rcases List.mem_append.mp hx with h | h
        · exact hcur x h
        · rw [List.mem_singleton] at h
          rw [h]; exact hD
      · rw [take_succ_char s k c hc, List.filter_append, drop_take_succ s b k c hb hc]
        have hf : List.filter (fun c => decide (c ∈ D)) [c] = [] := by simp [hD]
        rw [hf, List.append_nil, ← List.append_assoc, hjoin]

theorem split_core (s D : List Char) (hs : s ≠ []) :
    ∃ ret p, split s D = some (ret ++ [p]) ∧
      ret.length = (s.filter (fun c => decide (c ∈ D))).length ∧
      (∀ q ∈ ret, ∀ c ∈ q, c ∉ D) ∧ (∀ c ∈ p, c ∉ D) ∧
      (List.zipWith (· ++ ·) ret
          ((s.filter (fun c => decide (c ∈ D))).map (fun c => [c]))).flatten ++ p = s := by
  obtain ⟨b, ret, e1, hb, hlen, hpieces, hcur, hjoin⟩ :=
    split_steps s D s.length (Nat.le_refl _)
  rw [List.take_length] at hlen hjoin
  have hsub : substr s b (s.length - b) = some ((s.drop b).take (s.length - b)) := by
    unfold substr
    rw [if_pos hb]
  refine ⟨ret, (s.drop b).take (s.length - b), ?_, hlen, hpieces, hcur, hjoin⟩
  unfold split
  have hemp : s.isEmpty = false := by
    cases s with
    | nil => exact absurd rfl hs
    | cons c r => rfl
  rw [hemp]
  simp only [Bool.false_eq_true, if_false]
  rw [List.range_succ, List.foldlM_append, e1]
  simp only [Option.bind_eq_bind, Option.some_bind, List.foldlM_cons, List.foldlM_nil]
  unfold splitStep
  simp [hsub]

theorem intercalate_cons_cons (c : Char) (x y : List Char) (r : List (List Char)) :
    [c].intercalate (x :: y :: r) = x ++ [c] ++ [c].intercalate (y :: r) := by
  simp [List.intercalate, List.intersperse]

theorem intercalate_snoc (c : Char) (p : List Char) : ∀ (ret : List (List Char))
    (ds : List Char), ret.length = ds.length → (∀ x ∈ ds, x = c) →
    [c].intercalate (ret ++ [p])
      = (List.zipWith (· ++ ·) ret (ds.map (fun x => [x]))).flatten ++ p := by
  intro ret
  induction ret with
  | nil =>
    intro ds hlen _
    cases ds with
    | nil => simp [List.intercalate]
    | cons d ds => simp at hlen
  | cons r0 rest ih =>
    intro ds hlen hds
    cases ds with
    | nil => simp at hlen
    | cons d ds =>
      have hd : d = c := hds d (List.mem_cons_self _ _)
      have hlen2 : rest.length = ds.length := by simpa using hlen
      have ih2 := ih ds hlen2 (fun x hx => hds x (List.mem_cons_of_mem _ hx))
      obtain ⟨y, r, hy⟩ : ∃ y r, rest ++ [p] = y :: r := by
        cases rest with
        | nil => exact ⟨p, [], rfl⟩
        | cons a t => exact ⟨a, t ++ [p], rfl⟩
      rw [List.cons_append, hy, intercalate_cons_cons, ← hy, ih2, hd]
      simp

theorem makeSentencesLoop_empty_last : ∀ ret : List (List Char),
    makeSentencesLoop (ret ++ [[]]) = none := by
  intro ret
  induction ret with
  | nil => rfl
  | cons e rest ih =>
    rw [List.cons_append]
    unfold makeSentencesLoop
    rw [ih]
    cases trim e with
    | none => rfl
    | some t =>
      rw [Option.some_bind]
      cases makeSentence t with
      | none => rfl
      | some m => rfl

theorem split_last_empty (s : List Char) (hs : s.getLast? = some '.') :
    ∃ ret, split s ['.'] = some (ret ++ [[]]) := by
  have hne : s ≠ [] := by
    intro h
    rw [h] at hs
    cases hs
  obtain ⟨ret, p, e1, _, _, hcur, hjoin⟩ := split_core s ['.'] hne
  have hp : p = [] := by
    by_contra hpne
    have h1 : s.getLast? = p.getLast? := by
      rw [← hjoin, List.getLast?_append_of_ne_nil _ hpne]
    rw [hs] at h1
    have h2 : '.' ∈ p := List.mem_of_getLast?_eq_some h1.symm
    exact hcur '.' h2 (by simp)
  rw [hp] at e1
  exact ⟨ret, e1⟩

/-! ## The claims, in order -/

/-- C1 (count invariant): after any sequence of public calls on the empty map whose tile
lists are duplicate-free, the run has not failed and the count of every position (absent
entry = 0) is the number of `lastUpdates` entries whose tile list contains it plus the number
of `eyeballs` entries whose tile list contains it. -/
theorem count_invariant (ops : List (World × Op))
    (hd : ∀ e ∈ ops, e.2.dupFree e.1 = true) :
    ∃ s, run VisibilityMap.empty ops = some s ∧
      ∀ p, s.count p = ((holders p s.lastUpdates + holders p s.eyeballs : Nat) : Int) := by
  obtain ⟨s, e1, hinv, _, hnd⟩ := run_ok ops VisibilityMap.empty inv_empty
  obtain ⟨h1, h2⟩ := hnd hd (fun e he => by simp [VisibilityMap.empty] at he)
    (fun e he => by simp [VisibilityMap.empty] at he)
  refine ⟨s, e1, fun p => ?_⟩
  rw [count_of_inv s hinv p, holders_eq_contrib p _ h1, holders_eq_contrib p _ h2]

/-- Witness for C1 on a five-call sequence. -/
theorem count_invariant_witness :
    (∀ e ∈ sampleOps, e.2.dupFree e.1 = true) ∧
    ∃ s, run VisibilityMap.empty sampleOps = some s ∧
      ∀ p, s.count p = ((holders p s.lastUpdates + holders p s.eyeballs : Nat) : Int) :=
  ⟨by decide, count_invariant sampleOps (by decide)⟩

/-- C2 (no fatal failure, no negative count): any sequence of public calls on the empty map,
with arbitrary tile lists and arbitrary vision functions, runs to a state without reaching the
fatal branch of `removePositions`, and every stored count of that state is non-negative. The
same holds inside a following call: retracting any initial part of a stored tile list
succeeds with non-negative counts, and `addPositions` keeps non-negative counts
non-negative. -/
theorem no_fatal_and_counts_nonneg (ops : List (World × Op)) :
    ∃ s, run VisibilityMap.empty ops = some s ∧
      (∀ p n, Table.getMaybe p s.visibilityCount = some n → 0 ≤ n) ∧
      (∀ c S i, Table.getMaybe c s.lastUpdates = some S →
        ∃ b, s.removePositions (S.take i) = some b ∧
          ∀ p n, Table.getMaybe p b.visibilityCount = some n → 0 ≤ n) ∧
      (∀ pos S i, Table.getMaybe pos s.eyeballs = some S →
        ∃ b, s.removePositions (S.take i) = some b ∧
          ∀ p n, Table.getMaybe p b.visibilityCount = some n → 0 ≤ n) ∧
      (∀ (b : VisibilityMap) (L : List Position),
        (∀ p n, Table.getMaybe p b.visibilityCount = some n → 0 ≤ n) →
        ∀ p n, Table.getMaybe p (b.addPositions L).2.visibilityCount = some n → 0 ≤ n) := by
  obtain ⟨s, e1, hinv, _, _⟩ := run_ok ops VisibilityMap.empty inv_empty
  refine ⟨s, e1, stored_nonneg_of_counterIs s _ hinv.2.2, ?_, ?_, addPositions_nonneg⟩
  · intro c S i hS
    apply retract_part_nonneg s hinv S _ i
    intro p
    have := contrib_ge_of_getMaybe p c S s.lastUpdates hS
    omega
  · intro pos S i hS
    apply retract_part_nonneg s hinv S _ i
    intro p
    have := contrib_ge_of_getMaybe p pos S s.eyeballs hS
    omega

/-- C3: `isVisible(p)` is true exactly when the count of `p` is positive, the count being the
stored value, or 0 for a position without an entry; `isVisible` is a function of the state and
returns only the boolean, so the state is not changed. -/
theorem isVisible_iff_count_pos (s : VisibilityMap) (p : Position) :
    (s.isVisible p = true ↔ 0 < s.count p) ∧
    s.count p = (match Table.getMaybe p s.visibilityCount with
      | some n => n
      | none => 0) := by
  constructor
  · simp [VisibilityMap.isVisible, VisibilityMap.count]
  · unfold VisibilityMap.count
    cases Table.getMaybe p s.visibilityCount <;> rfl

/-- C4: `addPositions(L)` cannot fail (it is a total function); afterwards the count of every
position is its old count plus its number of occurrences in `L`; the returned list is, in
list order, exactly the occurrences `L[i]` whose count was 0 just before their increment
(old count plus earlier occurrences in `L`), i.e. whose increment made the count exactly 1.
Hence a tile is returned once when its count passes through 1 and not at all otherwise: a
tile of count 0 occurring twice is returned once and ends with count 2. The returned list is
also read off the loop itself: the occurrences at whose step the count changes from 0 to 1. -/
theorem addPositions_spec (s : VisibilityMap) (L : List Position) :
    (s.addPositions L).1 = crossings s.count 1 0 L ∧
    (s.addPositions L).1 = addTransitions s L ∧
    (∀ p, (s.addPositions L).2.count p = s.count p + (L.count p : Int)) ∧
    (∀ p, (s.addPositions L).1.count p
      = if s.count p ≤ 0 ∧ -s.count p < (L.count p : Int) then 1 else 0) := by
  refine ⟨(VisibilityMap.addPositions_facts s L).1, ?_,
    VisibilityMap.count_addPositions s L, ?_⟩
  · rw [(VisibilityMap.addPositions_facts s L).1, crossings_eq_addTransitions]
  · intro p
    rw [(VisibilityMap.addPositions_facts s L).1, count_crossings_add]

/-- Counterexample to C5 as stated: a tracked tile whose count is 0 is decremented to -1;
`removePositions` does not fail, and nothing is notified. -/
theorem removePositions_zero_count_not_fatal :
    (VisibilityMap.mk [] [(⟨0, 0⟩, 0)] [] []).count ⟨0, 0⟩ = 0 ∧
    (VisibilityMap.mk [] [(⟨0, 0⟩, 0)] [] []).removePositions [⟨0, 0⟩]
      = some (VisibilityMap.mk [] [(⟨0, 0⟩, -1)] [] []) := by
  decide

/-- C5 (amended): `removePositions(L)` fails fatally exactly when some tile of `L` has no
entry in `visibilityCount`; when every tile of `L` has an entry it succeeds, whatever the
counts are, and every count is its old value minus the number of occurrences in `L`. -/
theorem removePositions_fails_iff_untracked (s : VisibilityMap) (L : List Position) :
    ((∃ v ∈ L, Table.getMaybe v s.visibilityCount = none) ∧ s.removePositions L = none) ∨
    ((∀ v ∈ L, Table.getMaybe v s.visibilityCount ≠ none) ∧
      ∃ s1, s.removePositions L = some s1 ∧
        ∀ p, s1.count p = s.count p - (L.count p : Int)) := by
  by_cases h : ∃ v ∈ L, Table.getMaybe v s.visibilityCount = none
  · exact Or.inl ⟨h, VisibilityMap.removePositions_fail L s h⟩
  · right
    have hL : ∀ v ∈ L, Table.getMaybe v s.visibilityCount ≠ none :=
      fun v hv hn => h ⟨v, hv, hn⟩
    obtain ⟨s1, e1, _, _, _, e5⟩ := VisibilityMap.removePositions_ok L s hL
    exact ⟨hL, s1, e1, VisibilityMap.count_removePositions s s1 L e5 hL⟩

/-- C6 (full replace): in a state reached from the empty map by calls with duplicate-free tile
lists, `update(o, S)` with duplicate-free `S` succeeds; afterwards `lastUpdates[o]` is `S`,
the entries of all other observers and the whole `eyeballs` table are unchanged, the count of
every `p` is the old count minus 1 if `p` was in the previously stored list of `o` plus 1 if
`p` is in `S`, and the returned list is exactly the tiles of `S` whose count is 0 in the state
`remove(o)` leaves, i.e. after the retraction of the previous list. -/
theorem update_full_replace (ops : List (World × Op))
    (hd : ∀ e ∈ ops, e.2.dupFree e.1 = true) (o : Creature) (S : List Position)
    (hS : S.Nodup) :
    ∃ s s1 ret s2, run VisibilityMap.empty ops = some s ∧ s.remove o = some s1 ∧
      s.update o S = some (ret, s2) ∧
      Table.getMaybe o s2.lastUpdates = some S ∧
      (∀ o2, o2 ≠ o → Table.getMaybe o2 s2.lastUpdates = Table.getMaybe o2 s.lastUpdates) ∧
      s2.eyeballs = s.eyeballs ∧
      (∀ p, s2.count p = s.count p
        - (if p ∈ (Table.getMaybe o s.lastUpdates).getD [] then 1 else 0)
        + (if p ∈ S then 1 else 0)) ∧
      ret = S.filter (fun p => decide (s1.count p = 0)) := by
  obtain ⟨s, e1, hinv, _, hnd⟩ := run_ok ops VisibilityMap.empty inv_empty
  obtain ⟨h1, _⟩ := hnd hd (fun e he => by simp [VisibilityMap.empty] at he)
    (fun e he => by simp [VisibilityMap.empty] at he)
  obtain ⟨s1, r1, _, _, _, _, r5⟩ := VisibilityMap.remove_ok s o hinv
  obtain ⟨ret, s2, u1, _, u2, u3, u4, _, u6⟩ := VisibilityMap.update_ok s o S hinv
  have hprev := stored_nodup s h1 o
  refine ⟨s, s1, ret, s2, e1, r1, u1, ?_, ?_, u3, ?_, ?_⟩
  · rw [u2, Table.getMaybe_set]; simp
  · intro o2 ho
    have ho2 : ¬ o = o2 := fun e => ho e.symm
    rw [u2, Table.getMaybe_set, Table.getMaybe_erase]
    simp [ho2]
  · intro p
    rw [u6 p, count_nodup p _ hprev, count_nodup p S hS]
  · have hc : (fun p => s.count p
        - ((((Table.getMaybe o s.lastUpdates).getD []).count p : Nat) : Int)) = s1.count := by
      funext p
      exact (r5 p).symm
    rw [u4, hc, crossings_nodup _ _ _ _ hS]

/-- Witness for C6: after the sample calls, observer 1 is moved to `(1, 0)`, `(5, 5)`. -/
theorem update_full_replace_witness :
    (∀ e ∈ sampleOps, e.2.dupFree e.1 = true) ∧ [(⟨1, 0⟩ : Position), ⟨5, 5⟩].Nodup ∧
    ∃ s s1 ret s2, run VisibilityMap.empty sampleOps = some s ∧ s.remove 1 = some s1 ∧
      s.update 1 [⟨1, 0⟩, ⟨5, 5⟩] = some (ret, s2) ∧
      Table.getMaybe 1 s2.lastUpdates = some [⟨1, 0⟩, ⟨5, 5⟩] ∧
      (∀ o2, o2 ≠ 1 → Table.getMaybe o2 s2.lastUpdates = Table.getMaybe o2 s.lastUpdates) ∧
      s2.eyeballs = s.eyeballs ∧
      (∀ p, s2.count p = s.count p
        - (if p ∈ (Table.getMaybe 1 s.lastUpdates).getD [] then 1 else 0)
        + (if p ∈ [(⟨1, 0⟩ : Position), ⟨5, 5⟩] then 1 else 0)) ∧
      ret = [(⟨1, 0⟩ : Position), ⟨5, 5⟩].filter (fun p => decide (s1.count p = 0)) :=
  ⟨by decide, by decide,
    update_full_replace sampleOps (by decide) 1 [⟨1, 0⟩, ⟨5, 5⟩] (by decide)⟩

/-- C7: after any sequence of public calls on the empty map (which never fails), observer `o`
has an entry in `lastUpdates` exactly when the sequence contains an `update(o, _)` that no
`remove(o)` follows; and when `o` has the stored tile list `S`, `remove(o)` succeeds, leaves
`o` without an entry, lowers the count of every `p` by the number of occurrences of `p` in
`S`, and leaves the entries of all other observers and the whole `eyeballs` table
unchanged. -/
theorem remove_frame (ops : List (World × Op)) (o : Creature) :
    ∃ s, run VisibilityMap.empty ops = some s ∧
      (Table.hasKey o s.lastUpdates = true ↔ LastUpdateStands o ops) ∧
      ∀ S, Table.getMaybe o s.lastUpdates = some S →
        ∃ s1, s.remove o = some s1 ∧
          Table.getMaybe o s1.lastUpdates = none ∧
          (∀ p, s1.count p = s.count p - (S.count p : Int)) ∧
          (∀ o2, o2 ≠ o →
            Table.getMaybe o2 s1.lastUpdates = Table.getMaybe o2 s.lastUpdates) ∧
          s1.eyeballs = s.eyeballs := by
  obtain ⟨s, e1, hinv, ht, _⟩ := run_ok ops VisibilityMap.empty inv_empty
  refine ⟨s, e1, ?_, ?_⟩
  · rw [ht o, ← tracks_false_iff]
    rfl
  · intro S hS
    obtain ⟨s1, r1, _, r2, r3, _, r5⟩ := VisibilityMap.remove_ok s o hinv
    refine ⟨s1, r1, ?_, ?_, ?_, r3⟩
    · rw [r2, Table.getMaybe_erase]; simp
    · intro p
      rw [r5 p, hS]; rfl
    · intro o2 ho
      have ho2 : ¬ o = o2 := fun e => ho e.symm
      rw [r2, Table.getMaybe_erase]
      simp [ho2]

/-- C8 (benign no-op): `remove(o)` for an observer without an entry in `lastUpdates` and
`removeEyeball(pos)` for a position without an entry in `eyeballs` do not fail and return the
state unchanged: the three tables are the same and nothing is appended to the notification
log. -/
theorem remove_untracked_noop (s : VisibilityMap) (o : Creature) (pos : Position)
    (ho : Table.getMaybe o s.lastUpdates = none)
    (hpos : Table.getMaybe pos s.eyeballs = none) :
    s.remove o = some s ∧ s.removeEyeball pos = some s := by
  constructor
  · unfold VisibilityMap.remove
    rw [ho, Table.erase_of_absent o _ ho]
  · unfold VisibilityMap.removeEyeball
    rw [hpos, Table.erase_of_absent pos _ hpos]

/-- Witness for C8: observer 2 and position `(3, 3)` are untracked in the sample state. -/
theorem remove_untracked_noop_witness :
    Table.getMaybe 2 sampleState.lastUpdates = none ∧
    Table.getMaybe (⟨3, 3⟩ : Position) sampleState.eyeballs = none ∧
    sampleState.remove 2 = some sampleState ∧
    sampleState.removeEyeball ⟨3, 3⟩ = some sampleState :=
  ⟨by decide, by decide, remove_untracked_noop sampleState 2 ⟨3, 3⟩ (by decide) (by decide)⟩

/-- C9 (notification exactness): for every counter state (tiles with or without an entry, in
particular every state with non-negative counts) and every tile list, `addPositions(L)`
appends to the notification log exactly the occurrences of `L`, in order, at whose step the
count of the tile changes from 0 to 1; and `removePositions(L)`, whenever it does not fail,
appends exactly those at whose step the count changes from 1 to 0. No other increment or
decrement appends anything. `removePositions(L)` does not fail when every tile of `L` has an
entry. -/
theorem notification_exactness (s : VisibilityMap) (L : List Position) :
    (s.addPositions L).2.renderUpdates = s.renderUpdates ++ addTransitions s L ∧
    (∀ s1, s.removePositions L = some s1 →
      s1.renderUpdates = s.renderUpdates ++ removeTransitions s L) ∧
    ((∀ v ∈ L, Table.getMaybe v s.visibilityCount ≠ none) →
      ∃ s1, s.removePositions L = some s1) := by
  refine ⟨?_, ?_, ?_⟩
  · rw [(VisibilityMap.addPositions_facts s L).2.2.2.1, crossings_eq_addTransitions]
  · intro s1 h
    have hL := tracked_of_removePositions s s1 L h
    obtain ⟨s2, e1, _, _, e4, _⟩ := VisibilityMap.removePositions_ok L s hL
    rw [h] at e1
    cases e1
    rw [e4, crossings_eq_removeTransitions s L hL]
  · intro hL
    obtain ⟨s1, e1, _⟩ := VisibilityMap.removePositions_ok L s hL
    exact ⟨s1, e1⟩

/-- Witness for C9. On the empty map, where no tile has an entry, adding `(1,0), (1,0), (0,0)`
notifies `(1,0)` once (0 to 1, the second increment 1 to 2 is silent) and `(0,0)` once. In
the sample state (counts 1, 2, 1) removing the same list is silent at the first decrement of
`(1,0)` (2 to 1) and notifies `(1,0)` (1 to 0) and `(0,0)` (1 to 0). -/
theorem notification_exactness_witness :
    (addTransitions VisibilityMap.empty [⟨1, 0⟩, ⟨1, 0⟩, ⟨0, 0⟩] = [⟨1, 0⟩, ⟨0, 0⟩] ∧
      (VisibilityMap.empty.addPositions [⟨1, 0⟩, ⟨1, 0⟩, ⟨0, 0⟩]).2.renderUpdates
        = VisibilityMap.empty.renderUpdates
          ++ addTransitions VisibilityMap.empty [⟨1, 0⟩, ⟨1, 0⟩, ⟨0, 0⟩]) ∧
    (sampleState.removePositions [⟨1, 0⟩, ⟨1, 0⟩, ⟨0, 0⟩]
        = some { sampleState with
            visibilityCount := [(⟨0, 0⟩, 0), (⟨1, 0⟩, 0), (⟨2, 0⟩, 1)]
            renderUpdates := sampleState.renderUpdates ++ [⟨1, 0⟩, ⟨0, 0⟩] } ∧
      removeTransitions sampleState [⟨1, 0⟩, ⟨1, 0⟩, ⟨0, 0⟩] = [⟨1, 0⟩, ⟨0, 0⟩] ∧
      sampleState.renderUpdates ++ [⟨1, 0⟩, ⟨0, 0⟩]
        = sampleState.renderUpdates
          ++ removeTransitions sampleState [⟨1, 0⟩, ⟨1, 0⟩, ⟨0, 0⟩]) :=
  ⟨⟨by decide,
      (notification_exactness VisibilityMap.empty [⟨1, 0⟩, ⟨1, 0⟩, ⟨0, 0⟩]).1⟩,
    ⟨by decide, by decide,
      (notification_exactness sampleState [⟨1, 0⟩, ⟨1, 0⟩, ⟨0, 0⟩]).2.1
        { sampleState with
          visibilityCount := [(⟨0, 0⟩, 0), (⟨1, 0⟩, 0), (⟨2, 0⟩, 1)]
          renderUpdates := sampleState.renderUpdates ++ [⟨1, 0⟩, ⟨0, 0⟩] }
        (by decide)⟩⟩

/-- C10 (additivity): for distinct observers `A`, `B` with duplicate-free tile lists `SA`,
`SB`, starting from the empty map, `update(A, SA)`, `update(B, SB)`, `remove(A)`, `remove(B)`
all succeed. After the two updates the count of `p` is 1 for each of `SA`, `SB` containing it
(so 2 for shared tiles) and every tile of `SA` or `SB` is visible. `remove(A)` leaves shared
tiles visible with count 1 and without notification, makes tiles only in `SA` invisible with
exactly one notification, and leaves tiles only in `SB` as they were, without notification.
`remove(B)` then makes every tile of `SB` invisible with exactly one notification. -/
theorem additivity (A B : Creature) (hAB : A ≠ B) (SA SB : List Position)
    (hA : SA.Nodup) (hB : SB.Nodup) :
    ∃ rA s1 rB s2 s3 s4 n3 n4,
      VisibilityMap.empty.update A SA = some (rA, s1) ∧ s1.update B SB = some (rB, s2) ∧
      s2.remove A = some s3 ∧ s3.remove B = some s4 ∧
      s3.renderUpdates = s2.renderUpdates ++ n3 ∧
      s4.renderUpdates = s3.renderUpdates ++ n4 ∧
      (∀ p, s2.count p = (if p ∈ SA then 1 else 0) + (if p ∈ SB then 1 else 0)) ∧
      (∀ p, p ∈ SA ∨ p ∈ SB → s2.isVisible p = true) ∧
      (∀ p, p ∈ SA → p ∈ SB →
        s2.count p = 2 ∧ s3.isVisible p = true ∧ s3.count p = 1 ∧ p ∉ n3) ∧
      (∀ p, p ∈ SA → p ∉ SB → s3.isVisible p = false ∧ n3.count p = 1) ∧
      (∀ p, p ∉ SA → p ∈ SB →
        s3.count p = s2.count p ∧ s3.isVisible p = s2.isVisible p ∧ p ∉ n3) ∧
      (∀ p, p ∈ SB → s4.isVisible p = false ∧ n4.count p = 1) := by
  have hBA : ¬ B = A := fun e => hAB e.symm
  obtain ⟨rA, s1, u1, inv1, l1, _, _, _, c1⟩ :=
    VisibilityMap.update_ok VisibilityMap.empty A SA inv_empty
  have hl1 : s1.lastUpdates = [(A, SA)] := by
    rw [l1]; simp [VisibilityMap.empty, Table.erase, Table.set]
  obtain ⟨rB, s2, u2, inv2, l2, _, _, _, c2⟩ := VisibilityMap.update_ok s1 B SB inv1
  have hgB : Table.getMaybe B s1.lastUpdates = none := by
    rw [hl1]; simp [Table.getMaybe, hAB]
  have hl2 : s2.lastUpdates = [(A, SA), (B, SB)] := by
    rw [l2, hl1]; simp [Table.erase, Table.set, hAB]
  obtain ⟨s3, r3, inv3, l3, _, n3, c3⟩ := VisibilityMap.remove_ok s2 A inv2
  have hgA : Table.getMaybe A s2.lastUpdates = some SA := by
    rw [hl2]; simp [Table.getMaybe]
  have hl3 : s3.lastUpdates = [(B, SB)] := by
    rw [l3, hl2]; simp [Table.erase, hBA]
  obtain ⟨s4, r4, _, _, _, n4, c4⟩ := VisibilityMap.remove_ok s3 B inv3
  have hgB3 : Table.getMaybe B s3.lastUpdates = some SB := by
    rw [hl3]; simp [Table.getMaybe]
  -- the counts of the four states
  have k1 : ∀ p, s1.count p = if p ∈ SA then 1 else 0 := by
    intro p
    rw [c1 p, count_nodup p SA hA]
    simp [VisibilityMap.empty, VisibilityMap.count, Table.getMaybe]
  have k2 : ∀ p, s2.count p = (if p ∈ SA then 1 else 0) + (if p ∈ SB then 1 else 0) := by
    intro p
    rw [c2 p, hgB, k1 p, count_nodup p SB hB]
    simp
  have k3 : ∀ p, s3.count p = if p ∈ SB then 1 else 0 := by
    intro p
    rw [c3 p, hgA, k2 p]
    simp only [Option.getD_some]
    rw [count_nodup p SA hA]
    omega
  have k4 : ∀ p, s4.count p = 0 := by
    intro p
    rw [c4 p, hgB3, k3 p]
    simp only [Option.getD_some]
    rw [count_nodup p SB hB]
    omega
  rw [hgA, Option.getD_some, crossings_nodup _ _ _ _ hA] at n3
  rw [hgB3, Option.getD_some, crossings_nodup _ _ _ _ hB] at n4
  refine ⟨rA, s1, rB, s2, s3, s4, _, _, u1, u2, r3, r4, n3, n4, k2, ?_, ?_, ?_, ?_, ?_⟩
  · intro p hp
    rw [isVisible_eq, k2 p]
    rcases hp with hp | hp
    · by_cases h2 : p ∈ SB <;> simp [hp, h2]
    · by_cases h2 : p ∈ SA <;> simp [hp, h2]
  · intro p hpA hpB
    refine ⟨by rw [k2 p]; simp [hpA, hpB], by rw [isVisible_eq, k3 p]; simp [hpB],
      by rw [k3 p]; simp [hpB], ?_⟩
    intro hmem
    have := (List.mem_filter.mp hmem).2
    rw [k2 p] at this
    simp [hpA, hpB] at this
  · intro p hpA hpB
    refine ⟨by rw [isVisible_eq, k3 p]; simp [hpB], ?_⟩
    apply List.count_eq_one_of_mem (hA.filter _)
    rw [List.mem_filter]
    refine ⟨hpA, ?_⟩
    rw [k2 p]
    simp [hpA, hpB]
  · intro p hpA hpB
    refine ⟨by rw [k3 p, k2 p]; simp [hpA, hpB],
      by rw [isVisible_eq, isVisible_eq, k3 p, k2 p]; simp [hpA, hpB], ?_⟩
    intro hmem
    exact hpA (List.mem_filter.mp hmem).1
  · intro p hpB
    refine ⟨by rw [isVisible_eq, k4 p]; simp, ?_⟩
    apply List.count_eq_one_of_mem (hB.filter _)
    rw [List.mem_filter]
    refine ⟨hpB, ?_⟩
    rw [k3 p]
    simp [hpB]

/-- Witness for C10: the scenario of the spec, observer 1 with `(0,0), (1,0)` and observer 2
with `(1,0), (2,0)`; after both updates the counts are 1, 2, 1. -/
theorem additivity_witness :
    ((1 : Creature) ≠ 2 ∧ sampleSA.Nodup ∧ sampleSB.Nodup) ∧
    ((VisibilityMap.empty.update 1 sampleSA).bind (fun r => r.2.update 2 sampleSB)).map
        (fun r => [r.2.count ⟨0, 0⟩, r.2.count ⟨1, 0⟩, r.2.count ⟨2, 0⟩])
      = some [1, 2, 1] ∧
    ∃ rA s1 rB s2 s3 s4 n3 n4,
      VisibilityMap.empty.update 1 sampleSA = some (rA, s1) ∧
      s1.update 2 sampleSB = some (rB, s2) ∧
      s2.remove 1 = some s3 ∧ s3.remove 2 = some s4 ∧
      s3.renderUpdates = s2.renderUpdates ++ n3 ∧
      s4.renderUpdates = s3.renderUpdates ++ n4 ∧
      (∀ p, s2.count p
        = (if p ∈ sampleSA then 1 else 0) + (if p ∈ sampleSB then 1 else 0)) ∧
      (∀ p, p ∈ sampleSA ∨ p ∈ sampleSB → s2.isVisible p = true) ∧
      (∀ p, p ∈ sampleSA → p ∈ sampleSB →
        s2.count p = 2 ∧ s3.isVisible p = true ∧ s3.count p = 1 ∧ p ∉ n3) ∧
      (∀ p, p ∈ sampleSA → p ∉ sampleSB → s3.isVisible p = false ∧ n3.count p = 1) ∧
      (∀ p, p ∉ sampleSA → p ∈ sampleSB →
        s3.count p = s2.count p ∧ s3.isVisible p = s2.isVisible p ∧ p ∉ n3) ∧
      (∀ p, p ∈ sampleSB → s4.isVisible p = false ∧ n4.count p = 1) :=
  ⟨⟨by decide, by decide, by decide⟩, by decide,
    additivity 1 2 (by decide) sampleSA sampleSB (by decide) (by decide)⟩

/-- C11 (idempotent net effect): in any state reached from the empty map, `update(o, S)`
performed twice in a row succeeds both times, and the second call leaves the count and hence
`isVisible(p)` of every position, and the entry `lastUpdates[o]` (which is `S`), as they were
after the first call. -/
theorem update_twice_same (ops : List (World × Op)) (o : Creature) (S : List Position) :
    ∃ s r1 s1 r2 s2, run VisibilityMap.empty ops = some s ∧
      s.update o S = some (r1, s1) ∧ s1.update o S = some (r2, s2) ∧
      (∀ p, s2.isVisible p = s1.isVisible p) ∧
      (∀ p, s2.count p = s1.count p) ∧
      Table.getMaybe o s1.lastUpdates = some S ∧
      Table.getMaybe o s2.lastUpdates = Table.getMaybe o s1.lastUpdates := by
  obtain ⟨s, e1, hinv, _, _⟩ := run_ok ops VisibilityMap.empty inv_empty
  obtain ⟨r1, s1, u1, inv1, l1, _, _, _, _⟩ := VisibilityMap.update_ok s o S hinv
  obtain ⟨r2, s2, u2, _, l2, _, _, _, c2⟩ := VisibilityMap.update_ok s1 o S inv1
  have g1 : Table.getMaybe o s1.lastUpdates = some S := by
    rw [l1, Table.getMaybe_set]; simp
  have g2 : Table.getMaybe o s2.lastUpdates = some S := by
    rw [l2, Table.getMaybe_set]; simp
  have hc : ∀ p, s2.count p = s1.count p := by
    intro p
    rw [c2 p, g1]
    simp
  refine ⟨s, r1, s1, r2, s2, e1, u1, u2, ?_, hc, g1, by rw [g1, g2]⟩
  intro p
  rw [isVisible_eq, isVisible_eq, hc p]

/-- C12 (flicker and ordering): in a state reached from the empty map in which observer `o`
has the stored list `S` and a tile `p` of `S` has count exactly 1, the retraction `remove(o)`
appends `nR` to the notification log, with exactly one notification for `p` (its count goes
from 1 to 0); `update(o, S)` appends first that same `nR` and then its returned list, which
contains `p` exactly once (the count goes from 0 back to 1). For every new list `T`, the log
after `update(o, T)` is the old log, then the notifications of the retraction, then those of
applying `T` to the retracted state, which are the returned list. -/
theorem update_flicker_order (ops : List (World × Op)) (s : VisibilityMap) (o : Creature)
    (S : List Position) (p : Position)
    (hs : run VisibilityMap.empty ops = some s)
    (hS : Table.getMaybe o s.lastUpdates = some S) (hp : p ∈ S) (hc : s.count p = 1) :
    ∃ s1 nR, s.remove o = some s1 ∧ s1.renderUpdates = s.renderUpdates ++ nR ∧
      nR = removeTransitions s S ∧ nR.count p = 1 ∧ s1.count p = 0 ∧
      (∃ ret s2, s.update o S = some (ret, s2) ∧
        s2.renderUpdates = s.renderUpdates ++ nR ++ ret ∧ ret.count p = 1 ∧
        s2.count p = 1) ∧
      ∀ T, ∃ retT sT, s.update o T = some (retT, sT) ∧ retT = addTransitions s1 T ∧
        sT.renderUpdates = s.renderUpdates ++ nR ++ retT := by
  obtain ⟨s0, e1, hinv, _, _⟩ := run_ok ops VisibilityMap.empty inv_empty
  rw [hs] at e1
  cases e1
  obtain ⟨s1, r1, _, _, _, r4, r5⟩ := VisibilityMap.remove_ok s o hinv
  rw [hS, Option.getD_some] at r4 r5
  obtain ⟨s0, h0⟩ := removePositions_of_remove s s1 o S hS r1
  have hL := tracked_of_removePositions s s0 S h0
  have hpos : 1 ≤ (S.count p : Int) := by
    have := List.count_pos_iff.mpr hp
    omega
  have hc1 : s1.count p = 0 := by
    have h1 := r5 p
    have h2 := count_of_inv s hinv p
    have h3 := contrib_ge_of_getMaybe p o S s.lastUpdates hS
    have h4 : (0 : Int) ≤ s1.count p := by
      have hinv1 := (VisibilityMap.remove_ok s o hinv)
      obtain ⟨t1, q1, hi1, _⟩ := hinv1
      rw [r1] at q1
      cases q1
      rw [count_of_inv _ hi1 p]
      exact Int.ofNat_nonneg _
    omega
  have hScount : (S.count p : Int) = 1 := by
    have h1 := r5 p
    omega
  have hfun : (fun q => s.count q - ((S.count q : Nat) : Int)) = s1.count := by
    funext q
    exact (r5 q).symm
  refine ⟨s1, crossings s.count (-1) 1 S, r1, r4,
    crossings_eq_removeTransitions s S hL, ?_, hc1, ?_, ?_⟩
  · rw [count_crossings_remove]
    have : 1 ≤ s.count p ∧ s.count p ≤ (S.count p : Int) := by omega
    rw [if_pos this]
  · obtain ⟨ret, s2, u1, _, _, _, u4, u5, u6⟩ := VisibilityMap.update_ok s o S hinv
    rw [hS, Option.getD_some] at u4 u5 u6
    refine ⟨ret, s2, u1, u5, ?_, ?_⟩
    · rw [u4, hfun, count_crossings_add]
      have : s1.count p ≤ 0 ∧ -s1.count p < (S.count p : Int) := by omega
      rw [if_pos this]
    · rw [u6 p]; omega
  · intro T
    obtain ⟨ret, s2, u1, _, _, _, u4, u5, _⟩ := VisibilityMap.update_ok s o T hinv
    rw [hS, Option.getD_some] at u4 u5
    refine ⟨ret, s2, u1, ?_, u5⟩
    rw [u4, hfun, crossings_eq_addTransitions]

/-- Witness for C12: after the two updates of the spec's scenario, `(0, 0)` is visible only
because of observer 1. -/
theorem update_flicker_order_witness :
    (run VisibilityMap.empty flickerOps = some flickerState ∧
      Table.getMaybe 1 flickerState.lastUpdates = some sampleSA ∧
      (⟨0, 0⟩ : Position) ∈ sampleSA ∧ flickerState.count ⟨0, 0⟩ = 1) ∧
    ∃ s1 nR, flickerState.remove 1 = some s1 ∧
      s1.renderUpdates = flickerState.renderUpdates ++ nR ∧
      nR = removeTransitions flickerState sampleSA ∧ nR.count ⟨0, 0⟩ = 1 ∧
      s1.count ⟨0, 0⟩ = 0 ∧
      (∃ ret s2, flickerState.update 1 sampleSA = some (ret, s2) ∧
        s2.renderUpdates = flickerState.renderUpdates ++ nR ++ ret ∧
        ret.count ⟨0, 0⟩ = 1 ∧ s2.count ⟨0, 0⟩ = 1) ∧
      ∀ T, ∃ retT sT, flickerState.update 1 T = some (retT, sT) ∧
        retT = addTransitions s1 T ∧
        sT.renderUpdates = flickerState.renderUpdates ++ nR ++ retT :=
  ⟨⟨by decide, by decide, by decide, by decide⟩,
    update_flicker_order flickerOps flickerState 1 sampleSA ⟨0, 0⟩
      (by decide) (by decide) (by decide) (by decide)⟩

/-- Counterexample to C13 as stated: creature 1 stands on `(0, 0)`, which hosts no eyeball,
but has no entry in `lastUpdates`; `onVisibilityChanged` leaves the empty map as it is, while
`update` creates the entry, the counts and two notifications. -/
theorem onVisibilityChanged_untracked_differs :
    sampleWorld.getCreature ⟨0, 0⟩ = some 1 ∧
    Table.hasKey (⟨0, 0⟩ : Position) VisibilityMap.empty.eyeballs = false ∧
    VisibilityMap.onVisibilityChanged sampleWorld VisibilityMap.empty ⟨0, 0⟩
      = some VisibilityMap.empty ∧
    (VisibilityMap.empty.update 1 (sampleWorld.creatureVisibleTiles 1)).map Prod.snd
      = some { lastUpdates := [(1, [⟨0, 0⟩, ⟨1, 0⟩])]
               visibilityCount := [(⟨0, 0⟩, 1), (⟨1, 0⟩, 1)]
               eyeballs := []
               renderUpdates := [⟨0, 0⟩, ⟨1, 0⟩] } ∧
    VisibilityMap.onVisibilityChanged sampleWorld VisibilityMap.empty ⟨0, 0⟩
      ≠ (VisibilityMap.empty.update 1 (sampleWorld.creatureVisibleTiles 1)).map Prod.snd := by
  decide

/-- C13 (amended): when `pos` is occupied by an observer `c` and hosts no eyeball,
`onVisibilityChanged(pos)` is `update(c, c.getVisibleTiles())` (same tables, same counts,
same notifications, same failure) if `c` has an entry in `lastUpdates`, and changes nothing
if `c` has none. -/
theorem onVisibilityChanged_observer (w : World) (s : VisibilityMap) (pos : Position)
    (c : Creature) (hc : w.getCreature pos = some c)
    (he : Table.hasKey pos s.eyeballs = false) :
    VisibilityMap.onVisibilityChanged w s pos
      = if Table.hasKey c s.lastUpdates = true then
          (s.update c (w.creatureVisibleTiles c)).map Prod.snd
        else some s := by
  unfold VisibilityMap.onVisibilityChanged
  simp only [hc]
  by_cases hk : Table.hasKey c s.lastUpdates = true
  · simp only [hk, if_true]
    cases hu : s.update c (w.creatureVisibleTiles c) with
    | none => rfl
    | some r =>
      obtain ⟨ret, s2⟩ := r
      have h2 := (update_tables s s2 c _ ret hu).2
      simp [h2, he]
  · simp [hk, he]

/-- Witness for C13 (amended): in the sample state creature 1 is tracked on `(0, 0)`. -/
theorem onVisibilityChanged_observer_witness :
    (sampleWorld.getCreature ⟨0, 0⟩ = some 1 ∧
      Table.hasKey (⟨0, 0⟩ : Position) sampleState.eyeballs = false) ∧
    VisibilityMap.onVisibilityChanged sampleWorld sampleState ⟨0, 0⟩
      = if Table.hasKey 1 sampleState.lastUpdates = true then
          (sampleState.update 1 (sampleWorld.creatureVisibleTiles 1)).map Prod.snd
        else some sampleState :=
  ⟨⟨by decide, by decide⟩,
    onVisibilityChanged_observer sampleWorld sampleState ⟨0, 0⟩ 1 (by decide) (by decide)⟩

/-- C14 (reactive consistency): when no observer occupies `pos` and `pos` is not a key of
`eyeballs`, `onVisibilityChanged(pos)` succeeds and returns the state unchanged: the three
tables are the same and nothing is appended to the notification log. -/
theorem onVisibilityChanged_noop (w : World) (s : VisibilityMap) (pos : Position)
    (hc : w.getCreature pos = none) (he : Table.hasKey pos s.eyeballs = false) :
    VisibilityMap.onVisibilityChanged w s pos = some s := by
  unfold VisibilityMap.onVisibilityChanged
  simp [hc, he]

/-- Witness for C14: `(5, 5)` is neither occupied nor an eyeball in the sample state. -/
theorem onVisibilityChanged_noop_witness :
    (sampleWorld.getCreature ⟨5, 5⟩ = none ∧
      Table.hasKey (⟨5, 5⟩ : Position) sampleState.eyeballs = false) ∧
    VisibilityMap.onVisibilityChanged sampleWorld sampleState ⟨5, 5⟩ = some sampleState :=
  ⟨⟨by decide, by decide⟩,
    onVisibilityChanged_noop sampleWorld sampleState ⟨5, 5⟩ (by decide) (by decide)⟩

/-- C15 (eyeball independence): in a state reached from the empty map in which the tile list
stored for observer `o` coincides with the one stored for the eyeball at `pos` (both absent,
or the same list), `updateEyeball(pos)` and `update(o, T)`, with `T` the eyeball vision result
at `pos`, both succeed and produce the same `visibilityCount`, the same `isVisible` for every
position and the same notification log; after `updateEyeball(pos)` the entry `eyeballs[pos]`
is `T` and `lastUpdates` is unchanged. -/
theorem eyeball_independence (ops : List (World × Op)) (s : VisibilityMap) (w : World)
    (pos : Position) (o : Creature)
    (hs : run VisibilityMap.empty ops = some s)
    (hsame : Table.getMaybe o s.lastUpdates = Table.getMaybe pos s.eyeballs) :
    ∃ sE ret sO, VisibilityMap.updateEyeball w s pos = some sE ∧
      s.update o (w.eyeballVisibleTiles pos) = some (ret, sO) ∧
      sE.visibilityCount = sO.visibilityCount ∧
      (∀ p, sE.isVisible p = sO.isVisible p) ∧
      sE.renderUpdates = sO.renderUpdates ∧
      Table.getMaybe pos sE.eyeballs = some (w.eyeballVisibleTiles pos) ∧
      sE.lastUpdates = s.lastUpdates := by
  obtain ⟨s0, e1, hinv, _, _⟩ := run_ok ops VisibilityMap.empty inv_empty
  rw [hs] at e1
  cases e1
  obtain ⟨sE, hE, _, lE, eE, _, _⟩ := VisibilityMap.updateEyeball_ok w s pos hinv
  obtain ⟨ret, sO, hO, _⟩ := VisibilityMap.update_ok s o (w.eyeballVisibleTiles pos) hinv
  have hsc : SameCounter sE sO := by
    have hE2 := hE
    have hO2 := hO
    unfold VisibilityMap.updateEyeball VisibilityMap.removeEyeball at hE2
    unfold VisibilityMap.update VisibilityMap.remove at hO2
    rw [hsame] at hO2
    cases hg : Table.getMaybe pos s.eyeballs with
    | none =>
      simp only [hg, Option.map_some', Option.some.injEq] at hE2 hO2
      have := (sameCounter_addPositions _ _ (w.eyeballVisibleTiles pos)
        (show SameCounter
          { lastUpdates := s.lastUpdates, visibilityCount := s.visibilityCount,
            eyeballs := Table.set pos (w.eyeballVisibleTiles pos)
              (Table.erase pos s.eyeballs),
            renderUpdates := s.renderUpdates }
          { lastUpdates := Table.set o (w.eyeballVisibleTiles pos)
              (Table.erase o s.lastUpdates),
            visibilityCount := s.visibilityCount, eyeballs := s.eyeballs,
            renderUpdates := s.renderUpdates } from ⟨rfl, rfl⟩)).2
      rw [hE2] at this
      rw [hO2] at this
      exact this
    | some S =>
      simp only [hg] at hE2 hO2
      cases hr : s.removePositions S with
      | none => simp [hr] at hE2
      | some s1 =>
        simp only [hr, Option.map_some', Option.some.injEq] at hE2 hO2
        have := (sameCounter_addPositions _ _ (w.eyeballVisibleTiles pos)
          (show SameCounter
            { lastUpdates := s1.lastUpdates, visibilityCount := s1.visibilityCount,
              eyeballs := Table.set pos (w.eyeballVisibleTiles pos)
                (Table.erase pos s1.eyeballs),
              renderUpdates := s1.renderUpdates }
            { lastUpdates := Table.set o (w.eyeballVisibleTiles pos)
                (Table.erase o s1.lastUpdates),
              visibilityCount := s1.visibilityCount, eyeballs := s1.eyeballs,
              renderUpdates := s1.renderUpdates } from ⟨rfl, rfl⟩)).2
        rw [hE2] at this
        rw [hO2] at this
        exact this
  refine ⟨sE, ret, sO, hE, hO, hsc.1, ?_, hsc.2, ?_, lE⟩
  · intro p
    unfold VisibilityMap.isVisible
    rw [hsc.1]
  · rw [eE, Table.getMaybe_set]; simp

/-- Witness for C15: observer 1 and the eyeball at `(1, 0)` both store `(1,0), (2,0)`; the
eyeball is then recomputed in a world where it sees `(1,0), (1,1)`. -/
theorem eyeball_independence_witness :
    (run VisibilityMap.empty twinOps = some twinState ∧
      Table.getMaybe 1 twinState.lastUpdates
        = Table.getMaybe (⟨1, 0⟩ : Position) twinState.eyeballs) ∧
    ∃ sE ret sO, VisibilityMap.updateEyeball sampleWorld2 twinState ⟨1, 0⟩ = some sE ∧
      twinState.update 1 (sampleWorld2.eyeballVisibleTiles ⟨1, 0⟩) = some (ret, sO) ∧
      sE.visibilityCount = sO.visibilityCount ∧
      (∀ p, sE.isVisible p = sO.isVisible p) ∧
      sE.renderUpdates = sO.renderUpdates ∧
      Table.getMaybe (⟨1, 0⟩ : Position) sE.eyeballs
        = some (sampleWorld2.eyeballVisibleTiles ⟨1, 0⟩) ∧
      sE.lastUpdates = twinState.lastUpdates :=
  ⟨⟨by decide, by decide⟩,
    eyeball_independence twinOps twinState sampleWorld2 ⟨1, 0⟩ 1 (by decide) (by decide)⟩

/-- C16: when `pos` is a key of `eyeballs`, `onVisibilityChanged(pos)` is `updateEyeball(pos)`
if no observer occupies `pos` (or the occupying observer has no entry in `lastUpdates`), and
is `update(c, c.getVisibleTiles())` followed by `updateEyeball(pos)` if a tracked observer `c`
occupies `pos`. For every position `pos`, a position without an eyeball entry before
`onVisibilityChanged(pos)` has none afterwards. -/
theorem onVisibilityChanged_eyeball (w : World) (s : VisibilityMap) (pos : Position) :
    (Table.hasKey pos s.eyeballs = true →
      (w.getCreature pos = none →
        VisibilityMap.onVisibilityChanged w s pos = VisibilityMap.updateEyeball w s pos) ∧
      (∀ c, w.getCreature pos = some c → Table.hasKey c s.lastUpdates = false →
        VisibilityMap.onVisibilityChanged w s pos = VisibilityMap.updateEyeball w s pos) ∧
      (∀ c, w.getCreature pos = some c → Table.hasKey c s.lastUpdates = true →
        VisibilityMap.onVisibilityChanged w s pos
          = (s.update c (w.creatureVisibleTiles c)).bind
              (fun r => VisibilityMap.updateEyeball w r.2 pos))) ∧
    (∀ s2 q, VisibilityMap.onVisibilityChanged w s pos = some s2 →
      Table.hasKey q s.eyeballs = false → Table.hasKey q s2.eyeballs = false) := by
  constructor
  · intro he
    refine ⟨?_, ?_, ?_⟩
    · intro hc
      unfold VisibilityMap.onVisibilityChanged
      simp [hc, he]
    · intro c hc hk
      unfold VisibilityMap.onVisibilityChanged
      simp [hc, hk, he]
    · intro c hc hk
      unfold VisibilityMap.onVisibilityChanged
      simp only [hc, hk, if_true]
      cases hu : s.update c (w.creatureVisibleTiles c) with
      | none => rfl
      | some r =>
        obtain ⟨ret, s1⟩ := r
        have h2 := (update_tables s s1 c _ ret hu).2
        simp [h2, he]
  · intro s2 q h hq
    unfold VisibilityMap.onVisibilityChanged at h
    -- the state after the observer half has the same eyeballs table
    have hfirst : ∀ s1, (match w.getCreature pos with
        | some c =>
          if Table.hasKey c s.lastUpdates then
            (s.update c (w.creatureVisibleTiles c)).map Prod.snd
          else some s
        | none => some s) = some s1 → s1.eyeballs = s.eyeballs := by
      intro s1 h1
      cases hc : w.getCreature pos with
      | none =>
        simp only [hc, Option.some.injEq] at h1
        rw [← h1]
      | some c =>
        simp only [hc] at h1
        by_cases hk : Table.hasKey c s.lastUpdates = true
        · simp only [hk, if_true] at h1
          cases hu : s.update c (w.creatureVisibleTiles c) with
          | none => simp [hu] at h1
          | some r =>
            obtain ⟨ret, s0⟩ := r
            simp only [hu, Option.map_some', Option.some.injEq] at h1
            rw [← h1]
            exact (update_tables s s0 c _ ret hu).2
        · simp only [hk, Bool.false_eq_true, if_false, Option.some.injEq] at h1
          rw [← h1]
    cases h1 : (match w.getCreature pos with
        | some c =>
          if Table.hasKey c s.lastUpdates then
            (s.update c (w.creatureVisibleTiles c)).map Prod.snd
          else some s
        | none => some s) with
    | none => simp [h1] at h
    | some s1 =>
      have he1 := hfirst s1 h1
      simp only [h1, Option.some_bind] at h
      by_cases hk : Table.hasKey pos s1.eyeballs = true
      · simp only [hk, if_true] at h
        have h3 := (updateEyeball_tables w s1 s2 pos h).2
        have hne : ¬ pos = q := by
          intro e
          rw [e, he1, hq] at hk
          cases hk
        unfold Table.hasKey at hq ⊢
        rw [h3, Table.getMaybe_set, Table.getMaybe_erase, he1]
        simpa [hne] using hq
      · simp only [hk, Bool.false_eq_true, if_false, Option.some.injEq] at h
        rw [← h, he1]
        exact hq

/-- C17 (union-find correctness): for `DisjointSets(n)` and any sequence of `join(i, j)` calls
with `0 <= i, j < n`, every call returns once the loops of `getSet` are given enough fuel
(`2 ^ (number of joins + 1)` iterations suffice); afterwards `getSet(i)` returns for every
`i < n`, and `same(a, b)`, in either order of its two `getSet` calls, is true exactly when `a`
and `b` are related by the reflexive, symmetric, transitive closure of the joined pairs. The
same holds in the state left by any `getSet` or `same` call, so path compression does not
change which elements are in the same set. -/
theorem disjointSets_same_iff (n : Nat) (joins : List (Nat × Nat))
    (hj : ∀ e ∈ joins, e.1 < n ∧ e.2 < n) (fuel : Nat)
    (hfuel : 2 ^ (joins.length + 1) ≤ fuel) (jFirst : Bool) (a b : Nat)
    (ha : a < n) (hb : b < n) :
    ∃ d, DisjointSets.joinAll fuel (DisjointSets.init n) joins = some d ∧
      (∀ i, i < n → ∃ r d1, d.getSet fuel i = some (r, d1) ∧
        ∀ c e, c < n → e < n → ∃ res2 d2, d1.same jFirst fuel c e = some (res2, d2) ∧
          (res2 = true ↔ Relation.EqvGen (DisjointSets.joined joins) c e)) ∧
      ∃ res d1, d.same jFirst fuel a b = some (res, d1) ∧
        (res = true ↔ Relation.EqvGen (DisjointSets.joined joins) a b) ∧
        ∀ c e, c < n → e < n → ∃ res2 d2, d1.same jFirst fuel c e = some (res2, d2) ∧
          (res2 = true ↔ Relation.EqvGen (DisjointSets.joined joins) c e) := by
  obtain ⟨F0, s0, sem0⟩ := DisjointSets.forest_init n
  have hb1 : DisjointSets.boundAfter 1 joins.length ≤ fuel := by
    have := DisjointSets.boundAfter_eq joins.length 1
    rw [pow_succ] at hfuel
    omega
  obtain ⟨d, root, depth, e1, F, _, sem⟩ :=
    DisjointSets.joinAll_spec joins (DisjointSets.init n) _ _ 1 [] F0 s0 sem0 hj fuel hb1
  rw [List.nil_append] at sem
  have key : ∀ (d1 : DisjointSets),
      DisjointSets.Forest d1.father n root depth (DisjointSets.boundAfter 1 joins.length) →
      ∀ c e, c < n → e < n → ∃ res2 d2, d1.same jFirst fuel c e = some (res2, d2) ∧
        (res2 = true ↔ Relation.EqvGen (DisjointSets.joined joins) c e) := by
    intro d1 F1 c e hc he
    obtain ⟨d2, h2, _⟩ := DisjointSets.same_spec d1 F1 jFirst fuel c e hc he hb1
    refine ⟨_, d2, h2, ?_⟩
    rw [decide_eq_true_eq]
    exact sem c e
  refine ⟨d, e1, ?_, ?_⟩
  · intro i hi
    obtain ⟨d1, g1, F1, _⟩ := DisjointSets.getSet_spec d F fuel i hi hb1
    exact ⟨root i, d1, g1, key d1 F1⟩
  · obtain ⟨d1, h1, F1⟩ := DisjointSets.same_spec d F jFirst fuel a b ha hb hb1
    refine ⟨_, d1, h1, ?_, key d1 F1⟩
    rw [decide_eq_true_eq]
    exact sem a b

/-- Witness for C17: four elements, `join(0, 1)` and `join(2, 3)`, then `same(0, 1)`. -/
theorem disjointSets_same_iff_witness :
    ((∀ e ∈ [((0 : Nat), (1 : Nat)), (2, 3)], e.1 < 4 ∧ e.2 < 4) ∧
      2 ^ ([((0 : Nat), (1 : Nat)), (2, 3)].length + 1) ≤ 8 ∧ 0 < 4 ∧ 1 < 4) ∧
    ((DisjointSets.joinAll 8 (DisjointSets.init 4) [(0, 1), (2, 3)]).bind
        (fun d => (d.same false 8 0 1).map Prod.fst) = some true ∧
      (DisjointSets.joinAll 8 (DisjointSets.init 4) [(0, 1), (2, 3)]).bind
        (fun d => (d.same false 8 1 2).map Prod.fst) = some false) ∧
    ∃ d, DisjointSets.joinAll 8 (DisjointSets.init 4) [(0, 1), (2, 3)] = some d ∧
      (∀ i, i < 4 → ∃ r d1, d.getSet 8 i = some (r, d1) ∧
        ∀ c e, c < 4 → e < 4 → ∃ res2 d2, d1.same false 8 c e = some (res2, d2) ∧
          (res2 = true ↔ Relation.EqvGen (DisjointSets.joined [(0, 1), (2, 3)]) c e)) ∧
      ∃ res d1, d.same false 8 0 1 = some (res, d1) ∧
        (res = true ↔ Relation.EqvGen (DisjointSets.joined [(0, 1), (2, 3)]) 0 1) ∧
        ∀ c e, c < 4 → e < 4 → ∃ res2 d2, d1.same false 8 c e = some (res2, d2) ∧
          (res2 = true ↔ Relation.EqvGen (DisjointSets.joined [(0, 1), (2, 3)]) c e) :=
  ⟨⟨by decide, by decide, by decide, by decide⟩, ⟨by decide, by decide⟩,
    disjointSets_same_iff 4 [(0, 1), (2, 3)] (by decide) 8 (by decide) false 0 1
      (by decide) (by decide)⟩

/-- C18: `calculateLayers` terminates on every finite set (a fuel above the size of the set
suffices); the returned layers are pairwise disjoint and their union is the input set; when
the input is non-empty every layer is non-empty; and layer `k` consists exactly of the
elements of the set remaining after layers `0..k-1` were removed that have a 4-neighbour
outside that remaining set. -/
theorem calculateLayers_spec (elems : Finset Vec2) (extra : Nat) :
    ∃ layers, Vec2.calculateLayers (elems.card + 1 + extra) elems = some layers ∧
      layers.Pairwise Disjoint ∧
      (∀ v, v ∈ elems ↔ ∃ l ∈ layers, v ∈ l) ∧
      (elems.Nonempty → ∀ l ∈ layers, l.Nonempty) ∧
      (∀ k l, layers[k]? = some l → ∀ v, v ∈ l ↔
        (v ∈ Vec2.remaining elems (layers.take k) ∧
          ∃ v2 ∈ v.neighbors4, v2 ∉ Vec2.remaining elems (layers.take k))) := by
  obtain ⟨L, e1, p1, p2, p3, p4⟩ :=
    calculateLayersLoop_spec (elems.card + 1 + extra) elems [] (by omega)
  refine ⟨L, by simpa [Vec2.calculateLayers] using e1, p1, p2, p3, ?_⟩
  intro k l hk v
  rw [p4 k l hk, mem_boundary_iff]

/-- C19: for a rectangle whose constructor `CHECK` passed, the iteration of `getAllSquares`
from `begin()` to `end()` terminates (any fuel above `w * h` suffices) and returns the list of
the `w * h` squares in column-major order: its length is `w * h`, a `Vec2` occurs in it
exactly when it is `inRectangle`, that is `px <= x < kx` and `py <= y < ky`, no square occurs
twice, and the list is ordered by `x` and then by `y`. -/
theorem getAllSquares_spec (a b c d : Int) (r : Rectangle)
    (h : Rectangle.construct a b c d = some r) (extra : Nat) :
    ∃ L, r.getAllSquares (r.w.toNat * r.h.toNat + 1 + extra) = some L ∧
      L = (List.range (r.w.toNat * r.h.toNat)).map r.squareAt ∧
      (L.length : Int) = r.w * r.h ∧
      (∀ v : Vec2, v ∈ L ↔ v.inRectangle r = true) ∧
      (∀ v : Vec2, v ∈ L ↔ (r.px ≤ v.x ∧ v.x < r.kx ∧ r.py ≤ v.y ∧ v.y < r.ky)) ∧
      L.Nodup ∧ L.Pairwise Vec2.lexLt := by
  obtain ⟨hac, hbd, e1, e2, e3, e4, e5, e6⟩ := construct_eq_some a b c d r h
  have hw : r.px < r.kx := by omega
  have hh : r.py < r.ky := by omega
  have hW : r.w = r.kx - r.px := by omega
  have hH : r.h = r.ky - r.py := by omega
  have hbegin : r.begin = Rectangle.Iter.mk (r.squareAt 0) r.px r.py r.kx r.ky := by
    simp [Rectangle.begin, Rectangle.squareAt]
  have hloop := squaresLoop_spec r hw hh hW hH (r.w.toNat * r.h.toNat) 0
    (r.w.toNat * r.h.toNat + 1 + extra) [] (by omega) (by omega)
  have hsorted : ((List.range (r.w.toNat * r.h.toNat)).map r.squareAt).Pairwise
      Vec2.lexLt := by
    rw [List.pairwise_map]
    exact List.Pairwise.imp (fun {a b} hab => squareAt_lexLt r a b hab)
      (List.pairwise_lt_range _)
  refine ⟨(List.range (r.w.toNat * r.h.toNat)).map r.squareAt, ?_, rfl, ?_,
    mem_squares_iff r hw hh hW hH, ?_, ?_, hsorted⟩
  · unfold Rectangle.getAllSquares
    rw [hbegin, hloop, List.nil_append, List.range_eq_range']
  · rw [List.length_map, List.length_range]
    push_cast
    have h1 : ((r.w.toNat : Nat) : Int) = r.w := by omega
    have h2 : ((r.h.toNat : Nat) : Int) = r.h := by omega
    rw [h1, h2]
  · intro v
    rw [mem_squares_iff r hw hh hW hH, inRectangle_iff]
  · apply List.Pairwise.imp _ hsorted
    intro u v huv heq
    subst heq
    unfold Vec2.lexLt at huv
    omega

/-- Witness for C19: the rectangle `[0,2) x [0,3)`, whose six squares come out column by
column. -/
theorem getAllSquares_spec_witness :
    Rectangle.construct 0 0 2 3 = some ⟨0, 0, 2, 3, 2, 3⟩ ∧
    (Rectangle.mk 0 0 2 3 2 3).getAllSquares 7
      = some [⟨0, 0⟩, ⟨0, 1⟩, ⟨0, 2⟩, ⟨1, 0⟩, ⟨1, 1⟩, ⟨1, 2⟩] ∧
    ∃ L, (Rectangle.mk 0 0 2 3 2 3).getAllSquares
        ((Rectangle.mk 0 0 2 3 2 3).w.toNat * (Rectangle.mk 0 0 2 3 2 3).h.toNat + 1 + 0)
        = some L ∧
      L = (List.range ((Rectangle.mk 0 0 2 3 2 3).w.toNat *
          (Rectangle.mk 0 0 2 3 2 3).h.toNat)).map (Rectangle.mk 0 0 2 3 2 3).squareAt ∧
      (L.length : Int) = (Rectangle.mk 0 0 2 3 2 3).w * (Rectangle.mk 0 0 2 3 2 3).h ∧
      (∀ v : Vec2, v ∈ L ↔ v.inRectangle ⟨0, 0, 2, 3, 2, 3⟩ = true) ∧
      (∀ v : Vec2, v ∈ L ↔
        ((Rectangle.mk 0 0 2 3 2 3).px ≤ v.x ∧ v.x < (Rectangle.mk 0 0 2 3 2 3).kx ∧
          (Rectangle.mk 0 0 2 3 2 3).py ≤ v.y ∧ v.y < (Rectangle.mk 0 0 2 3 2 3).ky)) ∧
      L.Nodup ∧ L.Pairwise Vec2.lexLt :=
  ⟨by decide, by decide, getAllSquares_spec 0 0 2 3 ⟨0, 0, 2, 3, 2, 3⟩ (by decide) 0⟩

/-- C20: for rectangles `r1`, `r2` whose constructor `CHECK` passed, `r1.intersects(r2)` is
true exactly when some `Vec2` lies in both; when it is true, `r1.intersection(r2)` is built
successfully and a `Vec2` lies in it exactly when it lies in both `r1` and `r2`; when it is
false, `r1.intersection(r2)` fails the constructor `CHECK`. -/
theorem intersects_intersection (a1 b1 c1 d1 a2 b2 c2 d2 : Int) (r1 r2 : Rectangle)
    (_h1 : Rectangle.construct a1 b1 c1 d1 = some r1)
    (_h2 : Rectangle.construct a2 b2 c2 d2 = some r2) :
    (r1.intersects r2 = true ↔
      ∃ v : Vec2, v.inRectangle r1 = true ∧ v.inRectangle r2 = true) ∧
    (r1.intersects r2 = true → ∃ r, r1.intersection r2 = some r ∧
      r.kx > r.px ∧ r.ky > r.py ∧
      ∀ v : Vec2, v.inRectangle r = true ↔
        (v.inRectangle r1 = true ∧ v.inRectangle r2 = true)) ∧
    (r1.intersects r2 = false → r1.intersection r2 = none) := by
  refine ⟨?_, ?_, ?_⟩
  · rw [intersects_iff]
    constructor
    · intro h
      refine ⟨⟨max r1.px r2.px, max r1.py r2.py⟩, ?_, ?_⟩
      · rw [inRectangle_iff]; simp only; omega
      · rw [inRectangle_iff]; simp only; omega
    · rintro ⟨v, hv1, hv2⟩
      rw [inRectangle_iff] at hv1 hv2
      omega
  · intro h
    rw [intersects_iff] at h
    refine ⟨{ px := max r1.px r2.px, py := max r1.py r2.py, kx := min r1.kx r2.kx,
              ky := min r1.ky r2.ky, w := min r1.kx r2.kx - max r1.px r2.px,
              h := min r1.ky r2.ky - max r1.py r2.py }, ?_, h.1, h.2, ?_⟩
    · unfold Rectangle.intersection Rectangle.construct
      rw [if_pos ⟨h.1, h.2⟩]
    · intro v
      simp only [inRectangle_iff]
      omega
  · intro h
    have h3 : ¬ (max r1.px r2.px < min r1.kx r2.kx ∧ max r1.py r2.py < min r1.ky r2.ky) := by
      rw [← intersects_iff, h]; simp
    unfold Rectangle.intersection Rectangle.construct
    rw [if_neg h3]

/-- Witness for C20: the overlapping rectangles `[0,4) x [0,3)` and `[2,6) x [1,5)`. -/
theorem intersects_intersection_witness :
    (Rectangle.construct 0 0 4 3 = some ⟨0, 0, 4, 3, 4, 3⟩ ∧
      Rectangle.construct 2 1 6 5 = some ⟨2, 1, 6, 5, 4, 4⟩) ∧
    ((Rectangle.mk 0 0 4 3 4 3).intersects ⟨2, 1, 6, 5, 4, 4⟩ = true ↔
      ∃ v : Vec2, v.inRectangle ⟨0, 0, 4, 3, 4, 3⟩ = true ∧
        v.inRectangle ⟨2, 1, 6, 5, 4, 4⟩ = true) ∧
    ((Rectangle.mk 0 0 4 3 4 3).intersects ⟨2, 1, 6, 5, 4, 4⟩ = true →
      ∃ r, (Rectangle.mk 0 0 4 3 4 3).intersection ⟨2, 1, 6, 5, 4, 4⟩ = some r ∧
        r.kx > r.px ∧ r.ky > r.py ∧
        ∀ v : Vec2, v.inRectangle r = true ↔
          (v.inRectangle ⟨0, 0, 4, 3, 4, 3⟩ = true ∧
            v.inRectangle ⟨2, 1, 6, 5, 4, 4⟩ = true)) ∧
    ((Rectangle.mk 0 0 4 3 4 3).intersects ⟨2, 1, 6, 5, 4, 4⟩ = false →
      (Rectangle.mk 0 0 4 3 4 3).intersection ⟨2, 1, 6, 5, 4, 4⟩ = none) :=
  ⟨⟨by decide, by decide⟩,
    intersects_intersection 0 0 4 3 2 1 6 5 ⟨0, 0, 4, 3, 4, 3⟩ ⟨2, 1, 6, 5, 4, 4⟩
      (by decide) (by decide)⟩

/-- C21: `split("", D)` is the empty list; for a non-empty `s`, `split(s, D)` returns a list
of pieces whose length is the number of characters of `s` that are in `D` plus one, no piece
contains a character of `D`, and the pieces interleaved with the delimiter characters of `s`,
in order, give back `s`; when `D` is the single character `c`, joining the pieces with `c`
gives back `s`. -/
theorem split_spec (s D : List Char) (hs : s ≠ []) :
    split [] D = some [] ∧
    ∃ pieces, split s D = some pieces ∧
      pieces.length = (s.filter (fun c => decide (c ∈ D))).length + 1 ∧
      (∀ p ∈ pieces, ∀ c ∈ p, c ∉ D) ∧
      (List.zipWith (· ++ ·) pieces
          ((s.filter (fun c => decide (c ∈ D))).map (fun c => [c]) ++ [[]])).flatten = s ∧
      (∀ c, (∀ x, x ∈ D ↔ x = c) → [c].intercalate pieces = s) := by
  refine ⟨rfl, ?_⟩
  obtain ⟨ret, p, e1, hlen, hpieces, hcur, hjoin⟩ := split_core s D hs
  refine ⟨ret ++ [p], e1, by simp [hlen], ?_, ?_, ?_⟩
  · intro q hq
    rcases List.mem_append.mp hq with h | h
    · exact hpieces q h
    · rw [List.mem_singleton] at h
      rw [h]; exact hcur
  · rw [List.zipWith_append _ _ _ _ _ (by simpa using hlen)]
    simpa using hjoin
  · intro c hc
    rw [intercalate_snoc c p ret _ hlen, hjoin]
    intro x hx
    have := (List.mem_filter.mp hx).2
    exact (hc x).mp (by simpa using this)

/-- Witness for C21: the string `a.b,,c` split at `.` and `,`. -/
theorem split_spec_witness :
    ("a.b,,c".toList ≠ [] ∧
      split "a.b,,c".toList ['.', ','] = some ["a".toList, "b".toList, [], "c".toList]) ∧
    split [] ['.', ','] = some [] ∧
    ∃ pieces, split "a.b,,c".toList ['.', ','] = some pieces ∧
      pieces.length
        = ("a.b,,c".toList.filter (fun c => decide (c ∈ ['.', ',']))).length + 1 ∧
      (∀ p ∈ pieces, ∀ c ∈ p, c ∉ ['.', ',']) ∧
      (List.zipWith (· ++ ·) pieces
          (("a.b,,c".toList.filter (fun c => decide (c ∈ ['.', ',']))).map (fun c => [c])
            ++ [[]])).flatten = "a.b,,c".toList ∧
      (∀ c, (∀ x, x ∈ ['.', ','] ↔ x = c) → [c].intercalate pieces = "a.b,,c".toList) :=
  ⟨⟨by decide, by decide⟩, split_spec "a.b,,c".toList ['.', ','] (by decide)⟩

/-- C22: for every string `s` whose last character is `.`, `split(s, {'.'})` ends with an
empty piece, `trim` fails its `CHECK(s.size() > 0)` on an empty string, and `makeSentences(s)`
does not return a result; `makeSentences("")` returns the empty list. -/
theorem makeSentences_trailing_dot (s : List Char) (hs : s.getLast? = some '.') :
    makeSentences s = none ∧ (∃ ret, split s ['.'] = some (ret ++ [[]])) ∧
    trim [] = none ∧ makeSentences [] = some [] := by
  obtain ⟨ret, e1⟩ := split_last_empty s hs
  refine ⟨?_, ⟨ret, e1⟩, rfl, rfl⟩
  unfold makeSentences
  rw [e1, Option.some_bind, makeSentencesLoop_empty_last]

/-- Witness for C22: the string `Hello there. bye.`. -/
theorem makeSentences_trailing_dot_witness :
    "Hello there. bye.".toList.getLast? = some '.' ∧
    makeSentences "Hello there. bye.".toList = none ∧
    (∃ ret, split "Hello there. bye.".toList ['.'] = some (ret ++ [[]])) ∧
    trim [] = none ∧ makeSentences [] = some [] :=
  ⟨by decide, makeSentences_trailing_dot "Hello there. bye.".toList (by decide)⟩

/-- C23 (direction round trip): for each of the eight values `d` of `Dir`,
`Vec2(d).getCardinalDir()` is `d`; and for every `Vec2 v`, `v.getCardinalDir()` returns a
direction (does not reach `FAIL`) exactly when `max(|x|, |y|) = 1`, in which case the `Vec2`
of the returned direction is `v` again. -/
theorem cardinalDir_roundtrip (d : Dir) (v : Vec2) :
    (Vec2.ofDir d).getCardinalDir = some d ∧
    (v.getCardinalDir.isSome = true ↔ max |v.x| |v.y| = 1) ∧
    (∀ d2, v.getCardinalDir = some d2 → Vec2.ofDir d2 = v) := by
  refine ⟨by cases d <;> decide, ?_, ?_⟩
  · rcases getCardinalDir_cases v with ⟨h1, h2⟩ | ⟨d2, h1, _, h3⟩
    · rw [h1]; simp [h2]
    · rw [h1]; simp [h3]
  · intro d2 hd
    rcases getCardinalDir_cases v with ⟨h1, _⟩ | ⟨d3, h1, h2, _⟩
    · rw [h1] at hd; cases hd
    · rw [h1] at hd
      cases hd
      exact h2

end KeeperRL
